import Mathlib

/-!
Verification development for the blink.pairs delimiter-matching core.

The Rust sources embedded here are `src/buffer.rs` (the `ParsedBuffer`
resolution and query engine), `src/parser/parse.rs` (the parser driver),
`src/parser/indent.rs` (the indentation utility) and the two language
tables `src/parser/languages/sql.rs` and `src/parser/languages/vim.rs`.
The `Match`/`Token`/`Kind`/`State` data model, the tokenizer, the
per-language matcher transition logic and the `parse_filetype` dispatch
are not part of the given sources; those definitions are modelled from the
specification and are marked as such in their doc comments.

Machine integers (`usize`, `u8`) are modelled as `Nat`; operations that
panic in Rust (out-of-bounds slicing, underflowing subtraction) are
modelled by an `Option` result where `none` stands for the panic.
-/

namespace BlinkPairs

/-- Modelled from the spec: the `Kind` attached to every Match.  Spec section 3:
Kind is `Opening | Closing` "plus an implicit other/self-contained case for
comments and line-comment markers, which are not categorized as
opening/closing"; that third case is `Kind.other` here.  `span_at` in
`buffer.rs` relies on span Matches carrying `opening`/`closing` kinds. -/
inductive Kind where
  | opening
  | closing
  | other
deriving DecidableEq, Repr

/-- Modelled from the spec: the semantic token classification of a Match
(spec section 3, "Token-kind"): `Delimiter(open, close)`,
`LineComment(marker)`, `BlockComment(open, close)`,
`InlineSpan(id, open, close)`, `BlockSpan(id, open, close)`. -/
inductive Token where
  | delimiter (openM closeM : String)
  | lineComment (marker : String)
  | blockComment (openM closeM : String)
  | inlineSpan (id openM closeM : String)
  | blockSpan (id openM closeM : String)
deriving DecidableEq, Repr

/-- Modelled from the spec: `Token::opening()` as used in `buffer.rs`
(`match_.token.opening() == opening`): the marker that opens the construct. -/
def Token.opening : Token → String
  | .delimiter o _ => o
  | .lineComment m => m
  | .blockComment o _ => o
  | .inlineSpan _ o _ => o
  | .blockSpan _ o _ => o

/-- Modelled from the spec: `Token::closing()` as used in `buffer.rs`
(`match_.token.closing() == Some(closing)`): the marker that closes the
construct, absent for line comments. -/
def Token.closing : Token → Option String
  | .delimiter _ c => some c
  | .lineComment _ => none
  | .blockComment _ c => some c
  | .inlineSpan _ _ c => some c
  | .blockSpan _ _ c => some c

/-- `Token.isDelimiter` decides the `matches!(token, Token::Delimiter(_, _))`
pattern used in `buffer.rs`. -/
def Token.isDelimiter : Token → Bool
  | .delimiter _ _ => true
  | _ => false

/-- `Token.isComment` holds on line-comment and block-comment tokens. -/
def Token.isComment : Token → Bool
  | .lineComment _ => true
  | .blockComment _ _ => true
  | _ => false

/-- Modelled from the spec (section 3): a Match is
`{ kind, token, col, len, stack_height }`; `stack_height` is `None` until
resolved, and `None` after resolution means unmatched. -/
structure Match where
  kind : Kind
  token : Token
  col : Nat
  len : Nat
  stack_height : Option Nat
deriving DecidableEq, Repr

instance : Inhabited Match :=
  ⟨{ kind := .other, token := .lineComment "", col := 0, len := 0, stack_height := none }⟩

/-- Modelled from the spec (section 3): a Match annotated with its absolute
line number, returned by queries. -/
structure MatchWithLine where
  m : Match
  line : Nat
deriving DecidableEq, Repr

/-- `Match::with_line` from the repository. -/
def Match.with_line (m : Match) (line : Nat) : MatchWithLine := ⟨m, line⟩

/-- The lexical `State` carried across line boundaries, from
`src/parser/parse.rs` lines 7-16. -/
inductive State where
  | normal
  | inString (marker : String)
  | inBlockString (marker : String)
  | inLineComment
  | inBlockComment (marker : String)
  | inInlineSpan (id : String)
  | inBlockSpan (id : String)
deriving DecidableEq, Repr

/-- `ParsedBuffer` from `src/buffer.rs` lines 3-6. -/
structure ParsedBuffer where
  matches_by_line : List (List Match)
  state_by_line : List State
deriving DecidableEq, Repr

/-! ### Stack-height resolution (`src/buffer.rs` lines 59-101)

The Rust code walks every Match of every line in document order, keeping a
stack of mutable references to pending opening Matches and writing
`stack_height` fields in place.  The embedding replaces the in-place
mutation by an assignment map keyed by the document-order index of each
Match: `resolveGo` computes the map, and `assignHeights` rebuilds the
per-line lists from it.  `none` in the map means the algorithm never wrote
that Match's `stack_height` (which in fact never happens: every Match is
written exactly once). -/

/-- One update of the assignment map. -/
def mupd (f : Nat → Option (Option Nat)) (k : Nat) (v : Option Nat) :
    Nat → Option (Option Nat) :=
  fun i => if i = k then some v else f i

/-- The scan `for (i, opening) in stack.iter().enumerate().rev()` of
`buffer.rs` lines 76-89: find the entry nearest the top of the stack whose
token equals the closer's token.  The stack is a list with its top at the
head; on success the result is `(entriesAboveTheHit, hit, entriesBelow)`. -/
def findCompat : List (Nat × Match) → Token →
    Option (List (Nat × Match) × (Nat × Match) × List (Nat × Match))
  | [], _ => none
  | e :: rest, t =>
    if e.2.token = t then some ([], e, rest)
    else
      match findCompat rest t with
      | some (pre, hit, post) => some (e :: pre, hit, post)
      | none => none

/-- The main loop of `recalculate_stack_heights` (`buffer.rs` lines 68-100)
over the document-order stream of `(index, Match)` pairs.  Opening-kind
Matches are pushed; any other Match takes the closing branch: the stack is
scanned for the nearest token-equal entry, the skipped entries are marked
unmatched, the pair gets the remaining depth, and a failed scan marks the
closer alone; at the end every Match still on the stack is marked
unmatched (lines 97-100). -/
def resolveGo : List (Nat × Match) → List (Nat × Match) →
    (Nat → Option (Option Nat)) → (Nat → Option (Option Nat))
  | stack, [], marks => stack.foldl (fun mk e => mupd mk e.1 none) marks
  | stack, (i, m) :: rest, marks =>
    if m.kind = Kind.opening then
      resolveGo ((i, m) :: stack) rest marks
    else
      match findCompat stack m.token with
      | some (pre, hit, post) =>
        let mk1 := pre.foldl (fun mk e => mupd mk e.1 none) marks
        let mk2 := mupd (mupd mk1 hit.1 (some post.length)) i (some post.length)
        resolveGo post rest mk2
      | none => resolveGo stack rest (mupd marks i none)

/-- Rebuild the per-line Match lists, replacing each Match's
`stack_height` by its entry in the assignment map (an untouched entry
keeps the original field, mirroring that the Rust code only ever writes
through the map). -/
def assignHeights : Nat → List (List Match) → (Nat → Option (Option Nat)) →
    List (List Match)
  | _, [], _ => []
  | off, line :: rest, marks =>
    (line.enum.map fun (k, m) =>
      { m with stack_height := (marks (off + k)).getD m.stack_height }) ::
      assignHeights (off + line.length) rest marks

/-- `ParsedBuffer::recalculate_stack_heights` (`buffer.rs` lines 59-101). -/
def recalculate_stack_heights (b : ParsedBuffer) : ParsedBuffer :=
  { b with
    matches_by_line :=
      assignHeights 0 b.matches_by_line
        (resolveGo [] b.matches_by_line.flatten.enum fun _ => none) }

/-! ### Query operations (`src/buffer.rs` lines 103-378)

Queries that can hit a panicking slice in Rust return `Option` with `none`
modelling the panic. -/

/-- `ParsedBuffer::line_matches` (`buffer.rs` lines 103-105). -/
def line_matches (b : ParsedBuffer) (line_number : Nat) : Option (List Match) :=
  b.matches_by_line.get? line_number

/-- `ParsedBuffer::iter_from` (`buffer.rs` lines 107-122).  The Rust slice
`matches_by_line[line_number.max(0)..]` panics when `line_number` exceeds
the number of lines (`.max(0)` is a no-op on `usize`); that panic is the
`none` case. -/
def iter_from (b : ParsedBuffer) (line_number col : Nat) :
    Option (List MatchWithLine) :=
  if max line_number 0 > b.matches_by_line.length then none
  else
    some ((b.matches_by_line.drop line_number).enum.flatMap fun (offset, ms) =>
      (ms.filter fun m =>
        decide (line_number + offset ≠ line_number ∨ m.col ≥ col)).map
        fun m => m.with_line (line_number + offset))

/-- `ParsedBuffer::iter_to` (`buffer.rs` lines 124-139).  The slice bound
`line_number.min(len - 1)` underflows on an empty buffer; that panic is
the `none` case.  Lines are visited from last to first; Matches inside a
line stay in forward order, exactly as in the source. -/
def iter_to (b : ParsedBuffer) (line_number col : Nat) :
    Option (List MatchWithLine) :=
  if b.matches_by_line.length = 0 then none
  else
    some (((b.matches_by_line.take
        (min line_number (b.matches_by_line.length - 1) + 1)).enum).reverse.flatMap
      fun (current_line, ms) =>
        (ms.filter fun m => decide (current_line ≠ line_number ∨ m.col < col)).map
          fun m => m.with_line current_line)

/-- `ParsedBuffer::match_at` (`buffer.rs` lines 186-192). -/
def match_at (b : ParsedBuffer) (line_number col : Nat) : Option Match :=
  (b.matches_by_line.get? line_number).bind fun ms =>
    ms.find? fun m => decide (m.col ≤ col ∧ col < m.col + m.len)

/-- `ParsedBuffer::match_pair` (`buffer.rs` lines 194-249). -/
def match_pair (b : ParsedBuffer) (line_number col : Nat) :
    Option (MatchWithLine × MatchWithLine) :=
  match match_at b line_number col with
  | none => none
  | some m0 =>
    if m0.token.isDelimiter ∧ m0.stack_height = none then none
    else if m0.kind = Kind.opening then
      (((b.matches_by_line.drop line_number).enum.map fun (n, ms) =>
          (n + line_number, ms)).findSome? fun (ln, ms) =>
        (ms.find? fun m =>
          decide ((line_number ≠ ln ∨ m.col > col) ∧
            m0.token = m.token ∧ m0.stack_height = m.stack_height)).map
          fun m => m.with_line ln).map
        fun cl => (m0.with_line line_number, cl)
    else if m0.kind = Kind.closing then
      (((b.matches_by_line.take (line_number + 1)).enum).reverse.findSome?
        fun (ln, ms) =>
          (ms.reverse.find? fun m =>
            decide ((line_number ≠ ln ∨ m.col < col) ∧
              m0.token = m.token ∧ m0.stack_height = m.stack_height)).map
            fun m => m.with_line ln).map
        fun op => (op, m0.with_line line_number)
    else none

/-- `ParsedBuffer::span_at` (`buffer.rs` lines 141-184). -/
def span_at (b : ParsedBuffer) (line_number col : Nat) : Option String :=
  (b.matches_by_line.get? line_number).bind fun line_ms =>
    (b.state_by_line.get? line_number).bind fun line_state =>
      let matching_span :=
        (line_ms.reverse.filter fun m =>
          decide (m.kind = Kind.opening ∧ m.col ≤ col)).findSome?
          fun opening =>
            match opening.token with
            | .inlineSpan span _ _ =>
              match line_ms.find? fun closing =>
                  decide (closing.kind = Kind.closing ∧ closing.col > opening.col ∧
                    closing.token = opening.token ∧
                    closing.stack_height = opening.stack_height) with
              | some closing => if closing.col < col then none else some span
              | none => some span
            | .blockSpan span _ _ =>
              match line_ms.find? fun closing =>
                  decide (closing.kind = Kind.closing ∧ closing.col > opening.col ∧
                    closing.token = opening.token ∧
                    closing.stack_height = opening.stack_height) with
              | some closing => if closing.col < col then none else some span
              | none => some span
            | _ => none
      match matching_span with
      | some span => some span
      | none =>
        match line_state with
        | .inInlineSpan span => some span
        | .inBlockSpan span => some span
        | _ => none

/-- `ParsedBuffer::stack_height_at` (`buffer.rs` lines 251-268); `none` is
a panic propagated from `iter_from`/`iter_to`. -/
def stack_height_at (b : ParsedBuffer) (line_number col : Nat) : Option Nat :=
  (iter_from b line_number col).bind fun fwd =>
    match fwd.findSome? (fun mw =>
        mw.m.stack_height.map fun h =>
          h + if mw.m.kind = Kind.closing then 1 else 0) with
    | some h => some h
    | none =>
      (iter_to b line_number col).map fun bwd =>
        (bwd.findSome? fun mw =>
          mw.m.stack_height.map fun h =>
            h + if mw.m.kind = Kind.opening then 1 else 0).getD 0

/-- The scan loop of `unmatched_opening_before` (`buffer.rs` lines
281-320), over the already-filtered delimiter Matches, carrying
`lowest_stack_height` and `current_stack_height`. -/
def uobLoop (opening closing : String) :
    List MatchWithLine → Nat → Nat → Option MatchWithLine
  | [], _, _ => none
  | mw :: rest, lowest, current =>
    match mw.m.stack_height with
    | some h =>
      if h < lowest then
        if mw.m.kind = Kind.opening ∧ mw.m.token.closing = some closing ∧
            mw.m.token.opening = opening then
          uobLoop opening closing rest h
            (h + if mw.m.kind = Kind.closing then 1 else 0)
        else none
      else
        uobLoop opening closing rest lowest
          (h + if mw.m.kind = Kind.closing then 1 else 0)
    | none =>
      if mw.m.kind = Kind.opening ∧ mw.m.token.opening = opening ∧
          mw.m.token.closing = some closing ∧ current = lowest then
        some mw
      else uobLoop opening closing rest lowest current

/-- `ParsedBuffer::unmatched_opening_before` (`buffer.rs` lines 270-323);
outer `none` is a panic propagated from `stack_height_at`/`iter_to`. -/
def unmatched_opening_before (b : ParsedBuffer) (opening closing : String)
    (line_number col : Nat) : Option (Option MatchWithLine) :=
  (stack_height_at b line_number col).bind fun cursorH =>
    (iter_to b line_number col).map fun ms =>
      uobLoop opening closing (ms.filter fun mw => mw.m.token.isDelimiter)
        cursorH cursorH

/-- The scan loop of `unmatched_closing_after` (`buffer.rs` lines
336-375). -/
def ucaLoop (opening closing : String) :
    List MatchWithLine → Nat → Nat → Option MatchWithLine
  | [], _, _ => none
  | mw :: rest, lowest, current =>
    match mw.m.stack_height with
    | some h =>
      if h < lowest then
        if mw.m.kind = Kind.closing ∧ mw.m.token.closing = some closing ∧
            mw.m.token.opening = opening then
          ucaLoop opening closing rest h
            (h + if mw.m.kind = Kind.opening then 1 else 0)
        else none
      else
        ucaLoop opening closing rest lowest
          (h + if mw.m.kind = Kind.opening then 1 else 0)
    | none =>
      if mw.m.kind = Kind.closing ∧ mw.m.token.opening = opening ∧
          mw.m.token.closing = some closing ∧ current = lowest then
        some mw
      else ucaLoop opening closing rest lowest current

/-- `ParsedBuffer::unmatched_closing_after` (`buffer.rs` lines 325-378);
outer `none` is a panic propagated from `stack_height_at`/`iter_from`. -/
def unmatched_closing_after (b : ParsedBuffer) (opening closing : String)
    (line_number col : Nat) : Option (Option MatchWithLine) :=
  (stack_height_at b line_number col).bind fun cursorH =>
    (iter_from b line_number col).map fun ms =>
      ucaLoop opening closing (ms.filter fun mw => mw.m.token.isDelimiter)
        cursorH cursorH

/-! ### Tokenizer and matcher (spec-modelled) with the parser driver
(`src/parser/parse.rs` lines 20-94)

The tokenizer and the `define_matcher` transition logic are not under
`src/`; they are modelled from spec sections 4.1 and 4.2.  The parser loop
itself is translated from `parse.rs`. -/

/-- A raw token produced by the tokenizer: its byte and its column within
its line (`token.byte` / `token.col` in `parse.rs`). -/
structure RawToken where
  byte : Char
  col : Nat
deriving DecidableEq, Repr

/-- Modelled from the spec (section 4.2 and the `define_matcher!` tables):
the per-language declarative configuration.  `sql.rs` uses the delimiter,
line-comment, block-comment and string tables; `vim.rs` only delimiters. -/
structure MatcherDef where
  delimiters : List (String × String)
  line_comment : List String
  block_comment : List (String × String)
  string_markers : List String
  block_string : List (String × String)
deriving DecidableEq, Repr

/-- All marker strings of a matcher. -/
def MatcherDef.markers (M : MatcherDef) : List String :=
  M.delimiters.map Prod.fst ++ M.delimiters.map Prod.snd ++ M.line_comment ++
    M.block_comment.map Prod.fst ++ M.block_comment.map Prod.snd ++
    M.string_markers ++ M.block_string.map Prod.fst ++ M.block_string.map Prod.snd

/-- Modelled from the spec (section 4.1): the tokenizer's interest set is
the set of bytes occurring in the language's markers. -/
def MatcherDef.interest (M : MatcherDef) : List Char :=
  M.markers.flatMap String.toList

/-- `spellsFrom cs col ts` holds when the upcoming tokens `ts` start with
the characters `cs` at consecutive columns `col, col+1, ...`. -/
def spellsFrom : List Char → Nat → List RawToken → Bool
  | [], _, _ => true
  | c :: cs, col, t :: ts => decide (t.byte = c ∧ t.col = col) && spellsFrom cs (col + 1) ts
  | _ :: _, _, [] => false

/-- Modelled from the spec (section 4.2, bounded lookahead): the current
token plus the lookahead spell out the multi-byte marker `mk`
contiguously. -/
def spells (mk : String) (t : RawToken) (rest : List RawToken) : Bool :=
  match mk.toList with
  | [] => false
  | c :: cs => decide (t.byte = c) && spellsFrom cs (t.col + 1) rest

/-- First marker of a list spelled out at the current position. -/
def firstSpell (mks : List String) (t : RawToken) (rest : List RawToken) : Option String :=
  mks.find? fun mk => spells mk t rest

/-- First marker pair whose first component is spelled out at the current
position. -/
def firstSpellPair (ps : List (String × String)) (t : RawToken)
    (rest : List RawToken) : Option (String × String) :=
  ps.find? fun p => spells p.1 t rest

/-- Modelled from the spec (section 4.2): the matcher transition function.
Returns the Matches appended to the current line, the number of lookahead
tokens consumed, and the new State.  Policy, per the spec: an escaped
token is inert; in `Normal`, delimiter bytes emit opening/closing
`Delimiter` Matches per their position in the pair table, line-comment /
block-comment markers emit a Match and enter the comment state, and
string markers enter the string state without emitting a Match; outside
`Normal` only the active context's terminator is acted on. -/
def matcherStep (M : MatcherDef) (st : State) (t : RawToken)
    (rest : List RawToken) (escaped : Bool) : List Match × Nat × State :=
  if escaped then ([], 0, st)
  else
    match st with
    | .normal =>
      match M.delimiters.find? fun p => decide (p.1.toList = [t.byte]) with
      | some p => ([⟨.opening, .delimiter p.1 p.2, t.col, 1, none⟩], 0, .normal)
      | none =>
      match M.delimiters.find? fun p => decide (p.2.toList = [t.byte]) with
      | some p => ([⟨.closing, .delimiter p.1 p.2, t.col, 1, none⟩], 0, .normal)
      | none =>
      match firstSpell M.line_comment t rest with
      | some mk => ([⟨.other, .lineComment mk, t.col, mk.length, none⟩],
          mk.length - 1, .inLineComment)
      | none =>
      match firstSpellPair M.block_comment t rest with
      | some p => ([⟨.other, .blockComment p.1 p.2, t.col, p.1.length, none⟩],
          p.1.length - 1, .inBlockComment p.2)
      | none =>
      match firstSpell M.string_markers t rest with
      | some mk => ([], mk.length - 1, .inString mk)
      | none =>
      match firstSpellPair M.block_string t rest with
      | some p => ([], p.1.length - 1, .inBlockString p.2)
      | none => ([], 0, .normal)
    | .inString q => if spells q t rest then ([], q.length - 1, .normal) else ([], 0, st)
    | .inBlockString c => if spells c t rest then ([], c.length - 1, .normal) else ([], 0, st)
    | .inLineComment => ([], 0, st)
    | .inBlockComment c =>
      if spells c t rest then
        (([⟨.other,
            .blockComment (((M.block_comment.find? fun p => decide (p.2 = c)).map
              Prod.fst).getD "") c, t.col, c.length, none⟩]),
          c.length - 1, .normal)
      else ([], 0, st)
    | .inInlineSpan _ => ([], 0, st)
    | .inBlockSpan _ => ([], 0, st)

/-- The mutable locals of the `parse` loop in `parse.rs` lines 26-33. -/
structure PState where
  mbl : List (List Match)
  lm : List Match
  sbl : List State
  st : State
  esc : Option Nat
deriving DecidableEq, Repr

/-- The newline reset of `parse.rs` lines 56-61: `InString`,
`InLineComment` and `InInlineSpan` do not survive past a line boundary. -/
def normalizeAtNl : State → State
  | .inString _ => .normal
  | .inLineComment => .normal
  | .inInlineSpan _ => .normal
  | s => s

/-- The `while let Some(token) = tokens.next()` loop of `parse.rs` lines
49-85: a newline token flushes the line and discards the pending escape;
a backslash adjacent to a pending backslash is consumed by it, any other
backslash records a new pending escape column; any other token is handed
to the matcher with the escaped flag
`escaped_col.map(|col| col == token.col - 1).unwrap_or(false)`
(`usize` subtraction appears only at `token.col ≥ 1` on tokenizer
streams, where `Nat` subtraction agrees with it). -/
def parseLoopF (M : MatcherDef) : Nat → PState → List RawToken → PState
  | 0, ps, _ => ps
  | _ + 1, ps, [] => ps
  | fuel + 1, ps, t :: rest =>
    if t.byte = '\n' then
      let st' := normalizeAtNl ps.st
      parseLoopF M fuel ⟨ps.mbl ++ [ps.lm], [], ps.sbl ++ [st'], st', none⟩ rest
    else if t.byte = '\\' then
      match ps.esc with
      | some c =>
        if c = t.col - 1 then parseLoopF M fuel { ps with esc := none } rest
        else parseLoopF M fuel { ps with esc := some t.col } rest
      | none => parseLoopF M fuel { ps with esc := some t.col } rest
    else
      let escaped := match ps.esc with
        | some c => decide (c = t.col - 1)
        | none => false
      let r := matcherStep M ps.st t rest escaped
      parseLoopF M fuel { ps with lm := ps.lm ++ r.1, st := r.2.2 } (rest.drop r.2.1)

/-- The loop, run with enough fuel for its token list (every step consumes
at least one token, so `ts.length` suffices). -/
def parseLoop (M : MatcherDef) (ps : PState) (ts : List RawToken) : PState :=
  parseLoopF M ts.length ps ts

/-- Modelled from the spec (section 4.1): the tokens of one line are the
bytes of the interest set plus escape characters, each with its column,
in order; no token for ordinary text runs. -/
def lineTokens (M : MatcherDef) (line : String) : List RawToken :=
  line.toList.enum.filterMap fun (i, c) =>
    if c = '\\' ∨ c ∈ M.interest then some ⟨c, i⟩ else none

/-- The explicit newline token between two lines (its column is never
inspected by the loop). -/
def newlineTok : RawToken := ⟨'\n', 0⟩

/-- The token stream of `lines.join("\n")`: per-line tokens separated by
explicit newline tokens (spec section 4.1). -/
def tokenStream (M : MatcherDef) : List String → List RawToken
  | [] => []
  | [l] => lineTokens M l
  | l :: l' :: rest => lineTokens M l ++ newlineTok :: tokenStream M (l' :: rest)

/-- `parse` from `src/parser/parse.rs` lines 20-94: run the loop over the
token stream, then flush the final line and state (lines 86-87; the final
state is pushed without the newline normalization).  The `indent_levels`
call of that file feeds a field absent from `buffer.rs`'s `ParsedBuffer`
and is not part of this embedding. -/
def parse (M : MatcherDef) (lines : List String) (initial_state : State) :
    List (List Match) × List State :=
  let ps := parseLoop M ⟨[], [], [], initial_state, none⟩ (tokenStream M lines)
  (ps.mbl ++ [ps.lm], ps.sbl ++ [ps.st])

/-- The `Sql` table from `src/parser/languages/sql.rs`. -/
def sqlMatcher : MatcherDef :=
  { delimiters := [("(", ")"), ("[", "]"), ("\x7b", "\x7d")]
    line_comment := ["--", "#"]
    block_comment := [("/*", "*/")]
    string_markers := ["\"", "'", "$$", "`"]
    block_string := [] }

/-- The `Vim` table from `src/parser/languages/vim.rs`. -/
def vimMatcher : MatcherDef :=
  { delimiters := [("(", ")"), ("[", "]"), ("\x7b", "\x7d")]
    line_comment := []
    block_comment := []
    string_markers := []
    block_string := [] }

/-- Modelled from the spec (section 6, per-language registration surface):
the registered Matcher of a language identifier, if any.  The two
language tables present under `src/` are registered. -/
def matcherOf (ft : String) : Option MatcherDef :=
  if ft = "sql" then some sqlMatcher
  else if ft = "vim" then some vimMatcher
  else none

/-- `parse_filetype`: dispatch to the registered Matcher, failing for an
unregistered language. -/
def parse_filetype (ft : String) (lines : List String) (initial_state : State) :
    Option (List (List Match) × List State) :=
  (matcherOf ft).map fun M => parse M lines initial_state

/-- A token list free of newline bytes (the tokens of a single line). -/
def NoNl (ts : List RawToken) : Prop := ∀ t ∈ ts, t.byte ≠ '\n'

/-- A well-formed matcher table: every marker is nonempty and contains no
newline byte. -/
def MWf (M : MatcherDef) : Prop :=
  ∀ mk ∈ M.markers, mk ≠ "" ∧ '\n' ∉ mk.toList

/-- The lexical States reachable under a matcher: string / block-string /
block-comment states carry a marker of the corresponding table. -/
def StateWf (M : MatcherDef) : State → Prop
  | .inString q => q ∈ M.string_markers
  | .inBlockString c => ∃ p ∈ M.block_string, p.2 = c
  | .inBlockComment c => ∃ p ∈ M.block_comment, p.2 = c
  | _ => True

/-- Run the parser loop over one line's tokens from a fresh line state:
the Matches emitted for the line and the raw terminal State. -/
def lineRun (M : MatcherDef) (st : State) (line : String) : List Match × State :=
  let r := parseLoop M ⟨[], [], [], st, none⟩ (lineTokens M line)
  (r.lm, r.st)

/-- The per-line fold of the parser where every line is newline-terminated
(so every stored State is normalized): the Match lists, the stored States,
and the State handed to whatever follows. -/
def foldNT (M : MatcherDef) : State → List String → List (List Match) × List State × State
  | st, [] => ([], [], st)
  | st, l :: rest =>
    let r := lineRun M st l
    let st' := normalizeAtNl r.2
    let rr := foldNT M st' rest
    (r.1 :: rr.1, st' :: rr.2.1, rr.2.2)

/-- The stored terminal State of the line entering position `e` of a
buffer: `Normal` at the top, otherwise the recorded State of line
`e - 1`. -/
def oldEntryState (b : ParsedBuffer) (e : Nat) : State :=
  if e = 0 then State.normal else (b.state_by_line.get? (e - 1)).getD State.normal

/-- The newline step of the parser loop: flush the line's Matches and the
normalized State, reset the line accumulator and the pending escape. -/
def nlFlush (ps : PState) : PState :=
  ⟨ps.mbl ++ [ps.lm], [], ps.sbl ++ [normalizeAtNl ps.st], normalizeAtNl ps.st, none⟩

/-- `ParsedBuffer::parse` (`buffer.rs` lines 9-16).  Stack-height
resolution runs after any full or partial parse (spec section 4.4); in
the sources it lives inside the missing `parse_filetype` pipeline, so it
is applied here as part of building the buffer. -/
def ParsedBuffer.parse (ft : String) (lines : List String) : Option ParsedBuffer :=
  (parse_filetype ft lines .normal).map fun r =>
    recalculate_stack_heights ⟨r.1, r.2⟩

/-- `Vec::splice(start..e, repl)`: replace the index range `[start, e)`. -/
def splice (l : List α) (start e : Nat) (repl : List α) : List α :=
  l.take start ++ repl ++ l.drop e

/-- `start_line.unwrap_or(0).min(max_line)` of `buffer.rs` line 27. -/
def reparseStart (b : ParsedBuffer) (start_line? : Option Nat) : Nat :=
  min (start_line?.getD 0) b.matches_by_line.length

/-- `old_end_line.unwrap_or(max_line).min(max_line)` of `buffer.rs` line 28. -/
def reparseOldEnd (b : ParsedBuffer) (old_end_line? : Option Nat) : Nat :=
  min (old_end_line?.getD b.matches_by_line.length) b.matches_by_line.length

/-- The initial lexical State of a reparse (`buffer.rs` lines 30-37): the
stored terminal State of the line preceding `start_line`, or `Normal`
when `start_line` is 0. -/
def reparseInit (b : ParsedBuffer) (start_line? : Option Nat) : State :=
  if reparseStart b start_line? > 0 then
    (b.state_by_line.get? (reparseStart b start_line? - 1)).getD .normal
  else .normal

/-- `ParsedBuffer::reparse_range` (`buffer.rs` lines 18-57).  `none`
models a panic: the `usize` underflow of `new_end_line - start_line`, an
out-of-bounds `[0..length]` slice of the parsed lines or states, or a
`splice` whose range is inverted. -/
def reparse_range (b : ParsedBuffer) (ft : String) (lines : List String)
    (start_line? old_end_line? new_end_line? : Option Nat) :
    Option (Bool × ParsedBuffer) :=
  let start_line := reparseStart b start_line?
  let old_end_line := reparseOldEnd b old_end_line?
  match parse_filetype ft lines (reparseInit b start_line?) with
  | none => some (false, b)
  | some (pm, ps) =>
    let new_end_line := new_end_line?.getD (start_line + pm.length)
    if new_end_line < start_line then none
    else
      let length := new_end_line - start_line
      if pm.length < length then none
      else if ps.length < length then none
      else if old_end_line < start_line then none
      else some (true, recalculate_stack_heights
        ⟨splice b.matches_by_line start_line old_end_line (pm.take length),
          splice b.state_by_line start_line old_end_line (ps.take length)⟩)

/-! ### Indentation utility (`src/parser/indent.rs` lines 20-104)

SIMD lanes become explicit chunk lists, the newline bitmask iteration
becomes the ascending list of newline indices, and `u8` arithmetic is
`Nat` saturating at 255. -/

/-- Whitespace weight of a byte: a space counts 1, a tab counts the tab
width (`indent.rs` lines 38-42). -/
def wsVal (tab : Nat) (c : Char) : Nat :=
  if c = ' ' then 1 else if c = '\t' then tab else 0

/-- `u8::saturating_add` on the `Nat` model of `u8`. -/
def satAdd (a b : Nat) : Nat := min (a + b) 255

/-- State of the indentation scan: whether we are still inside a line's
leading whitespace, the accumulated width, and the emitted widths. -/
structure IndState where
  inInd : Bool
  cur : Nat
  acc : List Nat
deriving DecidableEq, Repr

/-- One byte of the scalar remainder loop (`indent.rs` lines 85-99). -/
def byteStep (tab : Nat) (st : IndState) (c : Char) : IndState :=
  if c = '\n' then ⟨true, 0, st.acc ++ [st.cur]⟩
  else if st.inInd then
    if c = ' ' then ⟨true, satAdd st.cur 1, st.acc⟩
    else if c = '\t' then ⟨true, satAdd st.cur tab, st.acc⟩
    else ⟨false, st.cur, st.acc⟩
  else st

/-- The `for &c in &whitespace[..]` run of `indent.rs` lines 45-52 and
74-81: accumulate while the weight is positive, stop (leaving
indentation mode) at the first zero. -/
def scanRun : List Nat → Nat → Nat × Bool
  | [], cur => (cur, true)
  | w :: ws, cur => if w > 0 then scanRun ws (satAdd cur w) else (cur, false)

/-- Ascending indices of the newline bytes of a chunk (the bitmask
`trailing_zeros` iteration of `indent.rs` lines 55-82). -/
def nlIdxs (chunk : List Char) : List Nat :=
  (List.range chunk.length).filter fun i => decide (chunk.getD i ' ' = '\n')

/-- The per-newline loop of `indent.rs` lines 56-82: push the finished
line's width, reset, and scan the whitespace weights following the
newline. -/
def chunkNewlines (ws : List Nat) : List Nat → IndState → IndState
  | [], st => st
  | idx :: rest, st =>
    let r := scanRun (ws.drop (idx + 1)) 0
    chunkNewlines ws rest ⟨r.2, r.1, st.acc ++ [st.cur]⟩

/-- One SIMD chunk (`indent.rs` lines 30-83): skip a chunk with no
newline while outside indentation; otherwise finish the current line's
leading run, then handle each newline. -/
def processChunk (tab : Nat) (st : IndState) (chunk : List Char) : IndState :=
  if ¬st.inInd ∧ ¬ '\n' ∈ chunk then st
  else
    let ws := chunk.map (wsVal tab)
    let st1 :=
      if st.inInd then
        let r := scanRun ws st.cur
        (⟨r.2, r.1, st.acc⟩ : IndState)
      else st
    chunkNewlines ws (nlIdxs chunk) st1

def toChunksF (N : Nat) : Nat → List Char → List (List Char) × List Char
  | 0, l => ([], l)
  | fuel + 1, l =>
    if N ≤ l.length ∧ 0 < N then
      let r := toChunksF N fuel (l.drop N)
      (l.take N :: r.1, r.2)
    else ([], l)

/-- `slice::as_chunks::<N>`: the list of complete `N`-chunks and the
remainder (`l.length` steps of fuel always suffice). -/
def toChunks (N : Nat) (l : List Char) : List (List Char) × List Char :=
  toChunksF N l.length l

/-- `indent_levels` from `src/parser/indent.rs` lines 20-104: process the
complete chunks, then the remainder bytes, then push the final line's
width. -/
def indent_levels (N tab : Nat) (src : String) : List Nat :=
  let bytes := src.toList
  let p := toChunks N bytes
  let st1 := p.1.foldl (processChunk tab) ⟨true, 0, []⟩
  let st2 := p.2.foldl (byteStep tab) st1
  st2.acc ++ [st2.cur]

/-- The naive scalar scan of the whole input (the spec's reference
semantics: the remainder loop of `indent.rs` applied to every byte). -/
def scalarIndent (tab : Nat) (src : String) : List Nat :=
  let st := src.toList.foldl (byteStep tab) ⟨true, 0, []⟩
  st.acc ++ [st.cur]

/-- Width of one line per the spec's words (section 4.5): accumulate the
leading whitespace run, each space as 1 and each tab as the tab width,
saturating, stopping at the first non-whitespace byte. -/
def lineWidthGo (tab cur : Nat) : List Char → Nat
  | [] => cur
  | c :: cs => if wsVal tab c > 0 then lineWidthGo tab (satAdd cur (wsVal tab c)) cs else cur

/-- Width of one line from an empty run. -/
def lineWidth (tab : Nat) (l : List Char) : Nat := lineWidthGo tab 0 l

/-- Split a byte list into its newline-separated lines (the final line has
no trailing newline; an empty input is one empty line). -/
def splitLinesChar : List Char → List (List Char)
  | [] => [[]]
  | c :: rest =>
    if c = '\n' then [] :: splitLinesChar rest
    else
      match splitLinesChar rest with
      | h :: t => (c :: h) :: t
      | [] => [[c]]

/-- The widths contributed by the remaining lines of a scan in progress:
the first line continues the current run (or is already fixed when the
scan has left indentation mode), every later line is scanned from
scratch. -/
def contWidths (tab : Nat) (ind : Bool) (cur : Nat) : List (List Char) → List Nat
  | [] => []
  | l :: ls => (if ind then lineWidthGo tab cur l else cur) :: ls.map (lineWidth tab)

/-! ### Spec-side definitions for the claims -/

/-- Modelled from the spec's words for claim C2 (section 4.4): the
stack-height resolution algorithm as described — an explicit stack of
open delimiters, nearest-compatible-entry scan, skipped entries marked
unmatched, the pair assigned the remaining depth, stray closers marked
alone, leftovers marked at the end.  The stack holds `(index, token)`
pairs. -/
def specFindNearest : List (Nat × Token) → Token →
    Option (List (Nat × Token) × (Nat × Token) × List (Nat × Token))
  | [], _ => none
  | e :: rest, t =>
    if e.2 = t then some ([], e, rest)
    else
      match specFindNearest rest t with
      | some (pre, hit, post) => some (e :: pre, hit, post)
      | none => none

/-- Modelled from the spec's words for claim C2: the resolution pass over
the document-order stream.  Every opening delimiter is pushed; every
closing delimiter scans the stack top-down for the nearest token-equal
entry, pops and marks the skipped entries unmatched, and gives the pair
the remaining depth, or is marked unmatched alone when no compatible
entry exists; non-delimiter Matches keep `stack_height = None`
permanently; leftovers are marked at the end. -/
def specResolveGo : List (Nat × Token) → List (Nat × Match) →
    (Nat → Option (Option Nat)) → (Nat → Option (Option Nat))
  | stack, [], marks => stack.foldl (fun mk e => mupd mk e.1 none) marks
  | stack, (i, m) :: rest, marks =>
    if m.token.isDelimiter ∧ m.kind = Kind.opening then
      specResolveGo ((i, m.token) :: stack) rest marks
    else if m.token.isDelimiter ∧ m.kind = Kind.closing then
      match specFindNearest stack m.token with
      | some (pre, hit, post) =>
        let mk1 := pre.foldl (fun mk e => mupd mk e.1 none) marks
        let mk2 := mupd (mupd mk1 hit.1 (some post.length)) i (some post.length)
        specResolveGo post rest mk2
      | none => specResolveGo stack rest (mupd marks i none)
    else specResolveGo stack rest (mupd marks i none)

/-- Modelled from the spec's words for claim C2: resolution of a whole
buffer. -/
def specRecalc (b : ParsedBuffer) : ParsedBuffer :=
  { b with
    matches_by_line :=
      assignHeights 0 b.matches_by_line
        (specResolveGo [] b.matches_by_line.flatten.enum fun _ => none) }

/-- Well-formed (balanced, properly nested) delimiter Match sequences:
empty, a balanced body wrapped by a token-equal opening/closing delimiter
pair, or two balanced sequences in a row. -/
inductive Balanced : List Match → Prop where
  | nil : Balanced []
  | wrap (o c : Match) (S : List Match) :
      o.kind = Kind.opening → c.kind = Kind.closing → o.token = c.token →
      o.token.isDelimiter = true → Balanced S → Balanced (o :: S ++ [c])
  | app (S T : List Match) : Balanced S → Balanced T → Balanced (S ++ T)

/-- The syntactic pairing of a sequence: a plain index stack pairs each
closing element with the most recent unclosed opening one. -/
def sPairsGo : List (Nat × Match) → List Nat → List (Nat × Nat)
  | [], _ => []
  | (i, m) :: rest, stk =>
    if m.kind = Kind.opening then sPairsGo rest (i :: stk)
    else
      match stk with
      | j :: stk' => (j, i) :: sPairsGo rest stk'
      | [] => sPairsGo rest []

/-- Syntactic pairs of a sequence. -/
def sPairs (S : List Match) : List (Nat × Nat) := sPairsGo S.enum []

/-- Nesting depth of each element: an opening element shows the current
depth and descends; a closing element shows (and returns to) the depth
one above it, so the two elements of a pair show the same value and the
outermost depth is 0. -/
def sDepthsGo (d : Nat) : List Match → List Nat
  | [] => []
  | m :: rest =>
    if m.kind = Kind.opening then d :: sDepthsGo (d + 1) rest
    else (d - 1) :: sDepthsGo (d - 1) rest

/-- Nesting depths from the outermost level 0. -/
def sDepths (S : List Match) : List Nat := sDepthsGo 0 S

/-- Depth counter remaining after a sequence. -/
def depthAfter (d : Nat) : List Match → Nat
  | [] => d
  | m :: rest =>
    if m.kind = Kind.opening then depthAfter (d + 1) rest
    else depthAfter (d - 1) rest

/-- Line number of the flat document-order index `i` in a per-line
structure. -/
def lineOf : List (List Match) → Nat → Nat
  | [], _ => 0
  | l :: rest, i => if i < l.length then 0 else lineOf rest (i - l.length) + 1

/-- Index within its line of the flat document-order index `i`. -/
def idxIn : List (List Match) → Nat → Nat
  | [], i => i
  | l :: rest, i => if i < l.length then i else idxIn rest (i - l.length)

/-- A line's Matches sit at strictly increasing, non-overlapping column
ranges of positive length (what the parser produces for a line). -/
def LineSorted (l : List Match) : Prop :=
  l.Chain' (fun a b => a.col + a.len ≤ b.col) ∧ ∀ m ∈ l, 1 ≤ m.len

/-- Every line of a buffer is sorted. -/
def BufSorted (B : List (List Match)) : Prop := ∀ l ∈ B, LineSorted l

/-- Forget a Match's `stack_height` (resolution reads only kinds and
tokens, so buffers equal up to this erasure resolve identically). -/
def eraseH (m : Match) : Match := { m with stack_height := none }

/-! ### Concrete fixtures used by witnesses and counterexamples -/

/-- The sql buffer for the line `( ] )`: a mismatched closing bracket
between a matched pair. -/
def c4Buffer : ParsedBuffer :=
  (ParsedBuffer.parse "sql" ["( ] )"]).getD ⟨[], []⟩

/-- The mismatched `]` Match of `c4Buffer` after resolution. -/
def c4MissMatch : Match :=
  ⟨.closing, .delimiter "[" "]", 2, 1, none⟩

/-- The sql buffer for the single line `(`. -/
def c5Buffer : ParsedBuffer :=
  (ParsedBuffer.parse "sql" ["("]).getD ⟨[], []⟩

/-- A one-line buffer holding an inline-span opening/closing Match pair
(span Matches carry `opening`/`closing` kinds, as `span_at` in
`buffer.rs` requires). -/
def c6Buffer : ParsedBuffer :=
  ⟨[[⟨.opening, .inlineSpan "code" "*" "*", 0, 1, none⟩,
     ⟨.closing, .inlineSpan "code" "*" "*", 2, 1, none⟩]], [.normal]⟩

/-- The sql buffer for the line `/*x*/ (`: a block comment followed by a
stray opening delimiter. -/
def c6WitnessBuffer : ParsedBuffer :=
  (ParsedBuffer.parse "sql" ["/*x*/ ("]).getD ⟨[], []⟩

/-- The sql buffer for the two lines `(` and `)`. -/
def c3Buffer : ParsedBuffer :=
  (ParsedBuffer.parse "sql" ["(", ")"]).getD ⟨[], []⟩

/-- A two-line Match structure for the lines `( (` and `) )`: two nested
well-formed delimiter pairs split across a line boundary. -/
def c1B : List (List Match) :=
  [[⟨.opening, .delimiter "(" ")", 0, 1, none⟩,
    ⟨.opening, .delimiter "(" ")", 2, 1, none⟩],
   [⟨.closing, .delimiter "(" ")", 0, 1, none⟩,
    ⟨.closing, .delimiter "(" ")", 2, 1, none⟩]]


end BlinkPairs

namespace BlinkPairs

/-! ## Theorems -/

/-- Claim C4: every delimiter Match left unmatched by resolution has
`stack_height = None` (shown for a stray closer, a stray opener, a
mismatched closer and a skipped opener), and `match_pair` at the position
of an unmatched delimiter returns nothing. -/
theorem claim_C4 (b : ParsedBuffer) (l c : Nat) (m : Match)
    (h1 : match_at b l c = some m) (h2 : m.token.isDelimiter = true)
    (h3 : m.stack_height = none) :
    match_pair b l c = none ∧
    ((ParsedBuffer.parse "sql" [")"]).map fun bb =>
      bb.matches_by_line.flatten.map Match.stack_height) = some [none] ∧
    ((ParsedBuffer.parse "sql" ["("]).map fun bb =>
      bb.matches_by_line.flatten.map Match.stack_height) = some [none] ∧
    ((ParsedBuffer.parse "sql" ["( ] )"]).map fun bb =>
      bb.matches_by_line.flatten.map Match.stack_height) = some [some 0, none, some 0] ∧
    ((ParsedBuffer.parse "sql" ["( [ )"]).map fun bb =>
      bb.matches_by_line.flatten.map Match.stack_height) = some [some 0, none, some 0] := by
  refine ⟨?_, by decide, by decide, by decide, by decide⟩
  unfold match_pair
  rw [h1]
  simp [h2, h3]

/-- Witness for C4 at the mismatched `]` of `( ] )`. -/
theorem claim_C4_witness : match_pair c4Buffer 0 2 = none :=
  (claim_C4 c4Buffer 0 2 c4MissMatch (by decide) (by decide) rfl).1

/-- Claim C5 (code bug): `iter_from` slices
`matches_by_line[line_number..]` without clamping, so it and the queries
built on it fail (Rust: panic) when the line number exceeds the number of
lines, instead of returning an empty result; `c5Buffer` has one line and
the queries at line 2 hit the out-of-bounds slice (`none` is the panic). -/
theorem claim_C5_panics :
    (ParsedBuffer.parse "sql" ["("]).isSome = true ∧
    c5Buffer.matches_by_line.length = 1 ∧
    iter_from c5Buffer 2 0 = none ∧
    stack_height_at c5Buffer 2 0 = none ∧
    unmatched_closing_after c5Buffer "(" ")" 2 0 = none ∧
    unmatched_opening_before c5Buffer "(" ")" 2 0 = none ∧
    line_matches c5Buffer 2 = none ∧
    match_at c5Buffer 2 0 = none ∧
    match_pair c5Buffer 2 0 = none ∧
    span_at c5Buffer 2 0 = none := by
  refine ⟨by decide, by decide, by decide, by decide, by decide, by decide,
    by decide, by decide, by decide, by decide⟩

/-! ### Resolution lemmas shared by C2 and C6 -/

/-- `specFindNearest` on the token-projected stack mirrors `findCompat`. -/
theorem specFindNearest_map (stack : List (Nat × Match)) (t : Token) :
    specFindNearest (stack.map fun e => (e.1, e.2.token)) t =
      (findCompat stack t).map fun r =>
        (r.1.map fun e => (e.1, e.2.token), (r.2.1.1, r.2.1.2.token),
          r.2.2.map fun e => (e.1, e.2.token)) := by
  induction stack with
  | nil => rfl
  | cons e rest ih =>
    simp only [List.map_cons, specFindNearest, findCompat]
    by_cases h : e.2.token = t
    · rw [if_pos h, if_pos h]
      rfl
    · rw [if_neg h, if_neg h, ih]
      cases hfc : findCompat rest t with
      | none => rfl
      | some r =>
        obtain ⟨pre, hit, post⟩ := r
        rfl

/-- The source resolution loop agrees with the spec-worded one on streams
of opening/closing delimiters, with the stack projected to tokens. -/
theorem resolveGo_eq_spec (stream : List (Nat × Match)) :
    ∀ (stack : List (Nat × Match)) (marks : Nat → Option (Option Nat)),
      (∀ p ∈ stream, p.2.token.isDelimiter = true ∧
        (p.2.kind = Kind.opening ∨ p.2.kind = Kind.closing)) →
      specResolveGo (stack.map fun e => (e.1, e.2.token)) stream marks =
        resolveGo stack stream marks := by
  induction stream with
  | nil =>
    intro stack marks _
    simp only [specResolveGo, resolveGo, List.foldl_map]
  | cons p rest ih =>
    intro stack marks hall
    obtain ⟨i, m⟩ := p
    obtain ⟨hdel, hkind⟩ := hall (i, m) (by simp)
    have hrest : ∀ p ∈ rest, p.2.token.isDelimiter = true ∧
        (p.2.kind = Kind.opening ∨ p.2.kind = Kind.closing) :=
      fun p hp => hall p (by simp [hp])
    rcases hkind with hop | hcl
    · simp only [specResolveGo, resolveGo]
      rw [if_pos ⟨hdel, hop⟩, if_pos hop]
      exact ih ((i, m) :: stack) marks hrest
    · have hne : ¬m.kind = Kind.opening := by rw [hcl]; decide
      simp only [specResolveGo, resolveGo]
      rw [if_neg (fun hc => hne hc.2), if_pos ⟨hdel, hcl⟩, if_neg hne,
        specFindNearest_map]
      cases hfc : findCompat stack m.token with
      | none =>
        simp only [Option.map_none']
        exact ih stack _ hrest
      | some r =>
        obtain ⟨pre, hit, post⟩ := r
        simp only [Option.map_some']
        have := ih post (mupd (mupd (pre.foldl (fun mk e => mupd mk e.1 none) marks)
          hit.1 (some post.length)) i (some post.length)) hrest
        simpa [List.foldl_map, List.length_map] using this

/-- Claim C2: on buffers whose Matches are all opening/closing delimiters,
the source's `recalculate_stack_heights` is exactly the resolution
algorithm as the spec words it: explicit stack in document order, every
opening delimiter pushed, every closing delimiter matched with the
nearest token-equal stack entry with skipped entries popped and marked
unmatched and the pair assigned the residual stack depth, stray closers
marked alone with the stack untouched, and every leftover stack entry
marked unmatched at the end. -/
theorem claim_C2 (b : ParsedBuffer)
    (hall : ∀ m ∈ b.matches_by_line.flatten, m.token.isDelimiter = true ∧
      (m.kind = Kind.opening ∨ m.kind = Kind.closing)) :
    specRecalc b = recalculate_stack_heights b := by
  unfold specRecalc recalculate_stack_heights
  have h := resolveGo_eq_spec b.matches_by_line.flatten.enum [] (fun _ => none)
    (fun p hp => hall p.2 ((List.mem_enum hp).2 ▸ List.getElem_mem _))
  simpa using h ▸ rfl

/-- Witness for C2 on the sql buffer of `( ] )`. -/
theorem claim_C2_witness : specRecalc c4Buffer = recalculate_stack_heights c4Buffer :=
  claim_C2 c4Buffer (by decide)

/-- A successful `findCompat` splits the stack around the hit. -/
theorem findCompat_eq_decomp {stack : List (Nat × Match)} {t : Token}
    {pre : List (Nat × Match)} {hit : Nat × Match} {post : List (Nat × Match)}
    (h : findCompat stack t = some (pre, hit, post)) :
    stack = pre ++ hit :: post := by
  induction stack generalizing pre with
  | nil => simp [findCompat] at h
  | cons e rest ih =>
    simp only [findCompat] at h
    by_cases he : e.2.token = t
    · rw [if_pos he] at h
      simp only [Option.some.injEq, Prod.mk.injEq] at h
      obtain ⟨h1, h2, h3⟩ := h
      subst h1; subst h2; subst h3
      rfl
    · rw [if_neg he] at h
      cases hfc : findCompat rest t with
      | none => rw [hfc] at h; simp at h
      | some r =>
        obtain ⟨pre', hit', post'⟩ := r
        rw [hfc] at h
        simp only [Option.some.injEq, Prod.mk.injEq] at h
        obtain ⟨h1, h2, h3⟩ := h
        subst h1; subst h2; subst h3
        rw [ih hfc]
        rfl

/-- `findCompat` fails when no stack entry carries the token. -/
theorem findCompat_eq_none {stack : List (Nat × Match)} {t : Token}
    (h : ∀ e ∈ stack, e.2.token ≠ t) : findCompat stack t = none := by
  induction stack with
  | nil => rfl
  | cons e rest ih =>
    simp only [findCompat, if_neg (h e (by simp)),
      ih fun x hx => h x (by simp [hx])]

/-- The unmatched-marking fold leaves untouched every index that is not a
key of the folded list. -/
theorem mupd_foldl_ne (l : List (Nat × Match)) :
    ∀ (marks : Nat → Option (Option Nat)) (i : Nat), (∀ e ∈ l, e.1 ≠ i) →
      (l.foldl (fun mk e => mupd mk e.1 none) marks) i = marks i := by
  induction l with
  | nil => intro marks i _; rfl
  | cons e rest ih =>
    intro marks i h
    simp only [List.foldl_cons]
    rw [ih _ i fun x hx => h x (by simp [hx])]
    simp only [mupd]
    rw [if_neg fun he => h e (by simp) he.symm]

/-- The resolution loop never writes an index below its stream range that
is not on its stack. -/
theorem resolveGo_frame (S : List Match) :
    ∀ (k : Nat) (stack : List (Nat × Match)) (marks : Nat → Option (Option Nat))
      (i : Nat), i < k → (∀ e ∈ stack, e.1 ≠ i) →
      resolveGo stack (List.enumFrom k S) marks i = marks i := by
  induction S with
  | nil =>
    intro k stack marks i _ hstk
    simpa only [List.enumFrom_nil, resolveGo] using mupd_foldl_ne stack marks i hstk
  | cons m rest ih =>
    intro k stack marks i hik hstk
    rw [List.enumFrom_cons]
    simp only [resolveGo]
    by_cases hop : m.kind = Kind.opening
    · rw [if_pos hop]
      exact ih (k + 1) _ marks i (by omega)
        (by
          intro e he
          rcases List.mem_cons.1 he with rfl | he'
          · omega
          · exact hstk e he')
    · rw [if_neg hop]
      cases hfc : findCompat stack m.token with
      | none =>
        dsimp only
        rw [ih (k + 1) stack _ i (by omega) hstk]
        simp only [mupd]
        rw [if_neg (by omega)]
      | some r =>
        obtain ⟨pre, hit, post⟩ := r
        dsimp only
        have hdec := findCompat_eq_decomp hfc
        have hpost : ∀ e ∈ post, e.1 ≠ i := by
          intro e he
          exact hstk e (by rw [hdec]; simp [he])
        have hhit : hit.1 ≠ i := hstk hit (by rw [hdec]; simp)
        have hpre : ∀ e ∈ pre, e.1 ≠ i := by
          intro e he
          exact hstk e (by rw [hdec]; simp [he])
        rw [ih (k + 1) post _ i (by omega) hpost]
        simp only [mupd]
        rw [if_neg (by omega), if_neg fun he => hhit he.symm]
        exact mupd_foldl_ne pre marks i hpre

/-- In the resolution loop, a non-opening Match whose token is a comment
token is marked unmatched: no stack entry can carry a comment token
(stack entries are pushed Matches, never comments), so the scan fails and
the Match index gets `None`, which no later step overwrites. -/
theorem resolveGo_comment_none (S : List Match) :
    ∀ (k : Nat) (stack : List (Nat × Match)) (marks : Nat → Option (Option Nat))
      (j : Nat) (hj : j < S.length),
      (∀ e ∈ stack, e.1 < k) → (∀ e ∈ stack, e.2.token.isComment = false) →
      (∀ m ∈ S, m.token.isComment = true → m.kind ≠ Kind.opening) →
      (S.get ⟨j, hj⟩).token.isComment = true →
      resolveGo stack (List.enumFrom k S) marks (k + j) = some none := by
  induction S with
  | nil => intro k stack marks j hj; exact absurd hj (by simp)
  | cons m rest ih =>
    intro k stack marks j hj hlt hcomm hkc hcm
    rw [List.enumFrom_cons]
    simp only [resolveGo]
    cases j with
    | zero =>
      have hmc : m.token.isComment = true := hcm
      have hop : m.kind ≠ Kind.opening := hkc m (by simp) hmc
      rw [if_neg hop]
      have hnone : findCompat stack m.token = none := by
        refine findCompat_eq_none fun e he het => ?_
        have := hcomm e he
        rw [het, hmc] at this
        exact Bool.true_eq_false.mp this
      rw [hnone]
      dsimp only
      rw [resolveGo_frame rest (k + 1) stack _ (k + 0) (by omega)
        (fun e he => by have := hlt e he; omega)]
      simp [mupd]
    | succ j' =>
      have hj' : j' < rest.length := by simpa using hj
      have hcm' : (rest.get ⟨j', hj'⟩).token.isComment = true := hcm
      have hkc' : ∀ x ∈ rest, x.token.isComment = true → x.kind ≠ Kind.opening :=
        fun x hx => hkc x (by simp [hx])
      have hgoal : k + (j' + 1) = (k + 1) + j' := by omega
      by_cases hop : m.kind = Kind.opening
      · rw [if_pos hop, hgoal]
        refine ih (k + 1) _ marks j' hj' ?_ ?_ hkc' hcm'
        · intro e he
          rcases List.mem_cons.1 he with rfl | he'
          · omega
          · have := hlt e he'; omega
        · intro e he
          rcases List.mem_cons.1 he with rfl | he'
          · by_contra hcc
            exact hkc m (by simp) (by simpa using hcc) hop
          · exact hcomm e he'
      · rw [if_neg hop]
        cases hfc : findCompat stack m.token with
        | none =>
          dsimp only
          rw [hgoal]
          exact ih (k + 1) stack _ j' hj'
            (fun e he => by have := hlt e he; omega) hcomm hkc' hcm'
        | some r =>
          obtain ⟨pre, hit, post⟩ := r
          dsimp only
          have hdec := findCompat_eq_decomp hfc
          rw [hgoal]
          refine ih (k + 1) post _ j' hj' ?_ ?_ hkc' hcm'
          · intro e he
            have := hlt e (by rw [hdec]; simp [he]); omega
          · intro e he
            exact hcomm e (by rw [hdec]; simp [he])

/-- `enumFrom` is `enumFrom` at a lower base, shifted. -/
theorem enumFrom_add (l : List α) :
    ∀ n m : Nat, List.enumFrom (n + m) l =
      (List.enumFrom m l).map fun p => (p.1 + n, p.2) := by
  induction l with
  | nil => intro n m; rfl
  | cons a l ih =>
    intro n m
    rw [List.enumFrom_cons, List.enumFrom_cons, List.map_cons]
    have h1 : n + m + 1 = n + (m + 1) := by omega
    rw [h1, ih n (m + 1)]
    have h2 : m + n = n + m := by omega
    simp [h2]

/-- The flattened result of `assignHeights` is the flattened input with
each Match's `stack_height` replaced per the assignment map at its
document-order index. -/
theorem assignHeights_flatten (B : List (List Match)) :
    ∀ (off : Nat) (marks : Nat → Option (Option Nat)),
      (assignHeights off B marks).flatten =
        (List.enumFrom off B.flatten).map
          (fun p => { p.2 with stack_height := (marks p.1).getD p.2.stack_height }) := by
  induction B with
  | nil => intro off marks; rfl
  | cons line rest ih =>
    intro off marks
    simp only [assignHeights, List.flatten_cons, ih, List.enumFrom_append,
      List.map_append]
    congr 1
    have he : List.enumFrom off line = line.enum.map fun p => (p.1 + off, p.2) := by
      have := enumFrom_add line off 0
      simpa [List.enum] using this
    rw [he, List.map_map]
    refine List.map_congr_left fun p _ => ?_
    simp [Nat.add_comm]

/-- A Match found by `match_at` belongs to the buffer. -/
theorem match_at_mem {b : ParsedBuffer} {l c : Nat} {m : Match}
    (h : match_at b l c = some m) : m ∈ b.matches_by_line.flatten := by
  unfold match_at at h
  rcases Option.bind_eq_some.1 h with ⟨ms, hms, hfind⟩
  exact List.mem_flatten.2 ⟨ms, List.get?_mem hms, List.mem_of_find?_eq_some hfind⟩

/-- Token equality transports comment-ness. -/
theorem isComment_congr {t u : Token} (h : t = u) :
    t.isComment = u.isComment := by rw [h]

/-- Claim C6 (amended): line-comment and block-comment Matches — which
are not kinded opening/closing — are never pushed onto the resolution
stack, keep `stack_height = None` through resolution, and never appear in
`match_pair` results; span Matches, by contrast, do participate in
resolution (see the counterexample). -/
theorem claim_C6 (b : ParsedBuffer)
    (hkc : ∀ m ∈ b.matches_by_line.flatten,
      m.token.isComment = true → m.kind = Kind.other) :
    (∀ m ∈ (recalculate_stack_heights b).matches_by_line.flatten,
      m.token.isComment = true → m.stack_height = none) ∧
    (∀ l c p, match_pair b l c = some p →
      p.1.m.token.isComment = false ∧ p.2.m.token.isComment = false) := by
  constructor
  · intro m' hm' hcm'
    unfold recalculate_stack_heights at hm'
    rw [assignHeights_flatten] at hm'
    rcases List.mem_map.1 hm' with ⟨p, hp, rfl⟩
    obtain ⟨i, m⟩ := p
    have hp' : (i, m) ∈ b.matches_by_line.flatten.enum := by
      simpa [List.enum] using hp
    obtain ⟨hilt, hieq⟩ := List.mem_enum hp'
    have hcm : m.token.isComment = true := by simpa using hcm'
    have hres := resolveGo_comment_none b.matches_by_line.flatten 0 []
      (fun _ => none) i hilt (by simp) (by simp)
      (fun x hx hc => by rw [hkc x hx hc]; decide)
      (by rw [List.get_eq_getElem, ← hieq]; exact hcm)
    simp only [Nat.zero_add] at hres
    dsimp only
    rw [show b.matches_by_line.flatten.enum =
      List.enumFrom 0 b.matches_by_line.flatten from rfl]
    rw [hres]
    rfl
  · intro l c p hp
    unfold match_pair at hp
    rcases hma : match_at b l c with _ | m0
    · rw [hma] at hp
      exact absurd hp (by simp)
    · rw [hma] at hp
      dsimp only at hp
      have hmem := match_at_mem hma
      have hm0 : m0.token.isComment = false := by
        by_cases hq : m0.token.isComment = true
        · have hko := hkc m0 hmem hq
          have hnd : m0.token.isDelimiter = false := by
            cases htk : m0.token <;> simp_all [Token.isComment, Token.isDelimiter]
          rw [hko] at hp
          simp [hnd] at hp
        · simpa using hq
      split at hp
      · exact absurd hp (by simp)
      · split at hp
        · rcases Option.map_eq_some'.1 hp with ⟨cl, hcl, hpeq⟩
          rcases List.exists_of_findSome?_eq_some hcl with ⟨⟨ln, ms⟩, _, hf⟩
          rcases Option.map_eq_some'.1 hf with ⟨m', hm', hcl'⟩
          have hpred := List.find?_some hm'
          simp only [decide_eq_true_eq] at hpred
          have htok : m0.token = m'.token := hpred.2.1
          subst hcl'
          subst hpeq
          refine ⟨hm0, ?_⟩
          dsimp [Match.with_line]
          rw [← isComment_congr htok]
          exact hm0
        · split at hp
          · rcases Option.map_eq_some'.1 hp with ⟨op, hop', hpeq⟩
            rcases List.exists_of_findSome?_eq_some hop' with ⟨⟨ln, ms⟩, _, hf⟩
            rcases Option.map_eq_some'.1 hf with ⟨m', hm', hcl'⟩
            have hpred := List.find?_some hm'
            simp only [decide_eq_true_eq] at hpred
            have htok : m0.token = m'.token := hpred.2.1
            subst hcl'
            subst hpeq
            refine ⟨?_, hm0⟩
            dsimp [Match.with_line]
            rw [← isComment_congr htok]
            exact hm0
          · exact absurd hp (by simp)

/-- Witness for C6 on the sql buffer of `/*x*/ (`, whose comment Matches
stay unmatched and never appear in pair results. -/
theorem claim_C6_witness :
    (∀ m ∈ (recalculate_stack_heights c6WitnessBuffer).matches_by_line.flatten,
      m.token.isComment = true → m.stack_height = none) ∧
    (∀ l c p, match_pair c6WitnessBuffer l c = some p →
      p.1.m.token.isComment = false ∧ p.2.m.token.isComment = false) :=
  claim_C6 c6WitnessBuffer (by decide)

/-- Counterexample for C6 as stated: span Matches do participate in
stack-height resolution — on a buffer holding an inline-span
opening/closing pair, resolution assigns both Matches `stack_height =
Some 0` instead of leaving them `None`. -/
theorem claim_C6_counterexample :
    (recalculate_stack_heights c6Buffer).matches_by_line.flatten.map
      (fun m => (m.token, m.stack_height)) =
      [(Token.inlineSpan "code" "*" "*", some 0),
        (Token.inlineSpan "code" "*" "*", some 0)] ∧
    ¬ (∀ m ∈ (recalculate_stack_heights c6Buffer).matches_by_line.flatten,
        m.token.isDelimiter = false → m.stack_height = none) := by
  constructor
  · decide
  · decide

/-- Claim C7: an unrecognized filetype makes `reparse_range` report
failure with the buffer completely unchanged; the buffer is mutated only
on calls that return true, and a successful call is exactly the spliced
new content with stack heights recomputed over the entire buffer. -/
theorem claim_C7 (b : ParsedBuffer) (ft : String) (lines : List String)
    (s e n : Option Nat) :
    (ft ≠ "sql" → ft ≠ "vim" → reparse_range b ft lines s e n = some (false, b)) ∧
    (∀ b', reparse_range b ft lines s e n = some (false, b') → b' = b) ∧
    (∀ b', reparse_range b ft lines s e n = some (true, b') →
      ∃ pm ps, parse_filetype ft lines (reparseInit b s) = some (pm, ps) ∧
        b' = recalculate_stack_heights
          ⟨splice b.matches_by_line (reparseStart b s) (reparseOldEnd b e)
              (pm.take (n.getD (reparseStart b s + pm.length) - reparseStart b s)),
            splice b.state_by_line (reparseStart b s) (reparseOldEnd b e)
              (ps.take (n.getD (reparseStart b s + pm.length) - reparseStart b s))⟩) := by
  refine ⟨?_, ?_, ?_⟩
  · intro h1 h2
    simp only [reparse_range, parse_filetype, matcherOf, if_neg h1, if_neg h2,
      Option.map_none']
  · intro b' hr
    rcases hpf : parse_filetype ft lines (reparseInit b s) with _ | ⟨pm, ps⟩
    · simp only [reparse_range, hpf, Option.some.injEq, Prod.mk.injEq] at hr
      exact hr.2.symm
    · simp only [reparse_range, hpf] at hr
      split at hr
      · simp at hr
      · split at hr
        · simp at hr
        · split at hr
          · simp at hr
          · split at hr
            · simp at hr
            · simp at hr
  · intro b' hr
    rcases hpf : parse_filetype ft lines (reparseInit b s) with _ | ⟨pm, ps⟩
    · simp only [reparse_range, hpf, Option.some.injEq, Prod.mk.injEq] at hr
      exact absurd hr.1 (by simp)
    · refine ⟨pm, ps, rfl, ?_⟩
      simp only [reparse_range, hpf] at hr
      split at hr
      · simp at hr
      · split at hr
        · simp at hr
        · split at hr
          · simp at hr
          · split at hr
            · simp at hr
            · simp only [Option.some.injEq, Prod.mk.injEq] at hr
              exact hr.2.symm

/-- Witness for C7: reparsing with the unregistered filetype `lua` leaves
the one-line sql buffer untouched and reports failure. -/
theorem claim_C7_witness :
    reparse_range c5Buffer "lua" ["x"] none none none = some (false, c5Buffer) :=
  (claim_C7 c5Buffer "lua" ["x"] none none none).1 (by decide) (by decide)

/-- Claim C10: with a recognized language, `reparse_range` fails (panics)
when the supplied `new_end_line` is below the clamped `start_line`
(underflow of `new_end_line - start_line`) or when
`new_end_line - start_line` exceeds the number of lines parsed from the
supplied text (out-of-bounds `[0..length]` slice); any non-panicking call
satisfies `start_line ≤ new_end_line ≤ start_line + parsed lines`. -/
theorem claim_C10 (b : ParsedBuffer) (ft : String) (lines : List String)
    (s e : Option Nat) (newEnd : Nat) (pm : List (List Match)) (ps : List State)
    (hpf : parse_filetype ft lines (reparseInit b s) = some (pm, ps)) :
    (newEnd < reparseStart b s →
      reparse_range b ft lines s e (some newEnd) = none) ∧
    (reparseStart b s ≤ newEnd → pm.length < newEnd - reparseStart b s →
      reparse_range b ft lines s e (some newEnd) = none) ∧
    (∀ r, reparse_range b ft lines s e (some newEnd) = some r →
      reparseStart b s ≤ newEnd ∧ newEnd ≤ reparseStart b s + pm.length) := by
  refine ⟨?_, ?_, ?_⟩
  · intro hlt
    simp only [reparse_range, hpf, Option.getD_some]
    rw [if_pos hlt]
  · intro hge hexc
    simp only [reparse_range, hpf, Option.getD_some]
    rw [if_neg (by omega), if_pos hexc]
  · intro r hr
    simp only [reparse_range, hpf, Option.getD_some] at hr
    split at hr
    · simp at hr
    · split at hr
      · simp at hr
      · refine ⟨by omega, by omega⟩

/-! ### Parser loop lemmas -/

/-- `parseLoopF` ignores its fuel beyond the token-list length. -/
theorem parseLoopF_congr (M : MatcherDef) :
    ∀ (f1 f2 : Nat) (ts : List RawToken) (ps : PState),
      ts.length ≤ f1 → ts.length ≤ f2 →
      parseLoopF M f1 ps ts = parseLoopF M f2 ps ts := by
  intro f1
  induction f1 with
  | zero =>
    intro f2 ts ps h1 _
    have : ts = [] := List.length_eq_zero.1 (by omega)
    subst this
    cases f2 <;> rfl
  | succ f1 ih =>
    intro f2 ts ps h1 h2
    cases ts with
    | nil => cases f2 <;> rfl
    | cons t rest =>
      cases f2 with
      | zero => simp at h2
      | succ f2 =>
        simp only [parseLoopF]
        by_cases hnl : t.byte = '\n'
        · rw [if_pos hnl, if_pos hnl]
          exact ih f2 rest _ (by simpa using h1) (by simpa using h2)
        · rw [if_neg hnl, if_neg hnl]
          by_cases hbs : t.byte = '\\'
          · rw [if_pos hbs, if_pos hbs]
            cases hesc : ps.esc with
            | some c =>
              dsimp only
              by_cases hc : c = t.col - 1
              · rw [if_pos hc, if_pos hc]
                exact ih f2 rest _ (by simpa using h1) (by simpa using h2)
              · rw [if_neg hc, if_neg hc]
                exact ih f2 rest _ (by simpa using h1) (by simpa using h2)
            | none =>
              dsimp only
              exact ih f2 rest _ (by simpa using h1) (by simpa using h2)
          · rw [if_neg hbs, if_neg hbs]
            refine ih f2 _ _ ?_ ?_
            · have := List.length_drop
                (matcherStep M ps.st t rest (match ps.esc with
                  | some c => decide (c = t.col - 1)
                  | none => false)).2.1 rest
              simp only [this]
              simp only [List.length_cons] at h1
              omega
            · have := List.length_drop
                (matcherStep M ps.st t rest (match ps.esc with
                  | some c => decide (c = t.col - 1)
                  | none => false)).2.1 rest
              simp only [this]
              simp only [List.length_cons] at h2
              omega

/-- The step equation of the parser loop on a non-empty token list. -/
theorem parseLoop_cons (M : MatcherDef) (ps : PState) (t : RawToken)
    (rest : List RawToken) :
    parseLoop M ps (t :: rest) =
      if t.byte = '\n' then
        parseLoop M ⟨ps.mbl ++ [ps.lm], [], ps.sbl ++ [normalizeAtNl ps.st],
          normalizeAtNl ps.st, none⟩ rest
      else if t.byte = '\\' then
        match ps.esc with
        | some c =>
          if c = t.col - 1 then parseLoop M { ps with esc := none } rest
          else parseLoop M { ps with esc := some t.col } rest
        | none => parseLoop M { ps with esc := some t.col } rest
      else
        parseLoop M { ps with
          lm := ps.lm ++ (matcherStep M ps.st t rest (match ps.esc with
            | some c => decide (c = t.col - 1)
            | none => false)).1,
          st := (matcherStep M ps.st t rest (match ps.esc with
            | some c => decide (c = t.col - 1)
            | none => false)).2.2 }
          (rest.drop (matcherStep M ps.st t rest (match ps.esc with
            | some c => decide (c = t.col - 1)
            | none => false)).2.1) := by
  show parseLoopF M (rest.length + 1) ps (t :: rest) = _
  simp only [parseLoopF]
  by_cases hnl : t.byte = '\n'
  · rw [if_pos hnl, if_pos hnl]
    exact parseLoopF_congr M rest.length rest.length rest _ le_rfl le_rfl
  · rw [if_neg hnl, if_neg hnl]
    by_cases hbs : t.byte = '\\'
    · rw [if_pos hbs, if_pos hbs]
      rfl
    · rw [if_neg hbs, if_neg hbs]
      exact parseLoopF_congr M rest.length _ _ _
        (by rw [List.length_drop]; omega) le_rfl

/-- Claim C8: in the parser loop, a backslash with no pending escape (or a
non-adjacent pending one) records its own column as the pending escaped
column; a backslash at exactly one column past the pending backslash is
consumed by that escape and starts no new pending escape; an ordinary
token is handed to the Matcher as escaped exactly when its column is one
greater than the pending backslash's column; and a newline discards the
pending escape. -/
theorem claim_C8 (M : MatcherDef) (ps : PState) (t : RawToken)
    (rest : List RawToken) :
    (t.byte = '\\' → ps.esc = none →
      parseLoop M ps (t :: rest) = parseLoop M { ps with esc := some t.col } rest) ∧
    (∀ c, t.byte = '\\' → ps.esc = some c → t.col = c + 1 →
      parseLoop M ps (t :: rest) = parseLoop M { ps with esc := none } rest) ∧
    (∀ c, t.byte = '\\' → ps.esc = some c → c < t.col → t.col ≠ c + 1 →
      parseLoop M ps (t :: rest) = parseLoop M { ps with esc := some t.col } rest) ∧
    (t.byte ≠ '\n' → t.byte ≠ '\\' → (∀ c, ps.esc = some c → c < t.col) →
      parseLoop M ps (t :: rest) =
        parseLoop M { ps with
          lm := ps.lm ++ (matcherStep M ps.st t rest (match ps.esc with
            | some c => decide (t.col = c + 1)
            | none => false)).1,
          st := (matcherStep M ps.st t rest (match ps.esc with
            | some c => decide (t.col = c + 1)
            | none => false)).2.2 }
          (rest.drop (matcherStep M ps.st t rest (match ps.esc with
            | some c => decide (t.col = c + 1)
            | none => false)).2.1)) ∧
    (t.byte = '\n' →
      parseLoop M ps (t :: rest) =
        parseLoop M ⟨ps.mbl ++ [ps.lm], [], ps.sbl ++ [normalizeAtNl ps.st],
          normalizeAtNl ps.st, none⟩ rest) := by
  have hnlbs : ('\\' : Char) ≠ '\n' := by decide
  refine ⟨?_, ?_, ?_, ?_, ?_⟩
  · intro hbs hesc
    rw [parseLoop_cons, if_neg (hbs ▸ hnlbs), if_pos hbs, hesc]
  · intro c hbs hesc hcol
    rw [parseLoop_cons, if_neg (hbs ▸ hnlbs), if_pos hbs, hesc]
    dsimp only
    rw [if_pos (by omega)]
  · intro c hbs hesc hlt hne
    rw [parseLoop_cons, if_neg (hbs ▸ hnlbs), if_pos hbs, hesc]
    dsimp only
    rw [if_neg (by omega)]
  · intro hnl hbs hlt
    rw [parseLoop_cons, if_neg hnl, if_neg hbs]
    cases hesc : ps.esc with
    | none => rfl
    | some c =>
      have := hlt c hesc
      have hdec : (decide (c = t.col - 1)) = (decide (t.col = c + 1)) := by
        rw [decide_eq_decide]
        omega
      dsimp only
      rw [hdec]
  · intro hnl
    rw [parseLoop_cons, if_pos hnl]

/-- Witness for C8: a backslash at column 1 adjacent to a pending escape
at column 0 is consumed without starting a new pending escape. -/
theorem claim_C8_witness :
    parseLoop sqlMatcher ⟨[], [], [], State.normal, some 0⟩ [⟨'\\', 1⟩] =
      parseLoop sqlMatcher ⟨[], [], [], State.normal, none⟩ [] :=
  (claim_C8 sqlMatcher ⟨[], [], [], State.normal, some 0⟩ ⟨'\\', 1⟩ []).2.1
    0 rfl rfl rfl

/-! ### Parser composition over line boundaries (infrastructure for C3) -/

/-- `find?` only depends on the predicate's values on the list. -/
theorem find?_congr {p q : α → Bool} (l : List α) (h : ∀ a ∈ l, p a = q a) :
    l.find? p = l.find? q := by
  induction l with
  | nil => rfl
  | cons a l ih =>
    rw [List.find?_cons, List.find?_cons, h a (by simp)]
    cases q a with
    | true => rfl
    | false => exact ih fun x hx => h x (by simp [hx])

/-- `spellsFrom` never looks past a newline token, so the tokens beyond
the line's newline are irrelevant to it. -/
theorem spellsFrom_split (cs : List Char) (hcs : '\n' ∉ cs) :
    ∀ (col : Nat) (A B : List RawToken), NoNl A →
      spellsFrom cs col (A ++ newlineTok :: B) = spellsFrom cs col A := by
  induction cs with
  | nil => intro col A B _; rfl
  | cons c cs ih =>
    intro col A B hA
    cases A with
    | nil =>
      simp only [List.nil_append, spellsFrom]
      have hc : ¬(newlineTok.byte = c ∧ newlineTok.col = col) := by
        intro hh
        exact hcs (by rw [← hh.1]; simp [newlineTok])
      rw [decide_eq_false hc]
      simp
    | cons a A' =>
      simp only [List.cons_append, spellsFrom]
      congr 1
      exact ih (fun hin => hcs (List.mem_cons_of_mem _ hin)) (col + 1) A' B
        fun x hx => hA x (List.mem_cons_of_mem _ hx)

/-- A successful `spellsFrom` consumes no more tokens than it has
characters. -/
theorem spellsFrom_le (cs : List Char) :
    ∀ (col : Nat) (A : List RawToken), spellsFrom cs col A = true →
      cs.length ≤ A.length := by
  induction cs with
  | nil => intro col A _; simp
  | cons c cs ih =>
    intro col A h
    cases A with
    | nil => simp [spellsFrom] at h
    | cons a A' =>
      simp only [spellsFrom, Bool.and_eq_true] at h
      have := ih (col + 1) A' h.2
      simp only [List.length_cons]
      omega

/-- `spells` for a newline-free marker ignores everything from the line's
newline token on. -/
theorem spells_split (mk : String) (hmk : '\n' ∉ mk.toList) (t : RawToken)
    (A B : List RawToken) (hA : NoNl A) :
    spells mk t (A ++ newlineTok :: B) = spells mk t A := by
  unfold spells
  cases h : mk.toList with
  | nil => rfl
  | cons c cs =>
    dsimp only
    rw [spellsFrom_split cs (fun hin => hmk (by rw [h]; simp [hin])) _ A B hA]

/-- A successful `spells` of a nonempty marker consumes at most the line's
remaining tokens. -/
theorem spells_le (mk : String) (t : RawToken) (A : List RawToken)
    (h : spells mk t A = true) : mk.length - 1 ≤ A.length := by
  unfold spells at h
  cases hl : mk.toList with
  | nil => rw [hl] at h; simp at h
  | cons c cs =>
    rw [hl] at h
    simp only [Bool.and_eq_true] at h
    have hle := spellsFrom_le cs _ _ h.2
    have hlen : mk.length = cs.length + 1 := by
      show mk.toList.length = cs.length + 1
      rw [hl]
      rfl
    omega

/-- Line-comment markers are markers. -/
theorem mem_markers_line_comment {M : MatcherDef} {mk : String}
    (h : mk ∈ M.line_comment) : mk ∈ M.markers := by
  unfold MatcherDef.markers
  simp [List.mem_append, h]

/-- Both block-comment markers are markers. -/
theorem mem_markers_block_comment {M : MatcherDef} {p : String × String}
    (hp : p ∈ M.block_comment) : p.1 ∈ M.markers ∧ p.2 ∈ M.markers := by
  have h1 : p.1 ∈ List.map Prod.fst M.block_comment := List.mem_map_of_mem _ hp
  have h2 : p.2 ∈ List.map Prod.snd M.block_comment := List.mem_map_of_mem _ hp
  unfold MatcherDef.markers
  constructor <;> simp [List.mem_append, h1, h2]

/-- String markers are markers. -/
theorem mem_markers_string {M : MatcherDef} {mk : String}
    (h : mk ∈ M.string_markers) : mk ∈ M.markers := by
  unfold MatcherDef.markers
  simp [List.mem_append, h]

/-- Both block-string markers are markers. -/
theorem mem_markers_block_string {M : MatcherDef} {p : String × String}
    (hp : p ∈ M.block_string) : p.1 ∈ M.markers ∧ p.2 ∈ M.markers := by
  have h1 : p.1 ∈ List.map Prod.fst M.block_string := List.mem_map_of_mem _ hp
  have h2 : p.2 ∈ List.map Prod.snd M.block_string := List.mem_map_of_mem _ hp
  unfold MatcherDef.markers
  constructor <;> simp [List.mem_append, h1, h2]

/-- A found marker of `firstSpell` is spelled out. -/
theorem firstSpell_spells {mks : List String} {t : RawToken}
    {A : List RawToken} {mk : String} (h : firstSpell mks t A = some mk) :
    spells mk t A = true := by
  have := List.find?_some h
  simpa using this

/-- A found marker pair of `firstSpellPair` has its opener spelled out. -/
theorem firstSpellPair_spells {ps : List (String × String)} {t : RawToken}
    {A : List RawToken} {p : String × String}
    (h : firstSpellPair ps t A = some p) : spells p.1 t A = true := by
  have := List.find?_some h
  simpa using this

/-- The matcher transition only inspects the lookahead up to the line's
newline token, and consumes at most the line's remaining tokens. -/
theorem matcherStep_split (M : MatcherDef) (hM : MWf M) (st : State)
    (hst : StateWf M st) (t : RawToken) (A B : List RawToken) (hA : NoNl A)
    (esc : Bool) :
    matcherStep M st t (A ++ newlineTok :: B) esc = matcherStep M st t A esc ∧
    (matcherStep M st t A esc).2.1 ≤ A.length := by
  have hspl : ∀ mk : String, mk ∈ M.markers →
      spells mk t (A ++ newlineTok :: B) = spells mk t A :=
    fun mk hmk => spells_split mk (hM mk hmk).2 t A B hA
  cases esc with
  | true => exact ⟨rfl, Nat.zero_le _⟩
  | false =>
    cases st with
    | normal =>
      unfold matcherStep
      simp only [Bool.false_eq_true, if_false]
      cases hd1 : M.delimiters.find? fun p => decide (p.1.toList = [t.byte]) with
      | some p => exact ⟨rfl, Nat.zero_le _⟩
      | none =>
      cases hd2 : M.delimiters.find? fun p => decide (p.2.toList = [t.byte]) with
      | some p => exact ⟨rfl, Nat.zero_le _⟩
      | none =>
      rw [show firstSpell M.line_comment t (A ++ newlineTok :: B) =
          firstSpell M.line_comment t A from
        find?_congr _ fun mk hmk => hspl mk (mem_markers_line_comment hmk)]
      cases hfs1 : firstSpell M.line_comment t A with
      | some mk => exact ⟨rfl, spells_le mk t A (firstSpell_spells hfs1)⟩
      | none =>
      rw [show firstSpellPair M.block_comment t (A ++ newlineTok :: B) =
          firstSpellPair M.block_comment t A from
        find?_congr _ fun p hp => hspl p.1 (mem_markers_block_comment hp).1]
      cases hfs2 : firstSpellPair M.block_comment t A with
      | some p => exact ⟨rfl, spells_le p.1 t A (firstSpellPair_spells hfs2)⟩
      | none =>
      rw [show firstSpell M.string_markers t (A ++ newlineTok :: B) =
          firstSpell M.string_markers t A from
        find?_congr _ fun mk hmk => hspl mk (mem_markers_string hmk)]
      cases hfs3 : firstSpell M.string_markers t A with
      | some mk => exact ⟨rfl, spells_le mk t A (firstSpell_spells hfs3)⟩
      | none =>
      rw [show firstSpellPair M.block_string t (A ++ newlineTok :: B) =
          firstSpellPair M.block_string t A from
        find?_congr _ fun p hp => hspl p.1 (mem_markers_block_string hp).1]
      cases hfs4 : firstSpellPair M.block_string t A with
      | some p => exact ⟨rfl, spells_le p.1 t A (firstSpellPair_spells hfs4)⟩
      | none => exact ⟨rfl, Nat.zero_le _⟩
    | inString q =>
      have hq : q ∈ M.markers := mem_markers_string hst
      unfold matcherStep
      simp only [Bool.false_eq_true, if_false]
      rw [hspl q hq]
      refine ⟨rfl, ?_⟩
      cases hsp : spells q t A with
      | true => rw [if_pos rfl]; exact spells_le q t A hsp
      | false => rw [if_neg (by simp)]; exact Nat.zero_le _
    | inBlockString c =>
      obtain ⟨p, hp, rfl⟩ := hst
      have hq : p.2 ∈ M.markers := (mem_markers_block_string hp).2
      unfold matcherStep
      simp only [Bool.false_eq_true, if_false]
      rw [hspl p.2 hq]
      refine ⟨rfl, ?_⟩
      cases hsp : spells p.2 t A with
      | true => rw [if_pos rfl]; exact spells_le p.2 t A hsp
      | false => rw [if_neg (by simp)]; exact Nat.zero_le _
    | inLineComment => exact ⟨rfl, Nat.zero_le _⟩
    | inBlockComment c =>
      obtain ⟨p, hp, rfl⟩ := hst
      have hq : p.2 ∈ M.markers := (mem_markers_block_comment hp).2
      unfold matcherStep
      simp only [Bool.false_eq_true, if_false]
      rw [hspl p.2 hq]
      refine ⟨rfl, ?_⟩
      cases hsp : spells p.2 t A with
      | true => rw [if_pos rfl]; exact spells_le p.2 t A hsp
      | false => rw [if_neg (by simp)]; exact Nat.zero_le _
    | inInlineSpan i => exact ⟨rfl, Nat.zero_le _⟩
    | inBlockSpan i => exact ⟨rfl, Nat.zero_le _⟩

/-- The matcher transition lands in a reachable State. -/
theorem matcherStep_stwf (M : MatcherDef) (st : State) (t : RawToken)
    (rest : List RawToken) (esc : Bool) (hst : StateWf M st) :
    StateWf M (matcherStep M st t rest esc).2.2 := by
  cases esc with
  | true => exact hst
  | false =>
    cases st with
    | normal =>
      unfold matcherStep
      simp only [Bool.false_eq_true, if_false]
      cases hd1 : M.delimiters.find? fun p => decide (p.1.toList = [t.byte]) with
      | some p => trivial
      | none =>
      cases hd2 : M.delimiters.find? fun p => decide (p.2.toList = [t.byte]) with
      | some p => trivial
      | none =>
      cases hfs1 : firstSpell M.line_comment t rest with
      | some mk => trivial
      | none =>
      cases hfs2 : firstSpellPair M.block_comment t rest with
      | some p => exact ⟨p, List.mem_of_find?_eq_some hfs2, rfl⟩
      | none =>
      cases hfs3 : firstSpell M.string_markers t rest with
      | some mk => exact List.mem_of_find?_eq_some hfs3
      | none =>
      cases hfs4 : firstSpellPair M.block_string t rest with
      | some p => exact ⟨p, List.mem_of_find?_eq_some hfs4, rfl⟩
      | none => trivial
    | inString q =>
      unfold matcherStep
      simp only [Bool.false_eq_true, if_false]
      cases hsp : spells q t rest with
      | true => rw [if_pos rfl]; trivial
      | false => rw [if_neg (by simp)]; exact hst
    | inBlockString c =>
      unfold matcherStep
      simp only [Bool.false_eq_true, if_false]
      cases hsp : spells c t rest with
      | true => rw [if_pos rfl]; trivial
      | false => rw [if_neg (by simp)]; exact hst
    | inLineComment => exact hst
    | inBlockComment c =>
      unfold matcherStep
      simp only [Bool.false_eq_true, if_false]
      cases hsp : spells c t rest with
      | true => rw [if_pos rfl]; trivial
      | false => rw [if_neg (by simp)]; exact hst
    | inInlineSpan i => exact hst
    | inBlockSpan i => exact hst

/-- The newline normalization lands in a reachable State. -/
theorem normalizeAtNl_stwf {M : MatcherDef} {st : State} (hst : StateWf M st) :
    StateWf M (normalizeAtNl st) := by
  cases st <;> first | exact hst | trivial

/-- The parser loop preserves State reachability. -/
theorem parseLoopF_stwf (M : MatcherDef) :
    ∀ (fuel : Nat) (ts : List RawToken) (ps : PState), StateWf M ps.st →
      StateWf M (parseLoopF M fuel ps ts).st := by
  intro fuel
  induction fuel with
  | zero => intro ts ps hst; exact hst
  | succ fuel ih =>
    intro ts ps hst
    cases ts with
    | nil => exact hst
    | cons t rest =>
      simp only [parseLoopF]
      by_cases hnl : t.byte = '\n'
      · rw [if_pos hnl]
        exact ih rest _ (normalizeAtNl_stwf hst)
      · rw [if_neg hnl]
        by_cases hbs : t.byte = '\\'
        · rw [if_pos hbs]
          cases ps.esc with
          | some c =>
            dsimp only
            by_cases hc : c = t.col - 1
            · rw [if_pos hc]; exact ih rest _ hst
            · rw [if_neg hc]; exact ih rest _ hst
          | none => exact ih rest _ hst
        · rw [if_neg hbs]
          exact ih _ _ (matcherStep_stwf M ps.st t rest _ hst)

/-- Over a newline-free token list the loop leaves the per-line
accumulators `matches_by_line` and `state_by_line` untouched. -/
theorem parseLoopF_noNl (M : MatcherDef) :
    ∀ (fuel : Nat) (ts : List RawToken) (ps : PState), NoNl ts →
      (parseLoopF M fuel ps ts).mbl = ps.mbl ∧
      (parseLoopF M fuel ps ts).sbl = ps.sbl := by
  intro fuel
  induction fuel with
  | zero => intro ts ps _; exact ⟨rfl, rfl⟩
  | succ fuel ih =>
    intro ts ps hA
    cases ts with
    | nil => exact ⟨rfl, rfl⟩
    | cons t rest =>
      have hrest : NoNl rest := fun x hx => hA x (by simp [hx])
      simp only [parseLoopF]
      rw [if_neg (hA t (by simp))]
      by_cases hbs : t.byte = '\\'
      · rw [if_pos hbs]
        cases ps.esc with
        | some c =>
          dsimp only
          by_cases hc : c = t.col - 1
          · rw [if_pos hc]; exact ih rest _ hrest
          · rw [if_neg hc]; exact ih rest _ hrest
        | none => exact ih rest _ hrest
      · rw [if_neg hbs]
        exact ih _ _ fun x hx => hrest x (List.mem_of_mem_drop hx)

/-- The loop's `matches_by_line` and `state_by_line` accumulators are pure
prefixes: running from loaded accumulators appends to them exactly what a
run from empty ones produces. -/
theorem parseLoopF_acc (M : MatcherDef) :
    ∀ (fuel : Nat) (ts : List RawToken) (mbl : List (List Match))
      (lm : List Match) (sbl : List State) (st : State) (esc : Option Nat),
      parseLoopF M fuel ⟨mbl, lm, sbl, st, esc⟩ ts =
        ⟨mbl ++ (parseLoopF M fuel ⟨[], lm, [], st, esc⟩ ts).mbl,
         (parseLoopF M fuel ⟨[], lm, [], st, esc⟩ ts).lm,
         sbl ++ (parseLoopF M fuel ⟨[], lm, [], st, esc⟩ ts).sbl,
         (parseLoopF M fuel ⟨[], lm, [], st, esc⟩ ts).st,
         (parseLoopF M fuel ⟨[], lm, [], st, esc⟩ ts).esc⟩ := by
  intro fuel
  induction fuel with
  | zero => intro ts mbl lm sbl st esc; simp [parseLoopF]
  | succ fuel ih =>
    intro ts mbl lm sbl st esc
    cases ts with
    | nil => simp [parseLoopF]
    | cons t rest =>
      simp only [parseLoopF]
      by_cases hnl : t.byte = '\n'
      · rw [if_pos hnl, if_pos hnl]
        rw [ih rest (mbl ++ [lm]) [] (sbl ++ [normalizeAtNl st]) (normalizeAtNl st) none,
          ih rest ([] ++ [lm]) [] ([] ++ [normalizeAtNl st]) (normalizeAtNl st) none]
        simp
      · rw [if_neg hnl, if_neg hnl]
        by_cases hbs : t.byte = '\\'
        · rw [if_pos hbs, if_pos hbs]
          cases esc with
          | some c =>
            dsimp only
            by_cases hc : c = t.col - 1
            · rw [if_pos hc, if_pos hc]
              exact ih rest mbl lm sbl st none
            · rw [if_neg hc, if_neg hc]
              exact ih rest mbl lm sbl st (some t.col)
          | none => exact ih rest mbl lm sbl st (some t.col)
        · rw [if_neg hbs, if_neg hbs]
          exact ih _ mbl _ sbl _ esc

/-- Splitting the parser loop at a newline token: process the line, flush
it, continue with the rest. -/
theorem parseLoop_split (M : MatcherDef) (hM : MWf M) :
    ∀ (n : Nat) (A : List RawToken), A.length ≤ n → ∀ (B : List RawToken)
      (ps : PState), NoNl A → StateWf M ps.st →
      parseLoop M ps (A ++ newlineTok :: B) =
        parseLoop M (nlFlush (parseLoop M ps A)) B := by
  intro n
  induction n with
  | zero =>
    intro A hA B ps hno hst
    have : A = [] := List.length_eq_zero.1 (by omega)
    subst this
    rw [List.nil_append, parseLoop_cons,
      if_pos (show newlineTok.byte = '\n' from rfl)]
    rfl
  | succ n ih =>
    intro A hA B ps hno hst
    cases A with
    | nil =>
      rw [List.nil_append, parseLoop_cons,
        if_pos (show newlineTok.byte = '\n' from rfl)]
      rfl
    | cons t A' =>
      have htnl : t.byte ≠ '\n' := hno t (by simp)
      have hno' : NoNl A' := fun x hx => hno x (by simp [hx])
      rw [List.cons_append, parseLoop_cons, parseLoop_cons]
      rw [if_neg htnl, if_neg htnl]
      by_cases hbs : t.byte = '\\'
      · rw [if_pos hbs, if_pos hbs]
        cases ps.esc with
        | some c =>
          dsimp only
          by_cases hc : c = t.col - 1
          · rw [if_pos hc, if_pos hc]
            exact ih A' (by simpa using hA) B _ hno' hst
          · rw [if_neg hc, if_neg hc]
            exact ih A' (by simpa using hA) B _ hno' hst
        | none => exact ih A' (by simpa using hA) B _ hno' hst
      · rw [if_neg hbs, if_neg hbs]
        obtain ⟨hms, hk⟩ := matcherStep_split M hM ps.st hst t A' B hno'
          (match ps.esc with
            | some c => decide (c = t.col - 1)
            | none => false)
        rw [hms, List.drop_append_of_le_length hk]
        exact ih (A'.drop _)
          (by rw [List.length_drop]; simp only [List.length_cons] at hA; omega) B _
          (fun x hx => hno' x (List.mem_of_mem_drop hx))
          (matcherStep_stwf M ps.st t A' _ hst)

/-- `parseLoop`-level restatement of `parseLoopF_noNl`. -/
theorem parseLoop_noNl (M : MatcherDef) (ts : List RawToken) (ps : PState)
    (h : NoNl ts) :
    (parseLoop M ps ts).mbl = ps.mbl ∧ (parseLoop M ps ts).sbl = ps.sbl :=
  parseLoopF_noNl M ts.length ts ps h

/-- `parseLoop`-level restatement of `parseLoopF_stwf`. -/
theorem parseLoop_stwf (M : MatcherDef) (ts : List RawToken) (ps : PState)
    (h : StateWf M ps.st) : StateWf M (parseLoop M ps ts).st :=
  parseLoopF_stwf M ts.length ts ps h

/-- `parseLoop`-level restatement of `parseLoopF_acc`. -/
theorem parseLoop_acc (M : MatcherDef) (ts : List RawToken)
    (mbl : List (List Match)) (lm : List Match) (sbl : List State) (st : State)
    (esc : Option Nat) :
    parseLoop M ⟨mbl, lm, sbl, st, esc⟩ ts =
      ⟨mbl ++ (parseLoop M ⟨[], lm, [], st, esc⟩ ts).mbl,
       (parseLoop M ⟨[], lm, [], st, esc⟩ ts).lm,
       sbl ++ (parseLoop M ⟨[], lm, [], st, esc⟩ ts).sbl,
       (parseLoop M ⟨[], lm, [], st, esc⟩ ts).st,
       (parseLoop M ⟨[], lm, [], st, esc⟩ ts).esc⟩ :=
  parseLoopF_acc M ts.length ts mbl lm sbl st esc

/-- A line's tokens carry no newline byte. -/
theorem lineTokens_noNl (M : MatcherDef) (hM : MWf M) (l : String) :
    NoNl (lineTokens M l) := by
  intro t ht
  unfold lineTokens at ht
  rcases List.mem_filterMap.1 ht with ⟨⟨i, c⟩, _, hsome⟩
  dsimp only at hsome
  by_cases hcond : c = '\\' ∨ c ∈ M.interest
  · rw [if_pos hcond] at hsome
    have ht' : t = ⟨c, i⟩ := (Option.some.inj hsome).symm
    subst ht'
    show c ≠ '\n'
    rcases hcond with hc | hc
    · rw [hc]; decide
    · rcases List.mem_flatMap.1 hc with ⟨mk, hmk, hcm⟩
      intro heq
      exact (hM mk hmk).2 (heq ▸ hcm)
  · rw [if_neg hcond] at hsome
    exact absurd hsome (by simp)

/-- The parse of no lines. -/
theorem parse_nil (M : MatcherDef) (st : State) : parse M [] st = ([[]], [st]) := rfl

/-- The parse of one line: its Matches and its raw terminal State. -/
theorem parse_single (M : MatcherDef) (hM : MWf M) (l : String) (st : State) :
    parse M [l] st = ([(lineRun M st l).1], [(lineRun M st l).2]) := by
  obtain ⟨h1, h2⟩ :=
    parseLoop_noNl M (lineTokens M l) ⟨[], [], [], st, none⟩ (lineTokens_noNl M hM l)
  show ((parseLoop M ⟨[], [], [], st, none⟩ (lineTokens M l)).mbl ++
      [(parseLoop M ⟨[], [], [], st, none⟩ (lineTokens M l)).lm],
    (parseLoop M ⟨[], [], [], st, none⟩ (lineTokens M l)).sbl ++
      [(parseLoop M ⟨[], [], [], st, none⟩ (lineTokens M l)).st]) = _
  rw [h1, h2]
  rfl

/-- The parse of at least two lines: the head line is flushed through a
newline and the tail is parsed from the normalized State. -/
theorem parse_cons (M : MatcherDef) (hM : MWf M) (st : State)
    (hst : StateWf M st) (l l' : String) (rest : List String) :
    parse M (l :: l' :: rest) st =
      ((lineRun M st l).1 ::
          (parse M (l' :: rest) (normalizeAtNl (lineRun M st l).2)).1,
        normalizeAtNl (lineRun M st l).2 ::
          (parse M (l' :: rest) (normalizeAtNl (lineRun M st l).2)).2) := by
  obtain ⟨h1, h2⟩ :=
    parseLoop_noNl M (lineTokens M l) ⟨[], [], [], st, none⟩ (lineTokens_noNl M hM l)
  have hts : tokenStream M (l :: l' :: rest) =
      lineTokens M l ++ newlineTok :: tokenStream M (l' :: rest) := rfl
  show ((parseLoop M ⟨[], [], [], st, none⟩ (tokenStream M (l :: l' :: rest))).mbl ++
      [(parseLoop M ⟨[], [], [], st, none⟩ (tokenStream M (l :: l' :: rest))).lm],
    (parseLoop M ⟨[], [], [], st, none⟩ (tokenStream M (l :: l' :: rest))).sbl ++
      [(parseLoop M ⟨[], [], [], st, none⟩ (tokenStream M (l :: l' :: rest))).st]) = _
  rw [hts]
  rw [parseLoop_split M hM (lineTokens M l).length (lineTokens M l) le_rfl _ _
    (lineTokens_noNl M hM l) hst]
  unfold nlFlush
  rw [h1, h2]
  simp only [List.nil_append]
  rw [parseLoop_acc M (tokenStream M (l' :: rest))
    [(parseLoop M ⟨[], [], [], st, none⟩ (lineTokens M l)).lm] []
    [normalizeAtNl (parseLoop M ⟨[], [], [], st, none⟩ (lineTokens M l)).st]
    (normalizeAtNl (parseLoop M ⟨[], [], [], st, none⟩ (lineTokens M l)).st) none]
  simp only [List.cons_append, List.nil_append]
  rfl

/-- `foldNT` emits one Match list and one State per line. -/
theorem foldNT_length (M : MatcherDef) :
    ∀ (L : List String) (st : State),
      (foldNT M st L).1.length = L.length ∧
      (foldNT M st L).2.1.length = L.length := by
  intro L
  induction L with
  | nil => intro st; exact ⟨rfl, rfl⟩
  | cons l rest ih =>
    intro st
    obtain ⟨h1, h2⟩ := ih (normalizeAtNl (lineRun M st l).2)
    exact ⟨by simp [foldNT, h1], by simp [foldNT, h2]⟩

/-- `foldNT` stays within reachable States. -/
theorem foldNT_stwf (M : MatcherDef) :
    ∀ (L : List String) (st : State), StateWf M st →
      StateWf M (foldNT M st L).2.2 ∧ ∀ s ∈ (foldNT M st L).2.1, StateWf M s := by
  intro L
  induction L with
  | nil => intro st hst; exact ⟨hst, by simp [foldNT]⟩
  | cons l rest ih =>
    intro st hst
    have hrun : StateWf M (normalizeAtNl (lineRun M st l).2) :=
      normalizeAtNl_stwf (parseLoop_stwf M _ _ hst)
    obtain ⟨ih1, ih2⟩ := ih (normalizeAtNl (lineRun M st l).2) hrun
    refine ⟨ih1, ?_⟩
    intro s hs
    simp only [foldNT, List.mem_cons] at hs
    rcases hs with rfl | hs
    · exact hrun
    · exact ih2 s hs

/-- `getLast?` skips a head when the tail is nonempty. -/
theorem getLast?_cons_ne_nil {a : α} {l : List α} (h : l ≠ []) :
    (a :: l).getLast? = l.getLast? := by
  cases l with
  | nil => exact absurd rfl h
  | cons b t => exact List.getLast?_cons_cons

/-- The last stored State of a nonempty `foldNT` is the handed-on State. -/
theorem foldNT_last (M : MatcherDef) :
    ∀ (L : List String) (st : State), L ≠ [] →
      (foldNT M st L).2.1.getLast? = some (foldNT M st L).2.2 := by
  intro L
  induction L with
  | nil => intro st h; exact absurd rfl h
  | cons l rest ih =>
    intro st _
    cases hr : rest with
    | nil => simp [foldNT]
    | cons l' rest' =>
      have hih := ih (normalizeAtNl (lineRun M st l).2) (by simp [hr])
      rw [hr] at hih
      show (normalizeAtNl (lineRun M st l).2 ::
        (foldNT M (normalizeAtNl (lineRun M st l).2) (l' :: rest')).2.1).getLast? = _
      rw [getLast?_cons_ne_nil (by
        have := (foldNT_length M (l' :: rest')
          (normalizeAtNl (lineRun M st l).2)).2
        intro hnil
        rw [hnil] at this
        simp at this)]
      exact hih

/-- The parse of a prefix of lines followed by more lines: the prefix
contributes its newline-terminated results and hands its terminal State
on. -/
theorem parse_split_lines (M : MatcherDef) (hM : MWf M) :
    ∀ (L1 L2 : List String) (st : State), L2 ≠ [] → StateWf M st →
      parse M (L1 ++ L2) st =
        ((foldNT M st L1).1 ++ (parse M L2 (foldNT M st L1).2.2).1,
          (foldNT M st L1).2.1 ++ (parse M L2 (foldNT M st L1).2.2).2) := by
  intro L1
  induction L1 with
  | nil => intro L2 st _ _; simp [foldNT]
  | cons l L1' ih =>
    intro L2 st hL2 hst
    obtain ⟨x, xs, hxx⟩ : ∃ x xs, L1' ++ L2 = x :: xs := by
      cases h : L1' ++ L2 with
      | nil => exact absurd (List.append_eq_nil.1 h).2 hL2
      | cons x xs => exact ⟨x, xs, rfl⟩
    have hcons : (l :: L1') ++ L2 = l :: x :: xs := by
      rw [List.cons_append, hxx]
    rw [hcons, parse_cons M hM st hst l x xs, ← hxx]
    have hrun : StateWf M (normalizeAtNl (lineRun M st l).2) :=
      normalizeAtNl_stwf (parseLoop_stwf M _ _ hst)
    rw [ih L2 (normalizeAtNl (lineRun M st l).2) hL2 hrun]
    simp [foldNT]

/-- A nonempty parse produces exactly the newline-terminated Match lists
of `foldNT`; its stored States agree with `foldNT`'s except that the very
last one is the raw (unnormalized) terminal State, whose normalization is
the State `foldNT` hands on. -/
theorem parse_vs_foldNT (M : MatcherDef) (hM : MWf M) :
    ∀ (L : List String) (st : State), L ≠ [] → StateWf M st →
      (parse M L st).1 = (foldNT M st L).1 ∧
      ∃ rawT, (parse M L st).2 = (foldNT M st L).2.1.dropLast ++ [rawT] ∧
        normalizeAtNl rawT = (foldNT M st L).2.2 := by
  intro L
  induction L with
  | nil => intro st h; exact absurd rfl h
  | cons l rest ih =>
    intro st _ hst
    cases rest with
    | nil =>
      rw [parse_single M hM l st]
      refine ⟨by simp [foldNT], (lineRun M st l).2, by simp [foldNT], by simp [foldNT]⟩
    | cons l' rest' =>
      have hrun : StateWf M (normalizeAtNl (lineRun M st l).2) :=
        normalizeAtNl_stwf (parseLoop_stwf M _ _ hst)
      obtain ⟨ih1, rawT, ih2, ih3⟩ :=
        ih (normalizeAtNl (lineRun M st l).2) (by simp) hrun
      rw [parse_cons M hM st hst l l' rest']
      have hne : (foldNT M (normalizeAtNl (lineRun M st l).2) (l' :: rest')).2.1 ≠ [] := by
        have := (foldNT_length M (l' :: rest') (normalizeAtNl (lineRun M st l).2)).2
        intro hnil
        rw [hnil] at this
        simp at this
      refine ⟨by simp [foldNT, ih1], rawT, ?_, ih3⟩
      show normalizeAtNl (lineRun M st l).2 :: (parse M (l' :: rest') _).2 = _
      rw [ih2]
      show _ = (normalizeAtNl (lineRun M st l).2 ::
        (foldNT M (normalizeAtNl (lineRun M st l).2) (l' :: rest')).2.1).dropLast ++ [rawT]
      rw [List.dropLast_cons_of_ne_nil hne]
      rfl

/-- Every State stored by a parse is reachable. -/
theorem parse_states_wf (M : MatcherDef) (hM : MWf M) :
    ∀ (L : List String) (st : State), StateWf M st →
      ∀ s ∈ (parse M L st).2, StateWf M s := by
  intro L
  induction L with
  | nil =>
    intro st hst s hs
    rw [parse_nil] at hs
    simp at hs
    exact hs ▸ hst
  | cons l rest ih =>
    intro st hst s hs
    cases rest with
    | nil =>
      rw [parse_single M hM l st] at hs
      simp at hs
      exact hs ▸ parseLoop_stwf M _ _ hst
    | cons l' rest' =>
      rw [parse_cons M hM st hst l l' rest'] at hs
      have hrun : StateWf M (normalizeAtNl (lineRun M st l).2) :=
        normalizeAtNl_stwf (parseLoop_stwf M _ _ hst)
      rcases List.mem_cons.1 hs with rfl | hs'
      · exact hrun
      · exact ih (normalizeAtNl (lineRun M st l).2) hrun s hs'

/-- A nonempty parse stores one Match list and one State per line. -/
theorem parse_length (M : MatcherDef) (hM : MWf M) (L : List String)
    (st : State) (hL : L ≠ []) (hst : StateWf M st) :
    (parse M L st).1.length = L.length ∧ (parse M L st).2.length = L.length := by
  obtain ⟨h1, rawT, h2, _⟩ := parse_vs_foldNT M hM L st hL hst
  obtain ⟨g1, g2⟩ := foldNT_length M L st
  constructor
  · rw [h1, g1]
  · rw [h2]
    rw [List.length_append, List.length_dropLast, g2]
    simp only [List.length_cons, List.length_nil]
    have : L.length ≠ 0 := fun h => hL (List.length_eq_zero.1 h)
    omega

/-! ### Resolution reads only kinds and tokens (infrastructure for C3) -/

/-- A map update keeps assigned entries assigned. -/
theorem mupd_isSome_mono {marks : Nat → Option (Option Nat)} {k : Nat}
    {v : Option Nat} {j : Nat} (h : (marks j).isSome) :
    ((mupd marks k v) j).isSome = true := by
  unfold mupd
  by_cases hj : j = k
  · rw [if_pos hj]; rfl
  · rw [if_neg hj]; exact h

/-- The unmatched-marking fold keeps assigned entries assigned. -/
theorem foldl_mupd_isSome_mono (l : List (Nat × Match)) :
    ∀ (marks : Nat → Option (Option Nat)) (j : Nat), (marks j).isSome →
      ((l.foldl (fun mk e => mupd mk e.1 none) marks) j).isSome = true := by
  induction l with
  | nil => intro marks j h; exact h
  | cons e rest ih =>
    intro marks j h
    exact ih _ j (mupd_isSome_mono h)

/-- The unmatched-marking fold assigns every folded key. -/
theorem foldl_mupd_mem_isSome (l : List (Nat × Match)) :
    ∀ (marks : Nat → Option (Option Nat)) (j : Nat), (∃ e ∈ l, e.1 = j) →
      ((l.foldl (fun mk e => mupd mk e.1 none) marks) j).isSome = true := by
  induction l with
  | nil => intro marks j h; simp at h
  | cons e rest ih =>
    intro marks j h
    rcases h with ⟨e', he', hj⟩
    rcases List.mem_cons.1 he' with rfl | hmem
    · exact foldl_mupd_isSome_mono rest _ j (by simp [mupd, hj])
    · exact ih _ j ⟨e', hmem, hj⟩

/-- The resolution loop keeps assigned entries assigned. -/
theorem resolveGo_isSome_mono (stream : List (Nat × Match)) :
    ∀ (stack : List (Nat × Match)) (marks : Nat → Option (Option Nat)) (j : Nat),
      (marks j).isSome → ((resolveGo stack stream marks) j).isSome = true := by
  induction stream with
  | nil => intro stack marks j h; exact foldl_mupd_isSome_mono stack marks j h
  | cons p rest ih =>
    intro stack marks j h
    obtain ⟨i, m⟩ := p
    simp only [resolveGo]
    by_cases hop : m.kind = Kind.opening
    · rw [if_pos hop]; exact ih _ marks j h
    · rw [if_neg hop]
      cases hfc : findCompat stack m.token with
      | none => exact ih _ _ j (mupd_isSome_mono h)
      | some r =>
        obtain ⟨pre, hit, post⟩ := r
        exact ih _ _ j
          (mupd_isSome_mono (mupd_isSome_mono (foldl_mupd_isSome_mono pre marks j h)))

/-- The resolution loop assigns every stack entry and every stream
position. -/
theorem resolveGo_covers (S : List Match) :
    ∀ (k : Nat) (stack : List (Nat × Match)) (marks : Nat → Option (Option Nat))
      (j : Nat), ((∃ e ∈ stack, e.1 = j) ∨ (k ≤ j ∧ j < k + S.length)) →
      ((resolveGo stack (List.enumFrom k S) marks) j).isSome = true := by
  induction S with
  | nil =>
    intro k stack marks j h
    rcases h with h | h
    · exact foldl_mupd_mem_isSome stack marks j h
    · simp at h; omega
  | cons m rest ih =>
    intro k stack marks j h
    rw [List.enumFrom_cons]
    simp only [resolveGo]
    by_cases hop : m.kind = Kind.opening
    · rw [if_pos hop]
      refine ih (k + 1) _ marks j ?_
      rcases h with ⟨e, he, hj⟩ | ⟨h1, h2⟩
      · exact Or.inl ⟨e, by simp [he], hj⟩
      · by_cases hjk : j = k
        · exact Or.inl ⟨(k, m), by simp, hjk.symm⟩
        · right
          simp only [List.length_cons] at h2
          omega
    · rw [if_neg hop]
      cases hfc : findCompat stack m.token with
      | none =>
        by_cases hjk : j = k
        · exact resolveGo_isSome_mono _ _ _ j (by simp [mupd, hjk])
        · refine ih (k + 1) stack _ j ?_
          rcases h with h | ⟨h1, h2⟩
          · exact Or.inl h
          · right
            simp only [List.length_cons] at h2
            omega
      | some r =>
        obtain ⟨pre, hit, post⟩ := r
        have hdec := findCompat_eq_decomp hfc
        by_cases hjk : j = k
        · exact resolveGo_isSome_mono _ _ _ j (by simp [mupd, hjk])
        · by_cases hhit : hit.1 = j
          · exact resolveGo_isSome_mono _ _ _ j
              (mupd_isSome_mono (by simp [mupd, hhit]))
          · by_cases hpre : ∃ e ∈ pre, e.1 = j
            · exact resolveGo_isSome_mono _ _ _ j
                (mupd_isSome_mono (mupd_isSome_mono
                  (foldl_mupd_mem_isSome pre marks j hpre)))
            · refine ih (k + 1) post _ j ?_
              rcases h with ⟨e, he, hj⟩ | ⟨h1, h2⟩
              · rw [hdec] at he
                rcases List.mem_append.1 he with he | he
                · exact absurd ⟨e, he, hj⟩ hpre
                · rcases List.mem_cons.1 he with rfl | he
                  · exact absurd hj hhit
                  · exact Or.inl ⟨e, he, hj⟩
              · right
                simp only [List.length_cons] at h2
                omega

/-- `findCompat` commutes with `stack_height` erasure of the stack. -/
theorem findCompat_erase (stack : List (Nat × Match)) (t : Token) :
    findCompat (stack.map fun e => (e.1, eraseH e.2)) t =
      (findCompat stack t).map fun r =>
        (r.1.map fun e => (e.1, eraseH e.2), (r.2.1.1, eraseH r.2.1.2),
          r.2.2.map fun e => (e.1, eraseH e.2)) := by
  induction stack with
  | nil => rfl
  | cons e rest ih =>
    simp only [List.map_cons, findCompat]
    have htok : (eraseH e.2).token = e.2.token := rfl
    rw [htok]
    by_cases h : e.2.token = t
    · rw [if_pos h, if_pos h]
      rfl
    · rw [if_neg h, if_neg h, ih]
      cases hfc : findCompat rest t with
      | none => rfl
      | some r =>
        obtain ⟨pre, hit, post⟩ := r
        rfl

/-- The resolution loop computes the same assignment on a stream with
erased stack heights (it reads only kinds and tokens). -/
theorem resolveGo_erase (stream : List (Nat × Match)) :
    ∀ (stack : List (Nat × Match)) (marks : Nat → Option (Option Nat)),
      resolveGo (stack.map fun e => (e.1, eraseH e.2))
        (stream.map fun e => (e.1, eraseH e.2)) marks =
      resolveGo stack stream marks := by
  induction stream with
  | nil =>
    intro stack marks
    simp only [List.map_nil, resolveGo, List.foldl_map]
  | cons p rest ih =>
    intro stack marks
    obtain ⟨i, m⟩ := p
    simp only [List.map_cons, resolveGo]
    have hkind : (eraseH m).kind = m.kind := rfl
    have htok : (eraseH m).token = m.token := rfl
    rw [hkind, htok]
    by_cases hop : m.kind = Kind.opening
    · rw [if_pos hop, if_pos hop]
      exact ih ((i, m) :: stack) marks
    · rw [if_neg hop, if_neg hop, findCompat_erase]
      cases hfc : findCompat stack m.token with
      | none =>
        simp only [Option.map_none']
        exact ih stack _
      | some r =>
        obtain ⟨pre, hit, post⟩ := r
        simp only [Option.map_some']
        have := ih post (mupd (mupd (pre.foldl (fun mk e => mupd mk e.1 none) marks)
          hit.1 (some post.length)) i (some post.length))
        simpa [List.foldl_map, List.length_map] using this

/-- `assignHeights` ignores preexisting heights wherever the assignment
map is defined. -/
theorem assignHeights_congr_erase (A : List (List Match)) :
    ∀ (off : Nat) (marks : Nat → Option (Option Nat)),
      (∀ i, off ≤ i → i < off + A.flatten.length → (marks i).isSome = true) →
      assignHeights off (A.map (List.map eraseH)) marks = assignHeights off A marks := by
  induction A with
  | nil => intro off marks _; rfl
  | cons line rest ih =>
    intro off marks hcov
    simp only [List.map_cons, assignHeights, List.length_map]
    refine congrArg₂ List.cons ?_ ?_
    · rw [List.enum_map, List.map_map]
      refine List.map_congr_left fun p hp => ?_
      obtain ⟨k, m⟩ := p
      obtain ⟨hk, -⟩ := List.mem_enum hp
      have hcv := hcov (off + k) (by omega) (by
        simp only [List.flatten_cons, List.length_append]
        omega)
      rcases hsome : marks (off + k) with _ | v
      · rw [hsome] at hcv; simp at hcv
      · show ({ (eraseH m) with
            stack_height := (marks (off + k)).getD (eraseH m).stack_height } : Match) = _
        rw [hsome]
        rfl
    · exact ih (off + line.length) marks fun i h1 h2 => hcov i (by omega) (by
        simp only [List.flatten_cons, List.length_append] at h2 ⊢
        omega)

/-- Witness for C10: on the one-line sql buffer, `new_end_line = 0` with
`start_line = 1` underflows, and `new_end_line = 5` with `start_line = 0`
overruns the single parsed line; both calls fail. -/
theorem claim_C10_witness :
    reparse_range c5Buffer "sql" ["x"] (some 1) none (some 0) = none ∧
    reparse_range c5Buffer "sql" ["x"] (some 0) none (some 5) = none :=
  ⟨(claim_C10 c5Buffer "sql" ["x"] (some 1) none 0 [[]] [State.normal]
      (by decide)).1 (by decide),
    (claim_C10 c5Buffer "sql" ["x"] (some 0) none 5 [[]] [State.normal]
      (by decide)).2.1 (by decide) (by decide)⟩

/-! ### Assembly lemmas for the incrementality claim (C3) -/

/-- `assignHeights` keeps the number of lines. -/
theorem assignHeights_length (A : List (List Match)) :
    ∀ (off : Nat) (marks : Nat → Option (Option Nat)),
      (assignHeights off A marks).length = A.length := by
  induction A with
  | nil => intro off marks; rfl
  | cons line rest ih =>
    intro off marks
    simp only [assignHeights, List.length_cons, ih]

/-- Erasing stack heights after `assignHeights` recovers the erased input. -/
theorem assignHeights_map_erase (A : List (List Match)) :
    ∀ (off : Nat) (marks : Nat → Option (Option Nat)),
      (assignHeights off A marks).map (List.map eraseH) =
        A.map (List.map eraseH) := by
  induction A with
  | nil => intro off marks; rfl
  | cons line rest ih =>
    intro off marks
    simp only [assignHeights, List.map_cons, ih]
    refine congrArg₂ List.cons ?_ rfl
    rw [List.map_map]
    conv_rhs => rw [← List.enum_map_snd line, List.map_map]
    refine List.map_congr_left fun p _ => ?_
    obtain ⟨k, m⟩ := p
    rfl

/-- Resolution depends only on the erased Matches: two buffers whose
Match streams agree up to stack heights resolve to the same Match lists. -/
theorem recalc_matches_congr (A B : List (List Match)) (sA sB : List State)
    (h : A.map (List.map eraseH) = B.map (List.map eraseH)) :
    (recalculate_stack_heights ⟨A, sA⟩).matches_by_line =
      (recalculate_stack_heights ⟨B, sB⟩).matches_by_line := by
  have hflat : A.flatten.map eraseH = B.flatten.map eraseH := by
    rw [List.map_flatten, List.map_flatten, h]
  have hfun : ∀ (l : List (Nat × Match)),
      l.map (Prod.map id eraseH) = l.map fun e => (e.1, eraseH e.2) :=
    fun l => List.map_congr_left fun p _ => rfl
  have hstream : A.flatten.enum.map (fun e => (e.1, eraseH e.2)) =
      B.flatten.enum.map (fun e => (e.1, eraseH e.2)) := by
    rw [← hfun, ← hfun, ← List.enum_map, ← List.enum_map, hflat]
  have hmk : resolveGo [] A.flatten.enum (fun _ => none) =
      resolveGo [] B.flatten.enum (fun _ => none) := by
    have h1 := resolveGo_erase A.flatten.enum [] (fun _ => none)
    have h2 := resolveGo_erase B.flatten.enum [] (fun _ => none)
    simp only [List.map_nil] at h1 h2
    rw [← h1, ← h2, hstream]
  have hcovA : ∀ i, 0 ≤ i → i < 0 + A.flatten.length →
      ((resolveGo [] A.flatten.enum fun _ => none) i).isSome = true := by
    intro i _ hi
    exact resolveGo_covers A.flatten 0 [] (fun _ => none) i (Or.inr ⟨Nat.zero_le _, hi⟩)
  have hcovB : ∀ i, 0 ≤ i → i < 0 + B.flatten.length →
      ((resolveGo [] B.flatten.enum fun _ => none) i).isSome = true := by
    intro i _ hi
    exact resolveGo_covers B.flatten 0 [] (fun _ => none) i (Or.inr ⟨Nat.zero_le _, hi⟩)
  show assignHeights 0 A (resolveGo [] A.flatten.enum fun _ => none) =
    assignHeights 0 B (resolveGo [] B.flatten.enum fun _ => none)
  calc assignHeights 0 A (resolveGo [] A.flatten.enum fun _ => none)
      = assignHeights 0 (A.map (List.map eraseH))
          (resolveGo [] A.flatten.enum fun _ => none) :=
        (assignHeights_congr_erase A 0 _ hcovA).symm
    _ = assignHeights 0 (B.map (List.map eraseH))
          (resolveGo [] B.flatten.enum fun _ => none) := by rw [h, hmk]
    _ = assignHeights 0 B (resolveGo [] B.flatten.enum fun _ => none) :=
        assignHeights_congr_erase B 0 _ hcovB

/-- `splice` commutes with `map`. -/
theorem splice_map (f : α → β) (l : List α) (s e : Nat) (repl : List α) :
    (splice l s e repl).map f = splice (l.map f) s e (repl.map f) := by
  simp [splice, List.map_take, List.map_drop]

/-- Newline normalization is idempotent. -/
theorem normalizeAtNl_idem (s : State) :
    normalizeAtNl (normalizeAtNl s) = normalizeAtNl s := by
  cases s <;> rfl

/-- The State a nonempty `foldNT` hands on is normalization-stable. -/
theorem foldNT_fix (M : MatcherDef) :
    ∀ (L : List String) (st : State), L ≠ [] →
      normalizeAtNl (foldNT M st L).2.2 = (foldNT M st L).2.2 := by
  intro L
  induction L with
  | nil => intro st h; exact absurd rfl h
  | cons l rest ih =>
    intro st _
    cases rest with
    | nil =>
      show normalizeAtNl (normalizeAtNl (lineRun M st l).2) = _
      exact normalizeAtNl_idem _
    | cons l' rest' =>
      exact ih (normalizeAtNl (lineRun M st l).2) (by simp)

/-- `foldNT` over an appended line list composes. -/
theorem foldNT_append (M : MatcherDef) :
    ∀ (L1 L2 : List String) (st : State),
      foldNT M st (L1 ++ L2) =
        ((foldNT M st L1).1 ++ (foldNT M (foldNT M st L1).2.2 L2).1,
          (foldNT M st L1).2.1 ++ (foldNT M (foldNT M st L1).2.2 L2).2.1,
          (foldNT M (foldNT M st L1).2.2 L2).2.2) := by
  intro L1
  induction L1 with
  | nil => intro L2 st; simp [foldNT]
  | cons l rest ih =>
    intro L2 st
    simp only [List.cons_append, foldNT, List.append_eq, ih]

/-- `get?` at the last index is `getLast?`. -/
theorem get?_length_sub_one :
    ∀ (l : List α), l ≠ [] → l.get? (l.length - 1) = l.getLast? := by
  intro l
  induction l with
  | nil => intro h; exact absurd rfl h
  | cons a t ih =>
    intro _
    cases t with
    | nil => rfl
    | cons b t' =>
      rw [getLast?_cons_ne_nil (show b :: t' ≠ [] from by simp)]
      rw [← ih (by simp)]
      rfl

/-- The stored State at index `e - 1` of a parse from `Normal` is the
State `foldNT` hands on after the first `e` lines, for `e` strictly
inside the line list. -/
theorem parse_state_at (M : MatcherDef) (hM : MWf M) (L : List String) (e : Nat)
    (he1 : 1 ≤ e) (he2 : e < L.length) :
    (parse M L .normal).2.get? (e - 1) =
      some (foldNT M .normal (L.take e)).2.2 := by
  have htail : L.drop e ≠ [] := by
    intro hnil
    have := congrArg List.length hnil
    simp only [List.length_drop, List.length_nil] at this
    omega
  have hsp := parse_split_lines M hM (L.take e) (L.drop e) .normal htail trivial
  rw [List.take_append_drop] at hsp
  rw [hsp]
  have hlen : (foldNT M .normal (L.take e)).2.1.length = e := by
    rw [(foldNT_length M (L.take e) .normal).2, List.length_take]
    omega
  show ((foldNT M .normal (L.take e)).2.1 ++ _).get? (e - 1) = _
  rw [List.get?_append (by omega)]
  have hne : (foldNT M .normal (L.take e)).2.1 ≠ [] := by
    intro hnil; rw [hnil] at hlen; simp at hlen; omega
  have hidx : e - 1 = (foldNT M .normal (L.take e)).2.1.length - 1 := by omega
  rw [hidx, get?_length_sub_one _ hne,
    foldNT_last M (L.take e) .normal (by
      intro hnil
      have := congrArg List.length hnil
      simp only [List.length_take, List.length_nil] at this
      omega)]

/-- The stored-State list of a nonempty `foldNT` is its `dropLast`
followed by the handed-on State. -/
theorem foldNT_states_eq (M : MatcherDef) (L : List String) (st : State)
    (hL : L ≠ []) :
    (foldNT M st L).2.1 =
      (foldNT M st L).2.1.dropLast ++ [(foldNT M st L).2.2] := by
  have hne : (foldNT M st L).2.1 ≠ [] := by
    intro hnil
    have := (foldNT_length M L st).2
    rw [hnil] at this
    simp only [List.length_nil] at this
    exact hL (List.length_eq_zero.1 this.symm)
  have h2 := List.getLast?_eq_getLast _ hne
  rw [foldNT_last M L st hL] at h2
  conv_lhs => rw [← List.dropLast_append_getLast hne]
  rw [← Option.some.inj h2]

/-- Resolution after splicing: two buffers whose Match lists agree up to
stack heights and whose State lists agree produce the same recalculated
buffer. -/
theorem recalc_congr (A B : List (List Match)) (sA sB : List State)
    (h : A.map (List.map eraseH) = B.map (List.map eraseH)) (hs : sA = sB) :
    recalculate_stack_heights ⟨A, sA⟩ = recalculate_stack_heights ⟨B, sB⟩ := by
  have hm := recalc_matches_congr A B sA sB h
  unfold recalculate_stack_heights at hm ⊢
  dsimp only at hm ⊢
  rw [hm, hs]

/-- Claim C3 (amended): for a recognized language, reparsing the line
range `[start, old_end)` of a parsed buffer with replacement lines `mid`
(and an implicit new end) yields exactly the buffer of a full parse of
the new content, provided the declared range is within the buffer, the
stored seed State of the range is normalization-stable, and the parse of
the replacement lines hands the stored entry State of `old_end` on. -/
theorem claim_C3 (ft : String) (M : MatcherDef) (oldLines mid : List String)
    (start old_end : Nat) (b : ParsedBuffer)
    (hft : matcherOf ft = some M) (hM : MWf M)
    (hb : ParsedBuffer.parse ft oldLines = some b)
    (hold : oldLines ≠ []) (hmid : mid ≠ [])
    (hse : start ≤ old_end) (heo : old_end ≤ oldLines.length)
    (hseed : normalizeAtNl (reparseInit b (some start)) =
      reparseInit b (some start))
    (hconv : (parse M mid (reparseInit b (some start))).2.getLast? =
      some (oldEntryState b old_end)) :
    ∃ bfull, ParsedBuffer.parse ft
        (oldLines.take start ++ mid ++ oldLines.drop old_end) = some bfull ∧
      reparse_range b ft mid (some start) (some old_end) none =
        some (true, bfull) := by
  -- the old buffer is the resolved full parse of the old lines
  have hbeq : b = recalculate_stack_heights
      ⟨(parse M oldLines .normal).1, (parse M oldLines .normal).2⟩ := by
    simp only [ParsedBuffer.parse, parse_filetype, hft, Option.map_some',
      Option.some.injEq] at hb
    exact hb.symm
  have hstates : b.state_by_line = (parse M oldLines .normal).2 := by
    rw [hbeq]
    rfl
  have hmatches : b.matches_by_line =
      assignHeights 0 (parse M oldLines .normal).1
        (resolveGo [] (parse M oldLines .normal).1.flatten.enum fun _ => none) := by
    rw [hbeq]
    rfl
  have hPlen := parse_length M hM oldLines .normal hold trivial
  have hn0 : oldLines.length ≠ 0 := fun h => hold (List.length_eq_zero.1 h)
  have hblen : b.matches_by_line.length = oldLines.length := by
    rw [hmatches, assignHeights_length, hPlen.1]
  have hstart_eq : reparseStart b (some start) = start := by
    simp only [reparseStart, Option.getD_some]
    omega
  have hoe_eq : reparseOldEnd b (some old_end) = old_end := by
    simp only [reparseOldEnd, Option.getD_some]
    omega
  have hP1 : (parse M oldLines .normal).1 = (foldNT M .normal oldLines).1 :=
    (parse_vs_foldNT M hM oldLines .normal hold trivial).1
  obtain ⟨rawT, hP2, hPnorm⟩ :=
    (parse_vs_foldNT M hM oldLines .normal hold trivial).2
  have hinit_entry : reparseInit b (some start) = oldEntryState b start := by
    unfold reparseInit oldEntryState
    rw [hstart_eq]
    by_cases h0 : start = 0
    · rw [if_neg (by omega), if_pos h0]
    · rw [if_pos (by omega), if_neg h0]
  have hE : ∀ e, 1 ≤ e → e < oldLines.length →
      oldEntryState b e = (foldNT M .normal (oldLines.take e)).2.2 := by
    intro e he1 he2
    unfold oldEntryState
    rw [if_neg (by omega), hstates, parse_state_at M hM oldLines e he1 he2]
    rfl
  have hOEn : oldEntryState b oldLines.length = rawT := by
    have hne : (parse M oldLines .normal).2 ≠ [] := by rw [hP2]; simp
    have hget : (parse M oldLines .normal).2.get? (oldLines.length - 1) =
        some rawT := by
      rw [← hPlen.2, get?_length_sub_one _ hne, hP2]
      exact List.getLast?_concat _
    unfold oldEntryState
    rw [if_neg hn0, hstates, hget]
    rfl
  -- the reparse seed State is the foldNT handoff of the kept prefix
  have hA : reparseInit b (some start) =
      (foldNT M .normal (oldLines.take start)).2.2 := by
    rcases Nat.lt_or_ge start 1 with h1 | h1
    · have h0 : start = 0 := by omega
      subst h0
      have hz : reparseStart b (some 0) = 0 := by
        simp [reparseStart]
      unfold reparseInit
      rw [hz]
      rfl
    · rcases Nat.lt_or_ge start oldLines.length with h2 | h2
      · rw [hinit_entry]
        exact hE start h1 h2
      · have hsn : start = oldLines.length := by omega
        have h3 : reparseInit b (some start) = rawT := by
          rw [hinit_entry, hsn]
          exact hOEn
        rw [h3, hsn, List.take_length, ← hPnorm, ← h3]
        exact hseed.symm
  have hswf : StateWf M (reparseInit b (some start)) := by
    rw [hA]
    exact (foldNT_stwf M (oldLines.take start) .normal trivial).1
  -- the replacement parse
  have hGm1 : (parse M mid (reparseInit b (some start))).1 =
      (foldNT M (reparseInit b (some start)) mid).1 :=
    (parse_vs_foldNT M hM mid (reparseInit b (some start)) hmid hswf).1
  obtain ⟨rawM, hGm2, hGmnorm⟩ :=
    (parse_vs_foldNT M hM mid (reparseInit b (some start)) hmid hswf).2
  have hGmlen := parse_length M hM mid (reparseInit b (some start)) hmid hswf
  have hrawM : rawM = oldEntryState b old_end := by
    have h := hconv
    rw [hGm2, List.getLast?_concat] at h
    exact Option.some.inj h
  -- the stored prefixes of the old parse agree with foldNT over the prefix
  have hP2take : (parse M oldLines .normal).2.take start =
      (foldNT M .normal (oldLines.take start)).2.1 := by
    rcases Nat.lt_or_ge start oldLines.length with hlt | hge2
    · have htail_ne : oldLines.drop start ≠ [] := by
        intro hnil
        have := congrArg List.length hnil
        simp only [List.length_drop, List.length_nil] at this
        omega
      have hsp := parse_split_lines M hM (oldLines.take start)
        (oldLines.drop start) .normal htail_ne trivial
      rw [List.take_append_drop] at hsp
      rw [hsp]
      exact List.take_left' (by
        rw [(foldNT_length M (oldLines.take start) .normal).2, List.length_take]
        omega)
    · have hsn : start = oldLines.length := by omega
      have hrawT : rawT = (foldNT M .normal oldLines).2.2 := by
        have h3 : reparseInit b (some start) = rawT := by
          rw [hinit_entry, hsn]
          exact hOEn
        rw [← h3, hA, hsn, List.take_length]
      rw [hsn, List.take_length, ← hPlen.2, List.take_length, hP2, hrawT]
      exact (foldNT_states_eq M oldLines .normal hold).symm
  have hP1take : (parse M oldLines .normal).1.take start =
      (foldNT M .normal (oldLines.take start)).1 := by
    rcases Nat.lt_or_ge start oldLines.length with hlt | hge2
    · have htail_ne : oldLines.drop start ≠ [] := by
        intro hnil
        have := congrArg List.length hnil
        simp only [List.length_drop, List.length_nil] at this
        omega
      have hsp := parse_split_lines M hM (oldLines.take start)
        (oldLines.drop start) .normal htail_ne trivial
      rw [List.take_append_drop] at hsp
      rw [hsp]
      exact List.take_left' (by
        rw [(foldNT_length M (oldLines.take start) .normal).1, List.length_take]
        omega)
    · have hsn : start = oldLines.length := by omega
      rw [hsn, List.take_length, ← hPlen.1, List.take_length, hP1]
  -- the erased old Match lists are the erased raw parse
  have hbe : b.matches_by_line.map (List.map eraseH) =
      (parse M oldLines .normal).1.map (List.map eraseH) := by
    rw [hmatches]
    exact assignHeights_map_erase _ 0 _
  -- the reparse call reduces to a splice of the replacement parse
  have hpf : parse_filetype ft mid (reparseInit b (some start)) =
      some ((parse M mid (reparseInit b (some start))).1,
        (parse M mid (reparseInit b (some start))).2) := by
    simp only [parse_filetype, hft, Option.map_some']
  have htake1 : (parse M mid (reparseInit b (some start))).1.take
      (start + (parse M mid (reparseInit b (some start))).1.length - start) =
      (parse M mid (reparseInit b (some start))).1 := by
    rw [Nat.add_sub_cancel_left]
    exact List.take_length _
  have htake2 : (parse M mid (reparseInit b (some start))).2.take
      (start + (parse M mid (reparseInit b (some start))).1.length - start) =
      (parse M mid (reparseInit b (some start))).2 := by
    rw [Nat.add_sub_cancel_left, hGmlen.1, ← hGmlen.2]
    exact List.take_length _
  have hrr : reparse_range b ft mid (some start) (some old_end) none =
      some (true, recalculate_stack_heights
        ⟨splice b.matches_by_line start old_end
            (parse M mid (reparseInit b (some start))).1,
          splice b.state_by_line start old_end
            (parse M mid (reparseInit b (some start))).2⟩) := by
    have hg1 := hGmlen.1
    have hg2 := hGmlen.2
    simp only [reparse_range, hpf, hstart_eq, hoe_eq, Option.getD_none]
    rw [if_neg (by omega), if_neg (by omega), if_neg (by omega),
      if_neg (by omega), htake1, htake2]
  rcases Nat.lt_or_ge old_end oldLines.length with hlt | hge
  · -- the suffix survives: decompose both parses at start and old_end
    have hstartlt : start < oldLines.length := by omega
    have htail_ne : oldLines.drop start ≠ [] := by
      intro hnil
      have := congrArg List.length hnil
      simp only [List.length_drop, List.length_nil] at this
      omega
    have hsuf_ne : oldLines.drop old_end ≠ [] := by
      intro hnil
      have := congrArg List.length hnil
      simp only [List.length_drop, List.length_nil] at this
      omega
    have hsplitOld := parse_split_lines M hM (oldLines.take start)
      (oldLines.drop start) .normal htail_ne trivial
    rw [List.take_append_drop, ← hA] at hsplitOld
    have hdd : (oldLines.drop start).drop (old_end - start) =
        oldLines.drop old_end := by
      rw [List.drop_drop]
      congr 1
      omega
    have htail_eq : (oldLines.drop start).take (old_end - start) ++
        oldLines.drop old_end = oldLines.drop start := by
      rw [← hdd, List.take_append_drop]
    have hsplitTail := parse_split_lines M hM
      ((oldLines.drop start).take (old_end - start)) (oldLines.drop old_end)
      (reparseInit b (some start)) hsuf_ne hswf
    rw [htail_eq] at hsplitTail
    have hOMentry : oldEntryState b old_end =
        (foldNT M (reparseInit b (some start))
          ((oldLines.drop start).take (old_end - start))).2.2 := by
      rcases Nat.eq_or_lt_of_le hse with heq | hgt
      · rw [← heq, Nat.sub_self, List.take_zero, ← hinit_entry]
        rfl
      · have h1 : 1 ≤ old_end := by omega
        have htk : oldLines.take old_end = oldLines.take start ++
            (oldLines.drop start).take (old_end - start) := by
          have h5 : old_end = start + (old_end - start) := by omega
          nth_rewrite 1 [h5]
          exact List.take_add oldLines start (old_end - start)
        rw [hE old_end h1 hlt, htk, foldNT_append, ← hA]
    have hSOM : (foldNT M (reparseInit b (some start)) mid).2.2 =
        (foldNT M (reparseInit b (some start))
          ((oldLines.drop start).take (old_end - start))).2.2 := by
      rw [← hGmnorm, hrawM, hOMentry]
      rcases Nat.eq_or_lt_of_le hse with heq | hgt
      · rw [← heq, Nat.sub_self, List.take_zero]
        exact hseed
      · exact foldNT_fix M _ _ (by
          intro hnil
          have := congrArg List.length hnil
          simp only [List.length_take, List.length_drop, List.length_nil] at this
          omega)
    have hGm2' : (parse M mid (reparseInit b (some start))).2 =
        (foldNT M (reparseInit b (some start)) mid).2.1 := by
      rw [hGm2, hrawM, hOMentry, ← hSOM]
      exact (foldNT_states_eq M mid _ hmid).symm
    have hF1s_len : (foldNT M .normal (oldLines.take start)).2.1.length = start := by
      rw [(foldNT_length M (oldLines.take start) .normal).2, List.length_take]
      omega
    have hF2s_len : (foldNT M (reparseInit b (some start))
        ((oldLines.drop start).take (old_end - start))).2.1.length =
        old_end - start := by
      rw [(foldNT_length M _ _).2, List.length_take, List.length_drop]
      omega
    have hF1m_len : (foldNT M .normal (oldLines.take start)).1.length = start := by
      rw [(foldNT_length M (oldLines.take start) .normal).1, List.length_take]
      omega
    have hF2mo_len : (foldNT M (reparseInit b (some start))
        ((oldLines.drop start).take (old_end - start))).1.length =
        old_end - start := by
      rw [(foldNT_length M _ _).1, List.length_take, List.length_drop]
      omega
    have hdropS : (parse M oldLines .normal).2.drop old_end =
        (parse M (oldLines.drop old_end)
          (foldNT M (reparseInit b (some start))
            ((oldLines.drop start).take (old_end - start))).2.2).2 := by
      rw [hsplitOld, hsplitTail]
      dsimp only
      rw [← List.append_assoc]
      exact List.drop_left' (by rw [List.length_append, hF1s_len, hF2s_len]; omega)
    have hdropM : (parse M oldLines .normal).1.drop old_end =
        (parse M (oldLines.drop old_end)
          (foldNT M (reparseInit b (some start))
            ((oldLines.drop start).take (old_end - start))).2.2).1 := by
      rw [hsplitOld, hsplitTail]
      dsimp only
      rw [← List.append_assoc]
      exact List.drop_left' (by rw [List.length_append, hF1m_len, hF2mo_len]; omega)
    have hmidsuf_ne : mid ++ oldLines.drop old_end ≠ [] := by
      intro hnil
      exact hmid (List.append_eq_nil.1 hnil).1
    have hsplitNew := parse_split_lines M hM (oldLines.take start)
      (mid ++ oldLines.drop old_end) .normal hmidsuf_ne trivial
    rw [← hA] at hsplitNew
    have hsplitNew2 := parse_split_lines M hM mid (oldLines.drop old_end)
      (reparseInit b (some start)) hsuf_ne hswf
    refine ⟨recalculate_stack_heights
      ⟨(parse M (oldLines.take start ++ (mid ++ oldLines.drop old_end))
          .normal).1,
        (parse M (oldLines.take start ++ (mid ++ oldLines.drop old_end))
          .normal).2⟩, ?_, ?_⟩
    · simp only [ParsedBuffer.parse, parse_filetype, hft, Option.map_some',
        List.append_assoc]
    · have hStEq : splice b.state_by_line start old_end
          (parse M mid (reparseInit b (some start))).2 =
          (parse M (oldLines.take start ++ (mid ++ oldLines.drop old_end))
            .normal).2 := by
        unfold splice
        rw [hstates, hP2take, hdropS, hGm2', hsplitNew, hsplitNew2, hSOM]
        dsimp only
        rw [List.append_assoc]
      have hspliceP : splice (parse M oldLines .normal).1 start old_end
          (parse M mid (reparseInit b (some start))).1 =
          (parse M (oldLines.take start ++ (mid ++ oldLines.drop old_end))
            .normal).1 := by
        unfold splice
        rw [hP1take, hdropM, hGm1, hsplitNew, hsplitNew2, hSOM]
        dsimp only
        rw [List.append_assoc]
      have hErEq : (splice b.matches_by_line start old_end
          (parse M mid (reparseInit b (some start))).1).map (List.map eraseH) =
          (parse M (oldLines.take start ++ (mid ++ oldLines.drop old_end))
            .normal).1.map (List.map eraseH) := by
        rw [splice_map, hbe, ← splice_map, hspliceP]
      rw [hrr]
      exact congrArg (fun x => some (true, x)) (recalc_congr _ _ _ _ hErEq hStEq)
  · -- the whole tail is replaced: the suffix of the new content is empty
    have hoe_n : old_end = oldLines.length := by omega
    have hsuf_nil : oldLines.drop old_end = [] := by
      rw [hoe_n, List.drop_length]
    have hsplitNew := parse_split_lines M hM (oldLines.take start) mid .normal
      hmid trivial
    rw [← hA] at hsplitNew
    refine ⟨recalculate_stack_heights
      ⟨(parse M (oldLines.take start ++ mid) .normal).1,
        (parse M (oldLines.take start ++ mid) .normal).2⟩, ?_, ?_⟩
    · simp only [ParsedBuffer.parse, parse_filetype, hft, Option.map_some',
        hsuf_nil, List.append_nil]
    · have hStEq : splice b.state_by_line start old_end
          (parse M mid (reparseInit b (some start))).2 =
          (parse M (oldLines.take start ++ mid) .normal).2 := by
        unfold splice
        rw [hstates, hP2take, hoe_n, ← hPlen.2, List.drop_length,
          List.append_nil, hsplitNew]
      have hErEq : (splice b.matches_by_line start old_end
          (parse M mid (reparseInit b (some start))).1).map (List.map eraseH) =
          (parse M (oldLines.take start ++ mid) .normal).1.map
            (List.map eraseH) := by
        rw [splice_map, hbe, ← splice_map]
        congr 1
        unfold splice
        rw [hP1take, hoe_n, ← hPlen.1, List.drop_length, List.append_nil,
          hsplitNew]
      rw [hrr]
      exact congrArg (fun x => some (true, x)) (recalc_congr _ _ _ _ hErEq hStEq)

/-- Counterexample to claim C3 as stated (without the convergence
hypothesis): on the sql buffer for the lines `(` and `)`, replacing line
0 by `/*` with declared range `[0, 1)` and new end 1 succeeds but leaves
stale results on the untouched suffix line: the incremental buffer keeps
line 1's `)` Match and its stored `Normal` State, while a full parse of
the new content sees line 1 inside the block comment (no Matches, State
`InBlockComment`). -/
theorem claim_C3_counterexample :
    (reparse_range c3Buffer "sql" ["/*"] (some 0) (some 1) (some 1)).map
        Prod.fst = some true ∧
    (reparse_range c3Buffer "sql" ["/*"] (some 0) (some 1) (some 1)).map
        Prod.snd ≠ ParsedBuffer.parse "sql" ["/*", ")"] :=
  ⟨by decide, by decide⟩

/-- Witness for the amended C3 theorem: inserting the line `()` between
`(` and `)` in the sql buffer reparses incrementally to the full parse
of `(`, `()`, `)`. -/
theorem claim_C3_witness :
    ∃ bfull, ParsedBuffer.parse "sql"
        ((["(", ")"].take 1) ++ ["()"] ++ (["(", ")"].drop 1)) = some bfull ∧
      reparse_range c3Buffer "sql" ["()"] (some 1) (some 1) none =
        some (true, bfull) :=
  claim_C3 "sql" sqlMatcher ["(", ")"] ["()"] 1 1 c3Buffer (by decide)
    (by unfold MWf; decide) (by decide) (by decide) (by decide) (by decide)
    (by decide) (by decide) (by decide)

/-! ### Indentation: the scalar scan computes per-line widths (C9) -/

/-- `splitLinesChar` always yields at least one line. -/
theorem splitLinesChar_ne_nil : ∀ (cs : List Char), splitLinesChar cs ≠ [] := by
  intro cs
  induction cs with
  | nil => exact (by simp [splitLinesChar])
  | cons c rest ih =>
    unfold splitLinesChar
    by_cases hc : c = '\n'
    · rw [if_pos hc]; simp
    · rw [if_neg hc]
      cases hsp : splitLinesChar rest with
      | nil => simp
      | cons h t => simp

/-- The scalar byte loop, started on any state, appends exactly the
per-line widths of the remaining bytes. -/
theorem scalar_fold (tab : Nat) (htab : 1 ≤ tab) :
    ∀ (cs : List Char) (ind : Bool) (cur : Nat) (acc : List Nat),
      (cs.foldl (byteStep tab) ⟨ind, cur, acc⟩).acc ++
        [(cs.foldl (byteStep tab) ⟨ind, cur, acc⟩).cur] =
      acc ++ contWidths tab ind cur (splitLinesChar cs) := by
  intro cs
  induction cs with
  | nil =>
    intro ind cur acc
    cases ind <;> rfl
  | cons c rest ih =>
    intro ind cur acc
    rw [List.foldl_cons]
    by_cases hc : c = '\n'
    · subst hc
      rw [show byteStep tab ⟨ind, cur, acc⟩ '\n' = ⟨true, 0, acc ++ [cur]⟩ from rfl,
        ih true 0 (acc ++ [cur]),
        show splitLinesChar ('\n' :: rest) = [] :: splitLinesChar rest from rfl]
      cases hsp : splitLinesChar rest with
      | nil => exact absurd hsp (splitLinesChar_ne_nil rest)
      | cons h t =>
        rw [show contWidths tab true 0 (h :: t) =
            lineWidthGo tab 0 h :: t.map (lineWidth tab) from rfl,
          show contWidths tab ind cur ([] :: h :: t) =
            cur :: (h :: t).map (lineWidth tab) from (by cases ind <;> rfl),
          List.append_assoc]
        rfl
    · cases hsp : splitLinesChar rest with
      | nil => exact absurd hsp (splitLinesChar_ne_nil rest)
      | cons h t =>
      have hsl : splitLinesChar (c :: rest) = (c :: h) :: t := by
        conv_lhs => rw [splitLinesChar]
        rw [if_neg hc, hsp]
      rw [hsl]
      cases ind with
      | false =>
        have hstep : byteStep tab ⟨false, cur, acc⟩ c = ⟨false, cur, acc⟩ := by
          unfold byteStep
          rw [if_neg hc]
          rfl
        rw [hstep, ih false cur acc, hsp]
        rfl
      | true =>
        by_cases hsc : c = ' '
        · subst hsc
          rw [show byteStep tab ⟨true, cur, acc⟩ ' ' =
              ⟨true, satAdd cur 1, acc⟩ from rfl,
            ih true (satAdd cur 1) acc, hsp]
          rfl
        · by_cases htc : c = '\t'
          · subst htc
            rw [show byteStep tab ⟨true, cur, acc⟩ '\t' =
                ⟨true, satAdd cur tab, acc⟩ from rfl,
              ih true (satAdd cur tab) acc, hsp]
            have hlw : lineWidthGo tab cur ('\t' :: h) =
                lineWidthGo tab (satAdd cur tab) h := by
              show (if wsVal tab '\t' > 0 then
                lineWidthGo tab (satAdd cur (wsVal tab '\t')) h else cur) = _
              rw [show wsVal tab '\t' = tab from rfl, if_pos (by omega)]
            rw [show contWidths tab true cur (('\t' :: h) :: t) =
                lineWidthGo tab cur ('\t' :: h) :: t.map (lineWidth tab) from rfl,
              hlw]
            rfl
          · have hstep : byteStep tab ⟨true, cur, acc⟩ c = ⟨false, cur, acc⟩ := by
              unfold byteStep
              rw [if_neg hc, if_neg hsc, if_neg htc]
              rfl
            rw [hstep, ih false cur acc, hsp]
            have hw : wsVal tab c = 0 := by
              unfold wsVal
              rw [if_neg hsc, if_neg htc]
            have hlw : lineWidthGo tab cur (c :: h) = cur := by
              show (if wsVal tab c > 0 then
                lineWidthGo tab (satAdd cur (wsVal tab c)) h else cur) = _
              rw [hw, if_neg (by omega)]
            rw [show contWidths tab true cur ((c :: h) :: t) =
                lineWidthGo tab cur (c :: h) :: t.map (lineWidth tab) from rfl, hlw]
            rfl

/-- The scalar scan computes exactly one width per newline-separated line,
each from its own leading whitespace run. -/
theorem scalarIndent_lines (tab : Nat) (htab : 1 ≤ tab) (src : String) :
    scalarIndent tab src = (splitLinesChar src.toList).map (lineWidth tab) := by
  unfold scalarIndent
  rw [scalar_fold tab htab src.toList true 0 []]
  cases hsp : splitLinesChar src.toList with
  | nil => exact absurd hsp (splitLinesChar_ne_nil _)
  | cons h t =>
    rw [show contWidths tab true 0 (h :: t) =
      lineWidthGo tab 0 h :: t.map (lineWidth tab) from rfl]
    rfl

/-! ### Indentation: the chunked path equals the scalar scan (C9) -/

/-- Newline indices of a cons cell. -/
theorem nlIdxs_cons (c : Char) (rest : List Char) :
    nlIdxs (c :: rest) =
      (if c = '\n' then [0] else []) ++ (nlIdxs rest).map (fun j => j + 1) := by
  unfold nlIdxs
  rw [List.length_cons, List.range_succ_eq_map, List.filter_cons, List.filter_map]
  have hp0 : (decide ((c :: rest).getD 0 ' ' = '\n')) = decide (c = '\n') := rfl
  have hps : ((fun i => decide ((c :: rest).getD i ' ' = '\n')) ∘ Nat.succ) =
      fun i => decide (rest.getD i ' ' = '\n') := rfl
  rw [hp0, hps]
  by_cases hc : c = '\n'
  · rw [if_pos (by rw [hc]; rfl), if_pos hc]
    have : Nat.succ = fun j => j + 1 := rfl
    rw [this]
    rfl
  · rw [if_neg (by simpa using hc), if_neg hc]
    have : Nat.succ = fun j => j + 1 := rfl
    rw [this]
    rfl

/-- Shifting every newline index past one prepended weight. -/
theorem chunkNewlines_shift1 (w : Nat) (ws : List Nat) :
    ∀ (idxs : List Nat) (st : IndState),
      chunkNewlines (w :: ws) (idxs.map fun j => j + 1) st =
        chunkNewlines ws idxs st := by
  intro idxs
  induction idxs with
  | nil => intro st; rfl
  | cons idx rest ih =>
    intro st
    show chunkNewlines (w :: ws) ((idx + 1) :: rest.map fun j => j + 1) st = _
    exact ih _

/-- The chunk body — leading-run scan followed by the per-newline loop —
is the byte loop over the chunk. -/
theorem chunk_body_eq (tab : Nat) (htab : 1 ≤ tab) :
    ∀ (chunk : List Char) (st : IndState),
      chunkNewlines (chunk.map (wsVal tab)) (nlIdxs chunk)
        (if st.inInd then
          ⟨(scanRun (chunk.map (wsVal tab)) st.cur).2,
            (scanRun (chunk.map (wsVal tab)) st.cur).1, st.acc⟩
        else st) =
      chunk.foldl (byteStep tab) st := by
  intro chunk
  induction chunk with
  | nil =>
    intro st
    obtain ⟨ind, cur, acc⟩ := st
    cases ind <;> rfl
  | cons c rest ih =>
    intro st
    obtain ⟨ind, cur, acc⟩ := st
    rw [nlIdxs_cons, List.map_cons]
    cases ind with
    | false =>
      by_cases hc : c = '\n'
      · subst hc
        show chunkNewlines (wsVal tab '\n' :: rest.map (wsVal tab))
          ((nlIdxs rest).map fun j => j + 1)
          ⟨(scanRun (rest.map (wsVal tab)) 0).2,
            (scanRun (rest.map (wsVal tab)) 0).1, acc ++ [cur]⟩ =
          rest.foldl (byteStep tab) ⟨true, 0, acc ++ [cur]⟩
        rw [chunkNewlines_shift1, ← ih ⟨true, 0, acc ++ [cur]⟩]
        rfl
      · have hstep : byteStep tab ⟨false, cur, acc⟩ c = ⟨false, cur, acc⟩ := by
          unfold byteStep
          rw [if_neg hc]
          rfl
        rw [if_neg hc]
        show chunkNewlines (wsVal tab c :: rest.map (wsVal tab))
          ([] ++ (nlIdxs rest).map fun j => j + 1) ⟨false, cur, acc⟩ =
          (c :: rest).foldl (byteStep tab) ⟨false, cur, acc⟩
        rw [List.nil_append, chunkNewlines_shift1, List.foldl_cons, hstep,
          ← ih ⟨false, cur, acc⟩]
        rfl
    | true =>
      by_cases hc : c = '\n'
      · subst hc
        show chunkNewlines (wsVal tab '\n' :: rest.map (wsVal tab))
          ((nlIdxs rest).map fun j => j + 1)
          ⟨(scanRun (rest.map (wsVal tab)) 0).2,
            (scanRun (rest.map (wsVal tab)) 0).1, acc ++ [cur]⟩ =
          rest.foldl (byteStep tab) ⟨true, 0, acc ++ [cur]⟩
        rw [chunkNewlines_shift1, ← ih ⟨true, 0, acc ++ [cur]⟩]
        rfl
      · by_cases hsc : c = ' '
        · subst hsc
          show chunkNewlines (wsVal tab ' ' :: rest.map (wsVal tab))
            ([] ++ (nlIdxs rest).map fun j => j + 1)
            ⟨(scanRun (rest.map (wsVal tab)) (satAdd cur 1)).2,
              (scanRun (rest.map (wsVal tab)) (satAdd cur 1)).1, acc⟩ =
            rest.foldl (byteStep tab) ⟨true, satAdd cur 1, acc⟩
          rw [List.nil_append, chunkNewlines_shift1,
            ← ih ⟨true, satAdd cur 1, acc⟩]
          rfl
        · by_cases htc : c = '\t'
          · subst htc
            have hscan : scanRun (wsVal tab '\t' :: rest.map (wsVal tab)) cur =
                scanRun (rest.map (wsVal tab)) (satAdd cur tab) := by
              show (if wsVal tab '\t' > 0 then
                scanRun (rest.map (wsVal tab)) (satAdd cur (wsVal tab '\t'))
                else (cur, false)) = _
              rw [show wsVal tab '\t' = tab from rfl, if_pos (by omega)]
            show chunkNewlines (wsVal tab '\t' :: rest.map (wsVal tab))
              ([] ++ (nlIdxs rest).map fun j => j + 1)
              ⟨(scanRun (wsVal tab '\t' :: rest.map (wsVal tab)) cur).2,
                (scanRun (wsVal tab '\t' :: rest.map (wsVal tab)) cur).1, acc⟩ =
              rest.foldl (byteStep tab) ⟨true, satAdd cur tab, acc⟩
            rw [hscan, List.nil_append, chunkNewlines_shift1,
              ← ih ⟨true, satAdd cur tab, acc⟩]
            rfl
          · have hw : wsVal tab c = 0 := by
              unfold wsVal
              rw [if_neg hsc, if_neg htc]
            have hscan : scanRun (wsVal tab c :: rest.map (wsVal tab)) cur =
                (cur, false) := by
              show (if wsVal tab c > 0 then
                scanRun (rest.map (wsVal tab)) (satAdd cur (wsVal tab c))
                else (cur, false)) = _
              rw [hw, if_neg (by omega)]
            have hstep : byteStep tab ⟨true, cur, acc⟩ c = ⟨false, cur, acc⟩ := by
              unfold byteStep
              rw [if_neg hc, if_neg hsc, if_neg htc]
              rfl
            rw [if_neg hc]
            show chunkNewlines (wsVal tab c :: rest.map (wsVal tab))
              ([] ++ (nlIdxs rest).map fun j => j + 1)
              ⟨(scanRun (wsVal tab c :: rest.map (wsVal tab)) cur).2,
                (scanRun (wsVal tab c :: rest.map (wsVal tab)) cur).1, acc⟩ =
              (c :: rest).foldl (byteStep tab) ⟨true, cur, acc⟩
            rw [hscan, List.nil_append, chunkNewlines_shift1, List.foldl_cons,
              hstep, ← ih ⟨false, cur, acc⟩]
            rfl

/-- The byte loop never moves on a newline-free suffix once indentation
mode is off. -/
theorem byteStep_dead (tab : Nat) :
    ∀ (chunk : List Char), '\n' ∉ chunk → ∀ (cur : Nat) (acc : List Nat),
      chunk.foldl (byteStep tab) ⟨false, cur, acc⟩ = ⟨false, cur, acc⟩ := by
  intro chunk
  induction chunk with
  | nil => intro _ cur acc; rfl
  | cons c rest ih =>
    intro hnl cur acc
    have hc : c ≠ '\n' := fun h => hnl (h ▸ List.mem_cons_self c rest)
    have hstep : byteStep tab ⟨false, cur, acc⟩ c = ⟨false, cur, acc⟩ := by
      unfold byteStep
      rw [if_neg hc]
      rfl
    show rest.foldl (byteStep tab) (byteStep tab ⟨false, cur, acc⟩ c) = _
    rw [hstep]
    exact ih (fun h => hnl (List.mem_cons_of_mem c h)) cur acc

/-- One chunk of the vectorized path is the byte loop over its bytes. -/
theorem processChunk_eq (tab : Nat) (htab : 1 ≤ tab) (chunk : List Char)
    (st : IndState) : processChunk tab st chunk = chunk.foldl (byteStep tab) st := by
  unfold processChunk
  by_cases hskip : ¬st.inInd ∧ ¬ '\n' ∈ chunk
  · rw [if_pos hskip]
    obtain ⟨ind, cur, acc⟩ := st
    have hind : ind = false := by
      rcases hskip with ⟨h1, -⟩
      simpa using h1
    subst hind
    exact (byteStep_dead tab chunk hskip.2 cur acc).symm
  · rw [if_neg hskip]
    exact chunk_body_eq tab htab chunk st

/-- Folding the chunk processor over a chunk list is the byte loop over
the concatenated bytes. -/
theorem chunks_fold (tab : Nat) (htab : 1 ≤ tab) :
    ∀ (chunks : List (List Char)) (st : IndState),
      chunks.foldl (processChunk tab) st =
        chunks.flatten.foldl (byteStep tab) st := by
  intro chunks
  induction chunks with
  | nil => intro st; rfl
  | cons c rest ih =>
    intro st
    show rest.foldl (processChunk tab) (processChunk tab st c) = _
    rw [List.flatten_cons, List.foldl_append, ih, processChunk_eq tab htab]

/-- `as_chunks` splits without losing or reordering bytes. -/
theorem toChunksF_flatten (N : Nat) :
    ∀ (fuel : Nat) (l : List Char),
      (toChunksF N fuel l).1.flatten ++ (toChunksF N fuel l).2 = l := by
  intro fuel
  induction fuel with
  | zero => intro l; rfl
  | succ fuel ih =>
    intro l
    unfold toChunksF
    by_cases h : N ≤ l.length ∧ 0 < N
    · rw [if_pos h]
      show (l.take N :: (toChunksF N fuel (l.drop N)).1).flatten ++ _ = l
      rw [List.flatten_cons, List.append_assoc, ih (l.drop N),
        List.take_append_drop]
    · rw [if_neg h]
      rfl

/-- Claim C9 (amended): for a positive tab width, `indent_levels` equals
the naive scalar scan of the same input for every chunk size, and both
compute exactly one width per newline-separated line — each line's width
accumulated from its own leading run, spaces as 1, tabs as the tab
width, saturating at 255, stopping at the first non-whitespace byte,
with no carry-over between lines. -/
theorem claim_C9 (N tab : Nat) (src : String) (htab : 1 ≤ tab) :
    indent_levels N tab src = scalarIndent tab src ∧
    indent_levels N tab src = (splitLinesChar src.toList).map (lineWidth tab) := by
  have h1 : indent_levels N tab src = scalarIndent tab src := by
    simp only [indent_levels, scalarIndent]
    rw [chunks_fold tab htab, ← List.foldl_append,
      show (toChunks N src.toList).1.flatten ++ (toChunks N src.toList).2 =
        src.toList from toChunksF_flatten N src.toList.length src.toList]
  exact ⟨h1, h1.trans (scalarIndent_lines tab htab src)⟩

/-- Witness for C9: chunk size 16, tab width 4, three lines. -/
theorem claim_C9_witness :
    indent_levels 16 4 "a\n\tb\n    c" = scalarIndent 4 "a\n\tb\n    c" ∧
    indent_levels 16 4 "a\n\tb\n    c" =
      (splitLinesChar ("a\n\tb\n    c").toList).map (lineWidth 4) :=
  claim_C9 16 4 "a\n\tb\n    c" (by omega)

/-- Counterexample for C9 as stated: with `tab_width = 0` the vectorized
path is not byte-identical to the scalar scan.  On a 16-byte chunk whose
line starts with a tab, the chunk path's weight vector gives the tab
weight 0, which reads as a non-whitespace stop, while the scalar
remainder loop matches the tab byte itself and stays in indentation; the
two paths then disagree on the line's width. -/
theorem claim_C9_counterexample :
    indent_levels 16 0 "\t #aaaaaaaaaaaaaa" ≠ scalarIndent 0 "\t #aaaaaaaaaaaaaa" := by
  decide

/-! ### Balanced sequences: depths and syntactic pairs (C1) -/

/-- Depth lists have one entry per Match. -/
theorem sDepthsGo_length (S : List Match) :
    ∀ d, (sDepthsGo d S).length = S.length := by
  induction S with
  | nil => intro d; rfl
  | cons m rest ih =>
    intro d
    unfold sDepthsGo
    by_cases h : m.kind = Kind.opening
    · rw [if_pos h]
      simp [ih]
    · rw [if_neg h]
      simp [ih]

/-- The cons equation of `depthAfter`. -/
theorem depthAfter_cons (m : Match) (rest : List Match) (d : Nat) :
    depthAfter d (m :: rest) =
      if m.kind = Kind.opening then depthAfter (d + 1) rest
      else depthAfter (d - 1) rest := rfl

/-- The cons equation of `sDepthsGo`. -/
theorem sDepthsGo_cons (m : Match) (rest : List Match) (d : Nat) :
    sDepthsGo d (m :: rest) =
      if m.kind = Kind.opening then d :: sDepthsGo (d + 1) rest
      else (d - 1) :: sDepthsGo (d - 1) rest := rfl

/-- The depth counter threads through appends. -/
theorem depthAfter_append (S : List Match) :
    ∀ (T : List Match) (d : Nat),
      depthAfter d (S ++ T) = depthAfter (depthAfter d S) T := by
  induction S with
  | nil => intro T d; rfl
  | cons m rest ih =>
    intro T d
    show depthAfter d (m :: (rest ++ T)) = _
    rw [depthAfter_cons, depthAfter_cons]
    by_cases h : m.kind = Kind.opening
    · rw [if_pos h, if_pos h, ih]
    · rw [if_neg h, if_neg h, ih]

/-- Depth lists split over appends. -/
theorem sDepthsGo_append (S : List Match) :
    ∀ (T : List Match) (d : Nat),
      sDepthsGo d (S ++ T) = sDepthsGo d S ++ sDepthsGo (depthAfter d S) T := by
  induction S with
  | nil => intro T d; rfl
  | cons m rest ih =>
    intro T d
    show sDepthsGo d (m :: (rest ++ T)) = _
    rw [sDepthsGo_cons, sDepthsGo_cons, depthAfter_cons]
    by_cases h : m.kind = Kind.opening
    · rw [if_pos h, if_pos h, if_pos h, ih]
      rfl
    · rw [if_neg h, if_neg h, if_neg h, ih]
      rfl

/-- A balanced sequence restores the depth counter. -/
theorem balanced_depthAfter {S : List Match} (h : Balanced S) :
    ∀ d, depthAfter d S = d := by
  induction h with
  | nil => intro d; rfl
  | wrap o c S ho hc htok hdel hbal ih =>
    intro d
    have hco : ¬c.kind = Kind.opening := by
      rw [hc]
      decide
    show depthAfter d (o :: (S ++ [c])) = d
    rw [depthAfter_cons, if_pos ho, depthAfter_append, ih (d + 1),
      depthAfter_cons, if_neg hco]
    rfl
  | app S T hS hT ihS ihT =>
    intro d
    rw [depthAfter_append, ihS, ihT]

/-- The depth list of a wrapped balanced body. -/
theorem sDepthsGo_wrap {o c : Match} {S : List Match}
    (ho : o.kind = Kind.opening) (hc : c.kind = Kind.closing)
    (hbal : Balanced S) (d : Nat) :
    sDepthsGo d (o :: S ++ [c]) = d :: (sDepthsGo (d + 1) S ++ [d]) := by
  have hco : ¬c.kind = Kind.opening := by
    rw [hc]
    decide
  show sDepthsGo d (o :: (S ++ [c])) = _
  rw [sDepthsGo_cons, if_pos ho, sDepthsGo_append, balanced_depthAfter hbal]
  refine congrArg₂ List.cons rfl (congrArg₂ List.append rfl ?_)
  rw [sDepthsGo_cons, if_neg hco]
  rfl

/-- Every depth of a balanced sequence stays at or above the base. -/
theorem balanced_depth_ge {S : List Match} (h : Balanced S) :
    ∀ d p dp, (sDepthsGo d S).get? p = some dp → d ≤ dp := by
  induction h with
  | nil =>
    intro d p dp hp
    simp [sDepthsGo] at hp
  | wrap o c S ho hc htok hdel hbal ih =>
    intro d p dp hp
    rw [sDepthsGo_wrap ho hc hbal] at hp
    rcases p with _ | p'
    · exact le_of_eq (Option.some.inj hp)
    · show d ≤ dp
      have hp' : (sDepthsGo (d + 1) S ++ [d]).get? p' = some dp := hp
      by_cases hlt : p' < (sDepthsGo (d + 1) S).length
      · rw [List.get?_append hlt] at hp'
        have := ih (d + 1) p' dp hp'
        omega
      · rw [List.get?_append_right (by omega)] at hp'
        rcases hq : p' - (sDepthsGo (d + 1) S).length with _ | q
        · rw [hq] at hp'
          exact le_of_eq (Option.some.inj hp')
        · rw [hq] at hp'
          exact absurd hp' (by simp)
  | app S T hS hT ihS ihT =>
    intro d p dp hp
    rw [sDepthsGo_append, balanced_depthAfter hS] at hp
    by_cases hlt : p < (sDepthsGo d S).length
    · rw [List.get?_append hlt] at hp
      exact ihS d p dp hp
    · rw [List.get?_append_right (by omega)] at hp
      exact ihT d _ dp hp

/-- Every Match of a balanced sequence is an opening or closing
delimiter. -/
theorem balanced_all_delims {S : List Match} (h : Balanced S) :
    ∀ m ∈ S, m.token.isDelimiter = true ∧
      (m.kind = Kind.opening ∨ m.kind = Kind.closing) := by
  induction h with
  | nil =>
    intro m hm
    simp at hm
  | wrap o c S ho hc htok hdel hbal ih =>
    intro m hm
    rcases List.mem_cons.1 hm with rfl | hm'
    · exact ⟨hdel, Or.inl ho⟩
    · rcases List.mem_append.1 hm' with hm2 | hm2
      · exact ih m hm2
      · rw [List.mem_singleton.1 hm2]
        exact ⟨by rw [← htok]; exact hdel, Or.inr hc⟩
  | app S T hS hT ihS ihT =>
    intro m hm
    rcases List.mem_append.1 hm with h1 | h1
    exacts [ihS m h1, ihT m h1]

/-- One step of the pairing scan on an opening Match. -/
theorem sPairsGo_cons_open (i : Nat) (m : Match) (h : m.kind = Kind.opening)
    (str : List (Nat × Match)) (stk : List Nat) :
    sPairsGo ((i, m) :: str) stk = sPairsGo str (i :: stk) := by
  show (if m.kind = Kind.opening then sPairsGo str (i :: stk)
    else match stk with
      | j :: stk' => (j, i) :: sPairsGo str stk'
      | [] => sPairsGo str []) = sPairsGo str (i :: stk)
  rw [if_pos h]

/-- One step of the pairing scan on a closing Match over a nonempty
stack. -/
theorem sPairsGo_cons_close (i : Nat) (m : Match) (h : ¬m.kind = Kind.opening)
    (str : List (Nat × Match)) (j : Nat) (stk : List Nat) :
    sPairsGo ((i, m) :: str) (j :: stk) = (j, i) :: sPairsGo str stk := by
  show (if m.kind = Kind.opening then sPairsGo str (i :: (j :: stk))
    else (j, i) :: sPairsGo str stk) = (j, i) :: sPairsGo str stk
  rw [if_neg h]

/-- A balanced segment of the stream closes all its own openers: the
pairing scan emits its internal pairs and continues on the remaining
stream with the outer stack untouched. -/
theorem sPairsGo_balanced_frame {S : List Match} (h : Balanced S) :
    ∀ (k : Nat) (rest : List (Nat × Match)) (stk : List Nat),
      sPairsGo (List.enumFrom k S ++ rest) stk =
        sPairsGo (List.enumFrom k S) [] ++ sPairsGo rest stk := by
  induction h with
  | nil => intro k rest stk; rfl
  | wrap o c S ho hc htok hdel hbal ih =>
    intro k rest stk
    have hco : ¬c.kind = Kind.opening := by
      rw [hc]
      decide
    have hstream : List.enumFrom k (o :: S ++ [c]) ++ rest =
        (k, o) :: (List.enumFrom (k + 1) S ++ ((k + 1 + S.length, c) :: rest)) := by
      show List.enumFrom k (o :: (S ++ [c])) ++ rest = _
      rw [List.enumFrom_cons, List.enumFrom_append, List.cons_append,
        List.append_assoc]
      rfl
    have hres : sPairsGo (List.enumFrom k (o :: S ++ [c])) [] =
        sPairsGo (List.enumFrom (k + 1) S) [] ++ [(k, k + 1 + S.length)] := by
      have h2 : List.enumFrom k (o :: S ++ [c]) =
          (k, o) :: (List.enumFrom (k + 1) S ++ [(k + 1 + S.length, c)]) := by
        show List.enumFrom k (o :: (S ++ [c])) = _
        rw [List.enumFrom_cons, List.enumFrom_append]
        rfl
      rw [h2, sPairsGo_cons_open _ _ ho,
        ih (k + 1) [(k + 1 + S.length, c)] [k],
        sPairsGo_cons_close _ _ hco]
      rfl
    rw [hstream, sPairsGo_cons_open _ _ ho,
      ih (k + 1) ((k + 1 + S.length, c) :: rest) (k :: stk),
      sPairsGo_cons_close _ _ hco, hres, List.append_assoc]
    rfl
  | app S T hS hT ihS ihT =>
    intro k rest stk
    rw [List.enumFrom_append, List.append_assoc, ihS, ihT,
      ihS k (List.enumFrom (k + S.length) T) [], List.append_assoc]

/-- Every syntactic pair of a balanced segment: in-range ascending
indices, an opening and a closing Match of equal token, equal depths, and
strictly deeper nesting everywhere strictly between them. -/
theorem sPairs_balanced_mem {S : List Match} (h : Balanced S) :
    ∀ (k i j : Nat), (i, j) ∈ sPairsGo (List.enumFrom k S) [] →
      k ≤ i ∧ i < j ∧ j < k + S.length ∧
      (∃ mi mj, S.get? (i - k) = some mi ∧ S.get? (j - k) = some mj ∧
        mi.kind = Kind.opening ∧ mj.kind = Kind.closing ∧
        mi.token = mj.token) ∧
      ∀ d, ∃ dp, (sDepthsGo d S).get? (i - k) = some dp ∧
        (sDepthsGo d S).get? (j - k) = some dp ∧
        ∀ t dt, i < t → t < j → (sDepthsGo d S).get? (t - k) = some dt →
          dp < dt := by
  induction h with
  | nil =>
    intro k i j hm
    exact absurd hm (by simp [sPairsGo])
  | wrap o c S ho hc htok hdel hbal ih =>
    intro k i j hm
    have hco : ¬c.kind = Kind.opening := by
      rw [hc]
      decide
    have h2 : List.enumFrom k (o :: S ++ [c]) =
        (k, o) :: (List.enumFrom (k + 1) S ++ [(k + 1 + S.length, c)]) := by
      show List.enumFrom k (o :: (S ++ [c])) = _
      rw [List.enumFrom_cons, List.enumFrom_append]
      rfl
    rw [h2, sPairsGo_cons_open _ _ ho,
      sPairsGo_balanced_frame hbal (k + 1) [(k + 1 + S.length, c)] [k],
      sPairsGo_cons_close _ _ hco] at hm
    have hlen : (o :: S ++ [c]).length = S.length + 2 := by simp
    have hdlen : ∀ d, (sDepthsGo d S).length = S.length := sDepthsGo_length S
    rcases List.mem_append.1 hm with hin | hpair
    · -- a pair of the wrapped body
      obtain ⟨hk, hij, hjb, ⟨mi, mj, hmi, hmj, hki, hkj, htk⟩, hdep⟩ :=
        ih (k + 1) i j hin
      have hik : 1 ≤ i - k := by omega
      have hiS : i - (k + 1) < S.length := by omega
      have hjS : j - (k + 1) < S.length := by omega
      refine ⟨by omega, hij, by omega, ⟨mi, mj, ?_, ?_, hki, hkj, htk⟩, ?_⟩
      · show (o :: (S ++ [c])).get? (i - k) = some mi
        rw [show i - k = (i - (k + 1)) + 1 from by omega]
        show (S ++ [c]).get? (i - (k + 1)) = some mi
        rw [List.get?_append hiS]
        exact hmi
      · show (o :: (S ++ [c])).get? (j - k) = some mj
        rw [show j - k = (j - (k + 1)) + 1 from by omega]
        show (S ++ [c]).get? (j - (k + 1)) = some mj
        rw [List.get?_append hjS]
        exact hmj
      · intro d
        obtain ⟨dp, hdi, hdj, hbetween⟩ := hdep (d + 1)
        rw [sDepthsGo_wrap ho hc hbal]
        refine ⟨dp, ?_, ?_, ?_⟩
        · rw [show i - k = (i - (k + 1)) + 1 from by omega]
          show (sDepthsGo (d + 1) S ++ [d]).get? (i - (k + 1)) = some dp
          rw [List.get?_append (by rw [hdlen]; omega)]
          exact hdi
        · rw [show j - k = (j - (k + 1)) + 1 from by omega]
          show (sDepthsGo (d + 1) S ++ [d]).get? (j - (k + 1)) = some dp
          rw [List.get?_append (by rw [hdlen]; omega)]
          exact hdj
        · intro t dt hit htj hdt
          rw [show t - k = (t - (k + 1)) + 1 from by omega] at hdt
          have hdt' : (sDepthsGo (d + 1) S ++ [d]).get? (t - (k + 1)) =
              some dt := hdt
          rw [List.get?_append (by rw [hdlen]; omega)] at hdt'
          exact hbetween t dt hit htj hdt'
    · -- the wrapping pair itself
      have hij : (i, j) = (k, k + 1 + S.length) := List.mem_singleton.1 hpair
      have hi : i = k := congrArg Prod.fst hij
      have hj : j = k + 1 + S.length := congrArg Prod.snd hij
      rw [hi, hj]
      refine ⟨le_refl k, by omega, by omega, ⟨o, c, ?_, ?_, ho, hc, htok⟩, ?_⟩
      · rw [Nat.sub_self]
        rfl
      · rw [show k + 1 + S.length - k = S.length + 1 from by omega]
        show (S ++ [c]).get? S.length = some c
        rw [List.get?_append_right (le_refl _), Nat.sub_self]
        rfl
      · intro d
        rw [sDepthsGo_wrap ho hc hbal, Nat.sub_self]
        refine ⟨d, rfl, ?_, ?_⟩
        · rw [show k + 1 + S.length - k = S.length + 1 from by omega]
          show (sDepthsGo (d + 1) S ++ [d]).get? S.length = some d
          rw [List.get?_append_right (by rw [hdlen])]
          rw [hdlen]
          rw [Nat.sub_self]
          rfl
        · intro t dt hkt htj hdt
          rw [show t - k = (t - (k + 1)) + 1 from by omega] at hdt
          have hdt' : (sDepthsGo (d + 1) S ++ [d]).get? (t - (k + 1)) =
              some dt := hdt
          rw [List.get?_append (by rw [hdlen]; omega)] at hdt'
          have := balanced_depth_ge hbal (d + 1) _ _ hdt'
          omega
  | app S T hS hT ihS ihT =>
    intro k i j hm
    have hres : sPairsGo (List.enumFrom k (S ++ T)) [] =
        sPairsGo (List.enumFrom k S) [] ++
          sPairsGo (List.enumFrom (k + S.length) T) [] := by
      rw [List.enumFrom_append,
        sPairsGo_balanced_frame hS k (List.enumFrom (k + S.length) T) []]
    rw [hres] at hm
    have hdS : ∀ d, (sDepthsGo d S).length = S.length := sDepthsGo_length S
    rcases List.mem_append.1 hm with hin | hin
    · obtain ⟨hk, hij, hjb, ⟨mi, mj, hmi, hmj, hki, hkj, htk⟩, hdep⟩ :=
        ihS k i j hin
      refine ⟨hk, hij, by simp; omega, ⟨mi, mj, ?_, ?_, hki, hkj, htk⟩, ?_⟩
      · rw [List.get?_append (by omega)]
        exact hmi
      · rw [List.get?_append (by omega)]
        exact hmj
      · intro d
        obtain ⟨dp, hdi, hdj, hbetween⟩ := hdep d
        rw [sDepthsGo_append, balanced_depthAfter hS]
        refine ⟨dp, ?_, ?_, ?_⟩
        · rw [List.get?_append (by rw [hdS]; omega)]
          exact hdi
        · rw [List.get?_append (by rw [hdS]; omega)]
          exact hdj
        · intro t dt hit htj hdt
          rw [List.get?_append (by rw [hdS]; omega)] at hdt
          exact hbetween t dt hit htj hdt
    · obtain ⟨hk, hij, hjb, ⟨mi, mj, hmi, hmj, hki, hkj, htk⟩, hdep⟩ :=
        ihT (k + S.length) i j hin
      refine ⟨by omega, hij, by simp; omega, ⟨mi, mj, ?_, ?_, hki, hkj, htk⟩, ?_⟩
      · rw [List.get?_append_right (by omega),
          show i - k - S.length = i - (k + S.length) from by omega]
        exact hmi
      · rw [List.get?_append_right (by omega),
          show j - k - S.length = j - (k + S.length) from by omega]
        exact hmj
      · intro d
        obtain ⟨dp, hdi, hdj, hbetween⟩ := hdep d
        rw [sDepthsGo_append, balanced_depthAfter hS]
        refine ⟨dp, ?_, ?_, ?_⟩
        · rw [List.get?_append_right (by rw [hdS]; omega),
            hdS, show i - k - S.length = i - (k + S.length) from by omega]
          exact hdi
        · rw [List.get?_append_right (by rw [hdS]; omega),
            hdS, show j - k - S.length = j - (k + S.length) from by omega]
          exact hdj
        · intro t dt hit htj hdt
          rw [List.get?_append_right (by rw [hdS]; omega),
            hdS, show t - k - S.length = t - (k + S.length) from by omega] at hdt
          exact hbetween t dt hit htj hdt

/-- Every opening Match of a balanced segment opens a syntactic pair and
every closing Match closes one. -/
theorem sPairs_balanced_total {S : List Match} (h : Balanced S) :
    ∀ (k p : Nat) (m : Match), S.get? p = some m →
      (m.kind = Kind.opening →
        ∃ j, (k + p, j) ∈ sPairsGo (List.enumFrom k S) []) ∧
      (m.kind = Kind.closing →
        ∃ i, (i, k + p) ∈ sPairsGo (List.enumFrom k S) []) := by
  induction h with
  | nil =>
    intro k p m hp
    exact absurd hp (by simp)
  | wrap o c S ho hc htok hdel hbal ih =>
    intro k p m hp
    have hco : ¬c.kind = Kind.opening := by
      rw [hc]
      decide
    have h2 : List.enumFrom k (o :: S ++ [c]) =
        (k, o) :: (List.enumFrom (k + 1) S ++ [(k + 1 + S.length, c)]) := by
      show List.enumFrom k (o :: (S ++ [c])) = _
      rw [List.enumFrom_cons, List.enumFrom_append]
      rfl
    have hres : sPairsGo (List.enumFrom k (o :: S ++ [c])) [] =
        sPairsGo (List.enumFrom (k + 1) S) [] ++ [(k, k + 1 + S.length)] := by
      rw [h2, sPairsGo_cons_open _ _ ho,
        sPairsGo_balanced_frame hbal (k + 1) [(k + 1 + S.length, c)] [k],
        sPairsGo_cons_close _ _ hco]
      rfl
    rw [hres]
    rcases p with _ | p'
    · -- the wrapping opener
      have hmo : m = o := by
        have : (o :: (S ++ [c])).get? 0 = some m := hp
        exact (Option.some.inj this).symm
      subst hmo
      constructor
      · intro _
        refine ⟨k + 1 + S.length, List.mem_append_right _ ?_⟩
        rw [Nat.add_zero]
        exact List.mem_singleton.2 rfl
      · intro hcl
        rw [ho] at hcl
        exact absurd hcl (by decide)
    · have hp' : (S ++ [c]).get? p' = some m := hp
      by_cases hlt : p' < S.length
      · -- inside the body
        rw [List.get?_append hlt] at hp'
        obtain ⟨hop, hcl⟩ := ih (k + 1) p' m hp'
        constructor
        · intro hk
          obtain ⟨j, hj⟩ := hop hk
          refine ⟨j, List.mem_append_left _ ?_⟩
          rw [show k + (p' + 1) = k + 1 + p' from by omega]
          exact hj
        · intro hk
          obtain ⟨i, hi⟩ := hcl hk
          refine ⟨i, List.mem_append_left _ ?_⟩
          rw [show k + (p' + 1) = k + 1 + p' from by omega]
          exact hi
      · -- the wrapping closer
        have hplen : p' = S.length := by
          rcases Nat.lt_or_ge p' (S ++ [c]).length with hl | hl
          · simp only [List.length_append, List.length_cons,
              List.length_nil] at hl
            omega
          · rw [List.get?_eq_none.2 hl] at hp'
            exact absurd hp' (by simp)
        subst hplen
        rw [List.get?_append_right (le_refl _), Nat.sub_self] at hp'
        have hmc : m = c := (Option.some.inj hp').symm
        subst hmc
        constructor
        · intro hop
          rw [hc] at hop
          exact absurd hop (by decide)
        · intro _
          refine ⟨k, List.mem_append_right _ ?_⟩
          rw [show k + (S.length + 1) = k + 1 + S.length from by omega]
          exact List.mem_singleton.2 rfl
  | app S T hS hT ihS ihT =>
    intro k p m hp
    have hres : sPairsGo (List.enumFrom k (S ++ T)) [] =
        sPairsGo (List.enumFrom k S) [] ++
          sPairsGo (List.enumFrom (k + S.length) T) [] := by
      rw [List.enumFrom_append,
        sPairsGo_balanced_frame hS k (List.enumFrom (k + S.length) T) []]
    rw [hres]
    by_cases hlt : p < S.length
    · rw [List.get?_append hlt] at hp
      obtain ⟨hop, hcl⟩ := ihS k p m hp
      exact ⟨fun hk => (hop hk).imp fun j hj => List.mem_append_left _ hj,
        fun hk => (hcl hk).imp fun i hi => List.mem_append_left _ hi⟩
    · rw [List.get?_append_right (by omega)] at hp
      obtain ⟨hop, hcl⟩ := ihT (k + S.length) (p - S.length) m hp
      constructor
      · intro hk
        obtain ⟨j, hj⟩ := hop hk
        refine ⟨j, List.mem_append_right _ ?_⟩
        rw [show k + p = k + S.length + (p - S.length) from by omega]
        exact hj
      · intro hk
        obtain ⟨i, hi⟩ := hcl hk
        refine ⟨i, List.mem_append_right _ ?_⟩
        rw [show k + p = k + S.length + (p - S.length) from by omega]
        exact hi

/-- Resolution over a balanced segment of the stream: every closer finds
its opener at the top of the stack, the outer stack is restored, and
every Match of the segment is assigned its nesting depth above the
current stack depth. -/
theorem resolveGo_balanced {S : List Match} (h : Balanced S) :
    ∀ (k : Nat) (stack : List (Nat × Match)) (rest : List (Nat × Match))
      (marks : Nat → Option (Option Nat)),
      resolveGo stack (List.enumFrom k S ++ rest) marks =
        resolveGo stack rest (fun i =>
          if k ≤ i ∧ i < k + S.length then
            some (some ((sDepthsGo stack.length S).getD (i - k) 0))
          else marks i) := by
  induction h with
  | nil =>
    intro k stack rest marks
    show resolveGo stack rest marks = _
    refine congrArg (resolveGo stack rest) (funext fun i => ?_)
    have hno : ¬(k ≤ i ∧ i < k + ([] : List Match).length) := by
      simp only [List.length_nil]
      omega
    rw [if_neg hno]
  | wrap o c S ho hc htok hdel hbal ih =>
    intro k stack rest marks
    have hco : ¬c.kind = Kind.opening := by
      rw [hc]
      decide
    have hdlen : (sDepthsGo (stack.length + 1) S).length = S.length :=
      sDepthsGo_length S _
    have hstream : List.enumFrom k (o :: S ++ [c]) ++ rest =
        (k, o) :: (List.enumFrom (k + 1) S ++ ((k + 1 + S.length, c) :: rest)) := by
      show List.enumFrom k (o :: (S ++ [c])) ++ rest = _
      rw [List.enumFrom_cons, List.enumFrom_append, List.cons_append,
        List.append_assoc]
      rfl
    rw [hstream]
    simp only [resolveGo]
    rw [if_pos ho, ih (k + 1) ((k, o) :: stack)
      ((k + 1 + S.length, c) :: rest) marks]
    simp only [resolveGo]
    rw [if_neg hco]
    have hfc : findCompat ((k, o) :: stack) c.token = some ([], (k, o), stack) := by
      unfold findCompat
      rw [if_pos htok]
    rw [hfc]
    dsimp only
    refine congrArg (resolveGo stack rest) (funext fun i => ?_)
    rw [sDepthsGo_wrap ho hc hbal]
    show mupd (mupd _ k (some stack.length)) (k + 1 + S.length)
      (some stack.length) i = _
    simp only [mupd, List.foldl_nil]
    by_cases h1 : i = k + 1 + S.length
    · rw [if_pos h1]
      have hin : k ≤ i ∧ i < k + (o :: S ++ [c]).length := by
        simp only [List.length_append, List.length_cons, List.length_nil]
        omega
      rw [if_pos hin, show i - k = S.length + 1 from by omega,
        List.getD_cons_succ, List.getD_append_right _ _ _ _ (by omega),
        hdlen, Nat.sub_self, List.getD_cons_zero]
    · rw [if_neg h1]
      by_cases h2 : i = k
      · rw [if_pos h2]
        have hin : k ≤ i ∧ i < k + (o :: S ++ [c]).length := by
          simp only [List.length_append, List.length_cons, List.length_nil]
          omega
        rw [if_pos hin, show i - k = 0 from by omega, List.getD_cons_zero]
      · rw [if_neg h2]
        by_cases h3 : k + 1 ≤ i ∧ i < k + 1 + S.length
        · rw [if_pos h3]
          have hin : k ≤ i ∧ i < k + (o :: S ++ [c]).length := by
            simp only [List.length_append, List.length_cons, List.length_nil]
            omega
          rw [if_pos hin, show i - k = (i - (k + 1)) + 1 from by omega,
            List.getD_cons_succ, List.getD_append _ _ _ _ (by rw [hdlen]; omega)]
          rfl
        · rw [if_neg h3]
          have hno : ¬(k ≤ i ∧ i < k + (o :: S ++ [c]).length) := by
            simp only [List.length_append, List.length_cons, List.length_nil]
            omega
          rw [if_neg hno]
  | app S T hS hT ihS ihT =>
    intro k stack rest marks
    have hdS : (sDepthsGo stack.length S).length = S.length :=
      sDepthsGo_length S _
    have hstream : List.enumFrom k (S ++ T) ++ rest =
        List.enumFrom k S ++ (List.enumFrom (k + S.length) T ++ rest) := by
      rw [List.enumFrom_append, List.append_assoc]
    rw [hstream, ihS k stack _ marks, ihT (k + S.length) stack rest _]
    refine congrArg (resolveGo stack rest) (funext fun i => ?_)
    rw [sDepthsGo_append, balanced_depthAfter hS]
    by_cases h1 : k + S.length ≤ i ∧ i < k + S.length + T.length
    · rw [if_pos h1]
      have hin : k ≤ i ∧ i < k + (S ++ T).length := by
        simp only [List.length_append]
        omega
      rw [if_pos hin, List.getD_append_right _ _ _ _ (by rw [hdS]; omega),
        hdS, show i - k - S.length = i - (k + S.length) from by omega]
    · rw [if_neg h1]
      by_cases h2 : k ≤ i ∧ i < k + S.length
      · rw [if_pos h2]
        have hin : k ≤ i ∧ i < k + (S ++ T).length := by
          simp only [List.length_append]
          omega
        rw [if_pos hin, List.getD_append _ _ _ _ (by rw [hdS]; omega)]
      · rw [if_neg h2]
        have hno : ¬(k ≤ i ∧ i < k + (S ++ T).length) := by
          simp only [List.length_append]
          omega
        rw [if_neg hno]

/-- On a balanced stream, the resolution map assigns every index its
nesting depth. -/
theorem marks_balanced {S : List Match} (h : Balanced S) :
    ∀ i, i < S.length →
      resolveGo [] S.enum (fun _ => none) i =
        some (some ((sDepths S).getD i 0)) := by
  intro i hi
  have h1 := resolveGo_balanced h 0 [] [] (fun _ => none)
  rw [List.append_nil] at h1
  have h2 : resolveGo [] S.enum (fun _ => none) =
      resolveGo [] [] (fun j =>
        if 0 ≤ j ∧ j < 0 + S.length then
          some (some ((sDepthsGo ([] : List (Nat × Match)).length S).getD
            (j - 0) 0))
        else none) := h1
  rw [h2]
  show (if 0 ≤ i ∧ i < 0 + S.length then
    some (some ((sDepthsGo ([] : List (Nat × Match)).length S).getD (i - 0) 0))
    else none) = _
  rw [if_pos ⟨Nat.zero_le i, by omega⟩]
  rfl

/-! ### Query machinery: first hits, positions, resolved lines (C1) -/

/-- `find?` returns the witness at the first satisfying index. -/
theorem find?_first : ∀ (l : List α) (p : α → Bool) (q : Nat) (m : α),
    l.get? q = some m → p m = true →
    (∀ t mt, t < q → l.get? t = some mt → p mt = false) →
    l.find? p = some m := by
  intro l
  induction l with
  | nil =>
    intro p q m hq
    exact absurd hq (by simp)
  | cons a rest ih =>
    intro p q m hq hp hfail
    rcases q with _ | q'
    · have ham : a = m := Option.some.inj hq
      subst ham
      exact List.find?_cons_of_pos rest hp
    · have ha : p a = false := hfail 0 a (Nat.succ_pos q') rfl
      rw [List.find?_cons_of_neg rest (by simp [ha])]
      exact ih p q' m hq hp fun t mt ht hmt => hfail (t + 1) mt (by omega) hmt

/-- `find?` over a reversed list returns the witness at the last
satisfying index. -/
theorem find?_rev_last : ∀ (l : List α) (p : α → Bool) (q : Nat) (m : α),
    l.get? q = some m → p m = true →
    (∀ t mt, q < t → l.get? t = some mt → p mt = false) →
    l.reverse.find? p = some m := by
  intro l
  induction l with
  | nil =>
    intro p q m hq
    exact absurd hq (by simp)
  | cons a rest ih =>
    intro p q m hq hp hfail
    rw [List.reverse_cons, List.find?_append]
    rcases q with _ | q'
    · have ham : a = m := Option.some.inj hq
      subst ham
      have hnone : rest.reverse.find? p = none := by
        rw [List.find?_eq_none]
        intro x hx
        obtain ⟨n, hn⟩ := List.mem_iff_get?.1 (List.mem_reverse.1 hx)
        have := hfail (n + 1) x (Nat.succ_pos n) hn
        simp [this]
      rw [hnone, Option.none_or]
      exact List.find?_cons_of_pos _ hp
    · have hres : rest.reverse.find? p = some m :=
        ih p q' m hq hp fun t mt ht hmt => hfail (t + 1) mt (by omega) hmt
      rw [hres]
      rfl

/-- `findSome?` only depends on the function's values on the list. -/
theorem findSome?_congr {f g : α → Option β} : ∀ (l : List α),
    (∀ a ∈ l, f a = g a) → l.findSome? f = l.findSome? g := by
  intro l
  induction l with
  | nil => intro _; rfl
  | cons a rest ih =>
    intro h
    rw [List.findSome?_cons, List.findSome?_cons, h a (by simp),
      ih fun x hx => h x (by simp [hx])]

/-- The head hit of `findSome?`. -/
theorem findSome?_cons_some {f : α → Option β} {a : α} {as : List α} {b : β}
    (h : f a = some b) : List.findSome? f (a :: as) = some b := by
  rw [List.findSome?_cons, h]

/-- The head miss of `findSome?`. -/
theorem findSome?_cons_none {f : α → Option β} {a : α} {as : List α}
    (h : f a = none) : List.findSome? f (a :: as) = List.findSome? f as := by
  rw [List.findSome?_cons, h]

/-- The cons equation of `lineOf`. -/
theorem lineOf_cons (l : List Match) (rest : List (List Match)) (i : Nat) :
    lineOf (l :: rest) i =
      if i < l.length then 0 else lineOf rest (i - l.length) + 1 := rfl

/-- The cons equation of `idxIn`. -/
theorem idxIn_cons (l : List Match) (rest : List (List Match)) (i : Nat) :
    idxIn (l :: rest) i =
      if i < l.length then i else idxIn rest (i - l.length) := rfl

/-- A flat document-order index decomposes into its line and within-line
index. -/
theorem pos_decomp : ∀ (B : List (List Match)) (i : Nat) (m : Match),
    B.flatten.get? i = some m →
    ∃ bl, B.get? (lineOf B i) = some bl ∧ bl.get? (idxIn B i) = some m ∧
      (B.take (lineOf B i)).flatten.length + idxIn B i = i ∧
      idxIn B i < bl.length := by
  intro B
  induction B with
  | nil =>
    intro i m hm
    exact absurd hm (by simp)
  | cons l rest ih =>
    intro i m hm
    rw [List.flatten_cons] at hm
    by_cases h : i < l.length
    · rw [lineOf_cons, idxIn_cons, if_pos h, if_pos h]
      refine ⟨l, rfl, ?_, by simp, h⟩
      rw [List.get?_append h] at hm
      exact hm
    · rw [lineOf_cons, idxIn_cons, if_neg h, if_neg h]
      rw [List.get?_append_right (by omega)] at hm
      obtain ⟨bl, h1, h2, h3, h4⟩ := ih (i - l.length) m hm
      refine ⟨bl, h1, h2, ?_, h4⟩
      show ((l :: rest).take (lineOf rest (i - l.length) + 1)).flatten.length +
        idxIn rest (i - l.length) = i
      rw [List.take_succ_cons, List.flatten_cons, List.length_append]
      omega

/-- Flattening commutes with dropping lines. -/
theorem flatten_drop : ∀ (n : Nat) (B : List (List Match)),
    (B.drop n).flatten = B.flatten.drop ((B.take n).flatten.length) := by
  intro n
  induction n with
  | zero => intro B; rfl
  | succ n ih =>
    intro B
    cases B with
    | nil => rfl
    | cons l rest =>
      rw [List.drop_succ_cons, List.take_succ_cons, ih rest, List.flatten_cons,
        List.flatten_cons, List.length_append, List.drop_append]

/-- An entry of a flattened line prefix is an entry of the whole. -/
theorem take_flatten_get? (B : List (List Match)) (n t : Nat)
    (h : t < (B.take n).flatten.length) :
    (B.take n).flatten.get? t = B.flatten.get? t := by
  conv_rhs => rw [← List.take_append_drop n B]
  rw [List.flatten_append, List.get?_append h]

/-- Line numbers of flat indices past a dropped prefix. -/
theorem lineOf_shift : ∀ (n : Nat) (B : List (List Match)) (r : Nat),
    n ≤ B.length →
    lineOf B ((B.take n).flatten.length + r) = n + lineOf (B.drop n) r := by
  intro n
  induction n with
  | zero =>
    intro B r _
    show lineOf B (0 + r) = 0 + lineOf B r
    rw [Nat.zero_add, Nat.zero_add]
  | succ n ih =>
    intro B r hn
    cases B with
    | nil => simp at hn
    | cons l rest =>
      rw [List.take_succ_cons, List.flatten_cons, List.length_append,
        List.drop_succ_cons, lineOf_cons, if_neg (by omega),
        show l.length + (rest.take n).flatten.length + r - l.length =
          (rest.take n).flatten.length + r from by omega,
        ih rest r (by simpa using hn)]
      omega

/-- Line numbers inside a kept line prefix. -/
theorem lineOf_take : ∀ (n : Nat) (B : List (List Match)) (i : Nat),
    i < (B.take n).flatten.length → lineOf (B.take n) i = lineOf B i := by
  intro n
  induction n with
  | zero =>
    intro B i hi
    exact absurd hi (by simp)
  | succ n ih =>
    intro B i hi
    cases B with
    | nil => exact absurd hi (by simp)
    | cons l rest =>
      rw [List.take_succ_cons] at hi ⊢
      rw [lineOf_cons, lineOf_cons]
      by_cases h : i < l.length
      · rw [if_pos h, if_pos h]
      · rw [if_neg h, if_neg h, ih rest (i - l.length) (by
          rw [List.flatten_cons, List.length_append] at hi
          omega)]

/-- Column ranges of a sorted line are ordered with its indices. -/
theorem lineSorted_le : ∀ (l : List Match), LineSorted l →
    ∀ (t2 : Nat) (m2 : Match), l.get? t2 = some m2 →
    ∀ (t1 : Nat) (m1 : Match), t1 < t2 → l.get? t1 = some m1 →
      m1.col + m1.len ≤ m2.col := by
  intro l
  induction l with
  | nil =>
    intro _ t2 m2 h2
    exact absurd h2 (by simp)
  | cons a rest ih =>
    intro hs t2 m2 h2 t1 m1 h12 h1
    have hs' : LineSorted rest := by
      obtain ⟨hc, hl⟩ := hs
      exact ⟨(List.chain'_cons'.1 hc).2,
        fun m hm => hl m (List.mem_cons_of_mem a hm)⟩
    rcases t1 with _ | t1'
    · have ham : a = m1 := Option.some.inj h1
      subst ham
      rcases t2 with _ | t2'
      · omega
      · cases rest with
        | nil => exact absurd h2 (by simp)
        | cons b rest2 =>
          have hab : a.col + a.len ≤ b.col := by
            obtain ⟨hc, -⟩ := hs
            exact (List.chain'_cons'.1 hc).1 b rfl
          rcases t2' with _ | t2''
          · have hbm : b = m2 := Option.some.inj h2
            exact hbm ▸ hab
          · have hb2 := ih hs' (t2'' + 1) m2 h2 0 b (Nat.succ_pos _) rfl
            omega
    · rcases t2 with _ | t2'
      · omega
      · exact ih hs' t2' m2 h2 t1' m1 (by omega) h1

/-- `assignHeights` line by line. -/
theorem assignHeights_get? : ∀ (B : List (List Match)) (off : Nat)
    (marks : Nat → Option (Option Nat)) (n : Nat) (bl : List Match),
    B.get? n = some bl →
    (assignHeights off B marks).get? n =
      some (bl.enum.map fun p =>
        { p.2 with stack_height :=
            ((marks (off + (B.take n).flatten.length + p.1)).getD
              p.2.stack_height) }) := by
  intro B
  induction B with
  | nil =>
    intro off marks n bl h
    exact absurd h (by simp)
  | cons l rest ih =>
    intro off marks n bl h
    rcases n with _ | n'
    · have hbl : l = bl := Option.some.inj h
      subst hbl
      show some (l.enum.map fun p => ({ p.2 with
        stack_height := (marks (off + p.1)).getD p.2.stack_height } : Match)) = _
      refine congrArg some (List.map_congr_left fun p _ => ?_)
      obtain ⟨k, mm⟩ := p
      show ({ mm with stack_height := (marks (off + k)).getD mm.stack_height }
        : Match) = _
      rw [show off + ((l :: rest).take 0).flatten.length + k = off + k from by simp]
    · show (assignHeights (off + l.length) rest marks).get? n' = _
      rw [ih (off + l.length) marks n' bl h]
      refine congrArg some (List.map_congr_left fun p _ => ?_)
      obtain ⟨k, mm⟩ := p
      rw [show off + ((l :: rest).take (n' + 1)).flatten.length + k =
        off + l.length + (rest.take n').flatten.length + k from by
          rw [List.take_succ_cons, List.flatten_cons, List.length_append]
          omega]

/-- The resolved buffer's lines, described through the raw lines and the
assignment map. -/
theorem recalc_line (B : List (List Match)) (states : List State) (n : Nat)
    (bl : List Match) (h : B.get? n = some bl) :
    (recalculate_stack_heights ⟨B, states⟩).matches_by_line.get? n =
      some (bl.enum.map fun p =>
        { p.2 with stack_height :=
            (((resolveGo [] B.flatten.enum fun _ => none)
              ((B.take n).flatten.length + p.1)).getD p.2.stack_height) }) := by
  show (assignHeights 0 B (resolveGo [] B.flatten.enum fun _ => none)).get? n = _
  rw [assignHeights_get? B 0 _ n bl h]
  refine congrArg some (List.map_congr_left fun p _ => ?_)
  obtain ⟨k, mm⟩ := p
  rw [show (0 : Nat) + (B.take n).flatten.length + k =
    (B.take n).flatten.length + k from by omega]

/-- The resolved buffer's flattened line prefixes have the raw lengths. -/
theorem recalc_flatlen (B : List (List Match)) (states : List State) (n : Nat) :
    (((recalculate_stack_heights ⟨B, states⟩).matches_by_line.take n)).flatten.length =
      (B.take n).flatten.length := by
  have hBe : (recalculate_stack_heights ⟨B, states⟩).matches_by_line.map
      (List.map eraseH) = B.map (List.map eraseH) := by
    show (assignHeights 0 B _).map (List.map eraseH) = _
    exact assignHeights_map_erase B 0 _
  have h1 := congrArg (fun X : List (List Match) =>
    ((X.take n).flatten.length)) hBe
  simp only [← List.map_take, ← List.map_flatten, List.length_map] at h1
  exact h1

/-- The resolved buffer has the raw total Match count. -/
theorem recalc_totalflatlen (B : List (List Match)) (states : List State) :
    (recalculate_stack_heights ⟨B, states⟩).matches_by_line.flatten.length =
      B.flatten.length := by
  have hBe : (recalculate_stack_heights ⟨B, states⟩).matches_by_line.map
      (List.map eraseH) = B.map (List.map eraseH) := by
    show (assignHeights 0 B _).map (List.map eraseH) = _
    exact assignHeights_map_erase B 0 _
  have h1 := congrArg (fun X : List (List Match) => X.flatten.length) hBe
  simp only [← List.map_flatten, List.length_map] at h1
  exact h1

/-- `lineOf` only reads line lengths. -/
theorem lineOf_congr : ∀ (B B' : List (List Match)),
    B.map (List.map eraseH) = B'.map (List.map eraseH) →
    ∀ x, lineOf B x = lineOf B' x := by
  intro B
  induction B with
  | nil =>
    intro B' h x
    have hB' : B' = [] := by
      have h2 := h.symm
      simp only [List.map_nil] at h2
      rwa [List.map_eq_nil] at h2
    rw [hB']
  | cons l rest ih =>
    intro B' h x
    cases B' with
    | nil => exact absurd h (by simp)
    | cons l' rest' =>
      simp only [List.map_cons, List.cons.injEq] at h
      have hlen : l.length = l'.length := by
        have h2 := congrArg List.length h.1
        simpa using h2
      rw [lineOf_cons, lineOf_cons, hlen, ih rest' h.2]

/-- The forward line scan of `match_pair` finds the first flat-order hit:
lines in order, each line's Matches in order. -/
theorem scan_fwd : ∀ (L : List (List Match)) (base : Nat) (p : Match → Bool)
    (j : Nat) (m : Match),
    L.flatten.get? j = some m → p m = true →
    (∀ t mt, t < j → L.flatten.get? t = some mt → p mt = false) →
    (List.enumFrom base L).findSome?
      (fun q => (q.2.find? p).map fun m' => m'.with_line q.1) =
      some (m.with_line (base + lineOf L j)) := by
  intro L
  induction L with
  | nil =>
    intro base p j m hj
    exact absurd hj (by simp)
  | cons l rest ih =>
    intro base p j m hj hp hfail
    rw [List.flatten_cons] at hj
    rw [List.enumFrom_cons]
    by_cases h : j < l.length
    · rw [List.get?_append h] at hj
      have hfind : l.find? p = some m :=
        find?_first l p j m hj hp fun t mt ht hmt =>
          hfail t mt (by omega) (by
            rw [List.flatten_cons, List.get?_append (by omega)]
            exact hmt)
      have hstep : List.findSome? (fun q : Nat × List Match =>
          (q.2.find? p).map fun m' => m'.with_line q.1)
          ((base, l) :: List.enumFrom (base + 1) rest) =
          some (m.with_line base) :=
        findSome?_cons_some (show ((l.find? p).map fun m' =>
          m'.with_line base) = some (m.with_line base) from by rw [hfind]; rfl)
      rw [hstep, lineOf_cons, if_pos h, Nat.add_zero]
    · have hnone : l.find? p = none := by
        rw [List.find?_eq_none]
        intro x hx
        obtain ⟨n, hn⟩ := List.mem_iff_get?.1 hx
        have hnl : n < l.length := by
          by_contra hge
          rw [List.get?_eq_none.2 (by omega)] at hn
          exact absurd hn (by simp)
        have := hfail n x (by omega) (by
          rw [List.flatten_cons, List.get?_append hnl]
          exact hn)
        simp [this]
      have hstep : List.findSome? (fun q : Nat × List Match =>
          (q.2.find? p).map fun m' => m'.with_line q.1)
          ((base, l) :: List.enumFrom (base + 1) rest) =
          List.findSome? (fun q : Nat × List Match =>
            (q.2.find? p).map fun m' => m'.with_line q.1)
            (List.enumFrom (base + 1) rest) :=
        findSome?_cons_none (show ((l.find? p).map fun m' =>
          m'.with_line base) = none from by rw [hnone]; rfl)
      rw [hstep]
      rw [List.get?_append_right (by omega)] at hj
      rw [ih (base + 1) p (j - l.length) m hj hp fun t mt ht hmt =>
        hfail (l.length + t) mt (by omega) (by
          rw [List.flatten_cons, List.get?_append_right (by omega),
            show l.length + t - l.length = t from by omega]
          exact hmt)]
      rw [lineOf_cons, if_neg h]
      refine congrArg some (congrArg (Match.with_line m) ?_)
      omega

/-- A backward line scan with no hit anywhere returns nothing. -/
theorem scan_bwd_none (L : List (List Match)) (base : Nat) (p : Match → Bool)
    (hfail : ∀ t mt, L.flatten.get? t = some mt → p mt = false) :
    (List.enumFrom base L).reverse.findSome?
      (fun q => (q.2.reverse.find? p).map fun m' => m'.with_line q.1) = none := by
  rw [List.findSome?_eq_none]
  intro x hx
  have hx' := List.mem_reverse.1 hx
  obtain ⟨-, -, hms⟩ := List.mem_enumFrom hx'
  have hnone : x.2.reverse.find? p = none := by
    rw [List.find?_eq_none]
    intro y hy
    have hyL : y ∈ L.flatten := by
      rw [List.mem_flatten]
      refine ⟨x.2, ?_, List.mem_reverse.1 hy⟩
      rw [hms]
      exact List.getElem_mem _
    obtain ⟨n, hn⟩ := List.mem_iff_get?.1 hyL
    have := hfail n y hn
    simp [this]
  rw [hnone]
  rfl

/-- The backward line scan of `match_pair` finds the last flat-order hit:
lines from the last upward, each line's Matches from the right. -/
theorem scan_bwd : ∀ (L : List (List Match)) (base : Nat) (p : Match → Bool)
    (i : Nat) (m : Match),
    L.flatten.get? i = some m → p m = true →
    (∀ t mt, i < t → L.flatten.get? t = some mt → p mt = false) →
    (List.enumFrom base L).reverse.findSome?
      (fun q => (q.2.reverse.find? p).map fun m' => m'.with_line q.1) =
      some (m.with_line (base + lineOf L i)) := by
  intro L
  induction L with
  | nil =>
    intro base p i m hi
    exact absurd hi (by simp)
  | cons l rest ih =>
    intro base p i m hi hp hfail
    rw [List.flatten_cons] at hi
    rw [List.enumFrom_cons, List.reverse_cons, List.findSome?_append]
    by_cases h : i < l.length
    · -- the hit is in the head line; every later line misses
      have h1 : (List.enumFrom (base + 1) rest).reverse.findSome?
          (fun q => (q.2.reverse.find? p).map fun m' => m'.with_line q.1) =
          none :=
        scan_bwd_none rest (base + 1) p fun t mt hmt =>
          hfail (l.length + t) mt (by omega) (by
            rw [List.flatten_cons, List.get?_append_right (by omega),
              show l.length + t - l.length = t from by omega]
            exact hmt)
      rw [h1, Option.none_or]
      rw [List.get?_append h] at hi
      have hfind : l.reverse.find? p = some m :=
        find?_rev_last l p i m hi hp fun t mt ht hmt =>
          hfail t mt (by omega) (by
            have htl : t < l.length := by
              by_contra hge
              rw [List.get?_eq_none.2 (by omega)] at hmt
              exact absurd hmt (by simp)
            rw [List.flatten_cons, List.get?_append htl]
            exact hmt)
      have hstep : List.findSome? (fun q : Nat × List Match =>
          (q.2.reverse.find? p).map fun m' => m'.with_line q.1)
          [(base, l)] = some (m.with_line base) :=
        findSome?_cons_some (show ((l.reverse.find? p).map fun m' =>
          m'.with_line base) = some (m.with_line base) from by rw [hfind]; rfl)
      rw [hstep, lineOf_cons, if_pos h, Nat.add_zero]
    · -- the hit is past the head line
      rw [List.get?_append_right (by omega)] at hi
      have h1 := ih (base + 1) p (i - l.length) m hi hp fun t mt ht hmt =>
        hfail (l.length + t) mt (by omega) (by
          rw [List.flatten_cons, List.get?_append_right (by omega),
            show l.length + t - l.length = t from by omega]
          exact hmt)
      rw [h1]
      show some (m.with_line (base + 1 + lineOf rest (i - l.length))) = _
      rw [lineOf_cons, if_neg h]
      refine congrArg some (congrArg (Match.with_line m) ?_)
      omega

/-! ### Assembly machinery for the pair queries (C1) -/

/-- An index with a `get?` hit is in range. -/
theorem get?_some_lt {l : List α} {n : Nat} {a : α} (h : l.get? n = some a) :
    n < l.length := by
  by_contra hc
  rw [List.get?_eq_none.2 (by omega)] at h
  exact Option.noConfusion h

/-- Every in-range index has a `get?` hit. -/
theorem get?_of_lt {l : List α} {n : Nat} (h : n < l.length) :
    ∃ a, l.get? n = some a :=
  ⟨l.get ⟨n, h⟩, List.get?_eq_get h⟩

/-- `getD` through a `get?` hit. -/
theorem getD_of_get? {l : List Nat} {n a : Nat} (d : Nat)
    (h : l.get? n = some a) : l.getD n d = a := by
  rw [List.getD_eq_get?, h]
  rfl

/-- Shifting an enumeration's indices re-bases it. -/
theorem enumFrom_map_shift : ∀ (L : List (List Match)) (j k : Nat),
    ((List.enumFrom j L).map fun (n, ms) => (n + k, ms)) =
      List.enumFrom (j + k) L := by
  intro L
  induction L with
  | nil => intro j k; rfl
  | cons l rest ih =>
    intro j k
    rw [List.enumFrom_cons, List.enumFrom_cons, List.map_cons, ih (j + 1) k,
      show j + 1 + k = j + k + 1 from by omega]

/-- The index-shifted enumeration used by the forward scan of
`match_pair` is a re-based enumeration. -/
theorem enum_map_shift (L : List (List Match)) (k : Nat) :
    (L.enum.map fun (n, ms) => (n + k, ms)) = List.enumFrom k L := by
  show ((List.enumFrom 0 L).map fun (n, ms) => (n + k, ms)) = _
  rw [enumFrom_map_shift L 0 k, Nat.zero_add]

/-- Flattened line-prefix lengths grow with the prefix. -/
theorem flatlen_mono : ∀ (B : List (List Match)) (n m : Nat), n ≤ m →
    (B.take n).flatten.length ≤ (B.take m).flatten.length := by
  intro B
  induction B with
  | nil =>
    intro n m _
    rw [List.take_nil, List.take_nil]
  | cons l rest ih =>
    intro n m hnm
    rcases n with _ | n'
    · simp
    · rcases m with _ | m'
      · omega
      · rw [List.take_succ_cons, List.take_succ_cons, List.flatten_cons,
          List.flatten_cons, List.length_append, List.length_append]
        exact Nat.add_le_add_left (ih n' m' (by omega)) _

/-- One more line in a flattened prefix. -/
theorem flatlen_succ : ∀ (B : List (List Match)) (n : Nat) (bl : List Match),
    B.get? n = some bl →
    (B.take (n + 1)).flatten.length = (B.take n).flatten.length + bl.length := by
  intro B
  induction B with
  | nil =>
    intro n bl h
    exact absurd h (by simp)
  | cons l rest ih =>
    intro n bl h
    rcases n with _ | n'
    · have : l = bl := Option.some.inj h
      subst this
      simp
    · rw [List.take_succ_cons, List.take_succ_cons, List.flatten_cons,
        List.flatten_cons, List.length_append, List.length_append,
        ih n' bl h]
      omega

/-- The resolved buffer's line `n`, entry by entry: each Match keeps its
raw fields with `stack_height` overridden by the assignment map at its
document-order index. -/
theorem resolved_line_get (B : List (List Match)) (states : List State)
    (n : Nat) (bl : List Match) (h : B.get? n = some bl) :
    ∃ bl',
      (recalculate_stack_heights ⟨B, states⟩).matches_by_line.get? n = some bl' ∧
      bl'.length = bl.length ∧
      ∀ t m, bl.get? t = some m → bl'.get? t =
        some { m with stack_height :=
          ((resolveGo [] B.flatten.enum fun _ => none)
            ((B.take n).flatten.length + t)).getD m.stack_height } := by
  refine ⟨_, recalc_line B states n bl h, ?_, ?_⟩
  · rw [List.length_map, List.enum_length]
  · intro t m ht
    rw [List.get?_map, List.enum_get? bl t, ht]
    rfl

/-- The resolved buffer's flattened stream, entry by entry. -/
theorem resolved_flat (B : List (List Match)) (states : List State)
    (u : Nat) (mu : Match) (h : B.flatten.get? u = some mu) :
    (recalculate_stack_heights ⟨B, states⟩).matches_by_line.flatten.get? u =
      some { mu with stack_height :=
        ((resolveGo [] B.flatten.enum fun _ => none) u).getD mu.stack_height } := by
  show (assignHeights 0 B _).flatten.get? u = _
  rw [assignHeights_flatten, List.get?_map, List.enumFrom_get? 0 B.flatten u, h]
  show some _ = _
  rw [Nat.zero_add]

/-- `match_at` on a resolved buffer, queried at the first column of a
Match of a sorted line, returns that Match with its assigned height. -/
theorem match_at_entry (B : List (List Match)) (states : List State)
    (n : Nat) (bl : List Match) (t : Nat) (m : Match)
    (hB : B.get? n = some bl) (hbl : bl.get? t = some m)
    (hs : LineSorted bl) :
    match_at (recalculate_stack_heights ⟨B, states⟩) n m.col =
      some { m with stack_height :=
        ((resolveGo [] B.flatten.enum fun _ => none)
          ((B.take n).flatten.length + t)).getD m.stack_height } := by
  obtain ⟨bl', hbl', hlen, hent⟩ := resolved_line_get B states n bl hB
  show (Option.bind ((recalculate_stack_heights
      ⟨B, states⟩).matches_by_line.get? n) fun ms => ms.find? fun mm =>
    decide (mm.col ≤ m.col ∧ m.col < mm.col + mm.len)) = _
  rw [hbl']
  show (bl'.find? fun mm =>
    decide (mm.col ≤ m.col ∧ m.col < mm.col + mm.len)) = _
  refine find?_first bl' _ t _ (hent t m hbl) ?_ ?_
  · refine decide_eq_true ?_
    show m.col ≤ m.col ∧ m.col < m.col + m.len
    have hml : 1 ≤ m.len := hs.2 m (List.get?_mem hbl)
    exact ⟨Nat.le_refl _, by omega⟩
  · intro t' mt' ht' hmt'
    have htlt : t' < bl.length := by
      have := get?_some_lt hmt'
      omega
    obtain ⟨m1, hm1⟩ := get?_of_lt htlt
    have hm1' := hent t' m1 hm1
    rw [hm1'] at hmt'
    have hmt'' : ({ m1 with stack_height :=
        ((resolveGo [] B.flatten.enum fun _ => none)
          ((B.take n).flatten.length + t')).getD m1.stack_height } : Match) =
        mt' := Option.some.inj hmt'
    have hcols : m1.col + m1.len ≤ m.col :=
      lineSorted_le bl hs t m hbl t' m1 ht' hm1
    refine decide_eq_false ?_
    rw [← hmt'']
    show ¬(m1.col ≤ m.col ∧ m.col < m1.col + m1.len)
    omega



/-- `match_pair` at an opening Match that passes the unmatched-delimiter
guard reduces to the forward scan. -/
theorem match_pair_opening (b : ParsedBuffer) (line_number col : Nat)
    (m0 : Match) (hma : match_at b line_number col = some m0)
    (hguard : ¬(m0.token.isDelimiter ∧ m0.stack_height = none))
    (hk : m0.kind = Kind.opening) :
    match_pair b line_number col =
      (((b.matches_by_line.drop line_number).enum.map fun (n, ms) =>
          (n + line_number, ms)).findSome? fun (ln, ms) =>
        (ms.find? fun m =>
          decide ((line_number ≠ ln ∨ m.col > col) ∧
            m0.token = m.token ∧ m0.stack_height = m.stack_height)).map
          fun m => m.with_line ln).map
        fun cl => (m0.with_line line_number, cl) := by
  unfold match_pair
  rw [hma]
  show (if m0.token.isDelimiter ∧ m0.stack_height = none then none
    else if m0.kind = Kind.opening then
      (((b.matches_by_line.drop line_number).enum.map fun (n, ms) =>
          (n + line_number, ms)).findSome? fun (ln, ms) =>
        (ms.find? fun m =>
          decide ((line_number ≠ ln ∨ m.col > col) ∧
            m0.token = m.token ∧ m0.stack_height = m.stack_height)).map
          fun m => m.with_line ln).map
        fun cl => (m0.with_line line_number, cl)
    else if m0.kind = Kind.closing then
      (((b.matches_by_line.take (line_number + 1)).enum).reverse.findSome?
        fun (ln, ms) =>
          (ms.reverse.find? fun m =>
            decide ((line_number ≠ ln ∨ m.col < col) ∧
              m0.token = m.token ∧ m0.stack_height = m.stack_height)).map
            fun m => m.with_line ln).map
        fun op => (op, m0.with_line line_number)
    else none) = _
  rw [if_neg hguard, if_pos hk]

/-- `match_pair` at a closing Match that passes the unmatched-delimiter
guard reduces to the backward scan. -/
theorem match_pair_closing (b : ParsedBuffer) (line_number col : Nat)
    (m0 : Match) (hma : match_at b line_number col = some m0)
    (hguard : ¬(m0.token.isDelimiter ∧ m0.stack_height = none))
    (hk : m0.kind = Kind.closing) :
    match_pair b line_number col =
      (((b.matches_by_line.take (line_number + 1)).enum).reverse.findSome?
        fun (ln, ms) =>
          (ms.reverse.find? fun m =>
            decide ((line_number ≠ ln ∨ m.col < col) ∧
              m0.token = m.token ∧ m0.stack_height = m.stack_height)).map
            fun m => m.with_line ln).map
        fun op => (op, m0.with_line line_number) := by
  unfold match_pair
  rw [hma]
  show (if m0.token.isDelimiter ∧ m0.stack_height = none then none
    else if m0.kind = Kind.opening then
      (((b.matches_by_line.drop line_number).enum.map fun (n, ms) =>
          (n + line_number, ms)).findSome? fun (ln, ms) =>
        (ms.find? fun m =>
          decide ((line_number ≠ ln ∨ m.col > col) ∧
            m0.token = m.token ∧ m0.stack_height = m.stack_height)).map
          fun m => m.with_line ln).map
        fun cl => (m0.with_line line_number, cl)
    else if m0.kind = Kind.closing then
      (((b.matches_by_line.take (line_number + 1)).enum).reverse.findSome?
        fun (ln, ms) =>
          (ms.reverse.find? fun m =>
            decide ((line_number ≠ ln ∨ m.col < col) ∧
              m0.token = m.token ∧ m0.stack_height = m.stack_height)).map
            fun m => m.with_line ln).map
        fun op => (op, m0.with_line line_number)
    else none) = _
  rw [if_neg hguard,
    if_neg (show ¬m0.kind = Kind.opening from by rw [hk]; decide),
    if_pos hk]


/-- A line entry sits in the flattened stream at its line-prefix offset. -/
theorem flat_get_of_line : ∀ (B : List (List Match)) (n : Nat)
    (bl : List Match) (t : Nat) (m : Match),
    B.get? n = some bl → bl.get? t = some m →
    B.flatten.get? ((B.take n).flatten.length + t) = some m := by
  intro B
  induction B with
  | nil =>
    intro n bl t m h
    exact absurd h (by simp)
  | cons l rest ih =>
    intro n bl t m hB hbl
    rcases n with _ | n'
    · have : l = bl := Option.some.inj hB
      subst this
      rw [List.flatten_cons]
      show List.get? _ (0 + t) = _
      rw [Nat.zero_add, List.get?_append (get?_some_lt hbl)]
      exact hbl
    · rw [List.flatten_cons, List.take_succ_cons, List.flatten_cons,
        List.length_append,
        List.get?_append_right (by omega),
        show l.length + (rest.take n').flatten.length + t - l.length =
          (rest.take n').flatten.length + t from by omega]
      exact ih n' bl t m hB hbl


/-- Dropping up to a `get?` hit exposes it as the head. -/
theorem drop_eq_cons_of_get? {l : List (List Match)} {n : Nat}
    {a : List Match} (h : l.get? n = some a) :
    l.drop n = a :: l.drop (n + 1) := by
  have hn : n < l.length := get?_some_lt h
  have h2 : l.get? n = some (l.get ⟨n, hn⟩) := List.get?_eq_get hn
  have h3 : l.get ⟨n, hn⟩ = a := Option.some.inj (h2.symm.trans h)
  rw [List.drop_eq_getElem_cons hn]
  rw [show l[n] = a from h3]

/-- The opener-side query of a resolved balanced pair: `match_pair` at the
opening Match's first column returns the opener and its syntactic partner,
both carrying the pair's depth. -/
theorem pair_fwd (B : List (List Match)) (states : List State)
    (hsort : BufSorted B)
    (i j : Nat) (mi mj : Match)
    (hi : B.flatten.get? i = some mi) (hj : B.flatten.get? j = some mj)
    (hij : i < j)
    (hki : mi.kind = Kind.opening)
    (htok : mi.token = mj.token)
    (dp : Nat)
    (hmarks : ∀ u, u < B.flatten.length →
      resolveGo [] B.flatten.enum (fun _ => none) u =
        some (some ((sDepths B.flatten).getD u 0)))
    (hdpi : (sDepths B.flatten).getD i 0 = dp)
    (hdpj : (sDepths B.flatten).getD j 0 = dp)
    (hbet : ∀ t dt, i < t → t < j → (sDepths B.flatten).get? t = some dt →
      dp < dt) :
    match_pair (recalculate_stack_heights ⟨B, states⟩) (lineOf B i) mi.col =
      some (({ mi with stack_height := some dp }).with_line (lineOf B i),
        ({ mj with stack_height := some dp }).with_line (lineOf B j)) := by
  obtain ⟨bli, hBli, hblii, hfli, hlti⟩ := pos_decomp B i mi hi
  obtain ⟨blj, hBlj, hbljj, hflj, hltj⟩ := pos_decomp B j mj hj
  have hsli : LineSorted bli := hsort bli (List.get?_mem hBli)
  have hjlen : j < B.flatten.length := get?_some_lt hj
  have hilen : i < B.flatten.length := by omega
  have hfailu : ∀ u mu, i < u → u < j → B.flatten.get? u = some mu →
      ¬((resolveGo [] B.flatten.enum fun _ => none) u).getD mu.stack_height =
        some dp := by
    intro u mu hiu huj hu
    have hulen : u < B.flatten.length := by omega
    have hdlen : u < (sDepths B.flatten).length := by
      show u < (sDepthsGo 0 B.flatten).length
      rw [sDepthsGo_length B.flatten 0]
      exact hulen
    obtain ⟨du, hdu⟩ := get?_of_lt hdlen
    have hlt := hbet u du hiu huj hdu
    rw [hmarks u hulen, getD_of_get? 0 hdu]
    simp only [Option.getD_some]
    intro heq
    exact absurd (Option.some.inj heq) (by omega)
  have hmarki : (resolveGo [] B.flatten.enum fun _ => none) i =
      some (some dp) := by rw [hmarks i hilen, hdpi]
  have hmarkj : (resolveGo [] B.flatten.enum fun _ => none) j =
      some (some dp) := by rw [hmarks j hjlen, hdpj]
  have hma : match_at (recalculate_stack_heights ⟨B, states⟩)
      (lineOf B i) mi.col = some { mi with stack_height := some dp } := by
    have h1 := match_at_entry B states (lineOf B i) bli (idxIn B i) mi
      hBli hblii hsli
    rw [hfli, hmarki] at h1
    simpa using h1
  rw [match_pair_opening _ _ _ _ hma
    (fun hcon => Option.noConfusion hcon.2) hki]
  rw [enum_map_shift]
  obtain ⟨bli', hbli', hleni, henti⟩ := resolved_line_get B states
    (lineOf B i) bli hBli
  have hdropcons : (recalculate_stack_heights ⟨B, states⟩).matches_by_line.drop
      (lineOf B i) = bli' ::
      (recalculate_stack_heights ⟨B, states⟩).matches_by_line.drop
        (lineOf B i + 1) := drop_eq_cons_of_get? hbli'
  rw [hdropcons, List.enumFrom_cons]
  by_cases hsame : lineOf B j = lineOf B i
  · -- the closer sits on the opener's line
    rw [hsame]
    have hblij : blj = bli := by
      rw [hsame] at hBlj
      exact Option.some.inj (hBlj.symm.trans hBli)
    subst hblij
    have hfltake : (B.take (lineOf B j)).flatten.length =
        (B.take (lineOf B i)).flatten.length := by rw [hsame]
    have htij : idxIn B i < idxIn B j := by omega
    have hcols : mi.col + mi.len ≤ mj.col :=
      lineSorted_le blj hsli (idxIn B j) mj hbljj (idxIn B i) mi htij hblii
    have hmilen : 1 ≤ mi.len := hsli.2 mi (List.get?_mem hblii)
    have hcj : bli'.get? (idxIn B j) =
        some { mj with stack_height := some dp } := by
      have h1 := henti (idxIn B j) mj hbljj
      rw [show (B.take (lineOf B i)).flatten.length + idxIn B j = j from by
        omega, hmarkj] at h1
      simpa using h1
    have hfind : (bli'.find? fun m =>
        decide ((lineOf B i ≠ lineOf B i ∨ m.col > mi.col) ∧
          ({ mi with stack_height := some dp } : Match).token = m.token ∧
          ({ mi with stack_height := some dp } : Match).stack_height =
            m.stack_height)) =
        some { mj with stack_height := some dp } := by
      refine find?_first bli' _ (idxIn B j) _ hcj
        (decide_eq_true ⟨Or.inr (show mj.col > mi.col from by omega), htok,
          rfl⟩) ?_
      intro t' mt' ht' hmt'
      have ht'len : t' < blj.length := by
        have h0 := get?_some_lt hmt'
        omega
      obtain ⟨m1, hm1⟩ := get?_of_lt ht'len
      have hent1 := henti t' m1 hm1
      have hmt1 : mt' = { m1 with stack_height :=
          (((resolveGo [] B.flatten.enum fun _ => none)
            ((B.take (lineOf B i)).flatten.length + t')).getD
            m1.stack_height) } := Option.some.inj (hmt'.symm.trans hent1)
      subst hmt1
      refine decide_eq_false ?_
      rintro ⟨h1, -, h3⟩
      rcases Nat.lt_trichotomy t' (idxIn B i) with hlt | heq | hgt
      · have hc1 : m1.col + m1.len ≤ mi.col :=
          lineSorted_le blj hsli (idxIn B i) mi hblii t' m1 hlt hm1
        rcases h1 with h1 | h1
        · exact h1 rfl
        · have h1' : m1.col > mi.col := h1
          omega
      · have hm1i : m1 = mi := by
          rw [heq] at hm1
          exact Option.some.inj (hm1.symm.trans hblii)
        rcases h1 with h1 | h1
        · exact h1 rfl
        · have h1' : m1.col > mi.col := h1
          rw [hm1i] at h1'
          omega
      · have hu1 : i < (B.take (lineOf B i)).flatten.length + t' := by omega
        have hu2 : (B.take (lineOf B i)).flatten.length + t' < j := by omega
        have hraw := flat_get_of_line B (lineOf B i) blj t' m1 hBli hm1
        exact hfailu _ m1 hu1 hu2 hraw h3.symm
    have hstep : List.findSome? (fun q : Nat × List Match =>
        (q.2.find? fun m =>
          decide ((lineOf B i ≠ q.1 ∨ m.col > mi.col) ∧
            ({ mi with stack_height := some dp } : Match).token = m.token ∧
            ({ mi with stack_height := some dp } : Match).stack_height =
              m.stack_height)).map fun m => m.with_line q.1)
        ((lineOf B i, bli') :: List.enumFrom (lineOf B i + 1)
          ((recalculate_stack_heights ⟨B, states⟩).matches_by_line.drop
            (lineOf B i + 1))) =
        some (({ mj with stack_height := some dp } : Match).with_line
          (lineOf B i)) :=
      findSome?_cons_some (show ((bli'.find? fun m =>
        decide ((lineOf B i ≠ lineOf B i ∨ m.col > mi.col) ∧
          ({ mi with stack_height := some dp } : Match).token = m.token ∧
          ({ mi with stack_height := some dp } : Match).stack_height =
            m.stack_height)).map fun m => m.with_line (lineOf B i)) =
        some (({ mj with stack_height := some dp } : Match).with_line
          (lineOf B i)) from by rw [hfind]; rfl)
    exact congrArg (Option.map fun cl =>
      (({ mi with stack_height := some dp } : Match).with_line (lineOf B i),
        cl)) hstep
  · -- the closer sits on a strictly later line
    have hslj : LineSorted blj := hsort blj (List.get?_mem hBlj)
    have hlij : lineOf B i < lineOf B j := by
      rcases Nat.lt_or_ge (lineOf B i) (lineOf B j) with h | h
      · exact h
      · exfalso
        have h1 : lineOf B j + 1 ≤ lineOf B i := by
          rcases Nat.eq_or_lt_of_le h with he | hl
          · exact absurd he hsame
          · omega
        have h2 := flatlen_mono B (lineOf B j + 1) (lineOf B i) h1
        have h3 := flatlen_succ B (lineOf B j) blj hBlj
        omega
    have hflj_lb : (B.take (lineOf B i + 1)).flatten.length ≤
        (B.take (lineOf B j)).flatten.length :=
      flatlen_mono B _ _ (by omega)
    have hfli_succ := flatlen_succ B (lineOf B i) bli hBli
    have hfindnone : (bli'.find? fun m =>
        decide ((lineOf B i ≠ lineOf B i ∨ m.col > mi.col) ∧
          ({ mi with stack_height := some dp } : Match).token = m.token ∧
          ({ mi with stack_height := some dp } : Match).stack_height =
            m.stack_height)) = none := by
      rw [List.find?_eq_none]
      intro x hx
      obtain ⟨t', hmt'⟩ := List.mem_iff_get?.1 hx
      have ht'len : t' < bli.length := by
        have h0 := get?_some_lt hmt'
        omega
      obtain ⟨m1, hm1⟩ := get?_of_lt ht'len
      have hent1 := henti t' m1 hm1
      have hmt1 : x = { m1 with stack_height :=
          (((resolveGo [] B.flatten.enum fun _ => none)
            ((B.take (lineOf B i)).flatten.length + t')).getD
            m1.stack_height) } := Option.some.inj (hmt'.symm.trans hent1)
      subst hmt1
      simp only [decide_eq_true_eq]
      rintro ⟨h1, -, h3⟩
      rcases Nat.lt_trichotomy t' (idxIn B i) with hlt | heq | hgt
      · have hc1 : m1.col + m1.len ≤ mi.col :=
          lineSorted_le bli hsli (idxIn B i) mi hblii t' m1 hlt hm1
        rcases h1 with h1 | h1
        · exact h1 rfl
        · have h1' : m1.col > mi.col := h1
          omega
      · have hm1i : m1 = mi := by
          rw [heq] at hm1
          exact Option.some.inj (hm1.symm.trans hblii)
        rcases h1 with h1 | h1
        · exact h1 rfl
        · have h1' : m1.col > mi.col := h1
          rw [hm1i] at h1'
          omega
      · have hu1 : i < (B.take (lineOf B i)).flatten.length + t' := by omega
        have hu2 : (B.take (lineOf B i)).flatten.length + t' < j := by omega
        have hraw := flat_get_of_line B (lineOf B i) bli t' m1 hBli hm1
        exact hfailu _ m1 hu1 hu2 hraw h3.symm
    have hstepn : List.findSome? (fun q : Nat × List Match =>
        (q.2.find? fun m =>
          decide ((lineOf B i ≠ q.1 ∨ m.col > mi.col) ∧
            ({ mi with stack_height := some dp } : Match).token = m.token ∧
            ({ mi with stack_height := some dp } : Match).stack_height =
              m.stack_height)).map fun m => m.with_line q.1)
        ((lineOf B i, bli') :: List.enumFrom (lineOf B i + 1)
          ((recalculate_stack_heights ⟨B, states⟩).matches_by_line.drop
            (lineOf B i + 1))) =
        List.findSome? (fun q : Nat × List Match =>
        (q.2.find? fun m =>
          decide ((lineOf B i ≠ q.1 ∨ m.col > mi.col) ∧
            ({ mi with stack_height := some dp } : Match).token = m.token ∧
            ({ mi with stack_height := some dp } : Match).stack_height =
              m.stack_height)).map fun m => m.with_line q.1)
        (List.enumFrom (lineOf B i + 1)
          ((recalculate_stack_heights ⟨B, states⟩).matches_by_line.drop
            (lineOf B i + 1))) :=
      findSome?_cons_none (show ((bli'.find? fun m =>
        decide ((lineOf B i ≠ lineOf B i ∨ m.col > mi.col) ∧
          ({ mi with stack_height := some dp } : Match).token = m.token ∧
          ({ mi with stack_height := some dp } : Match).stack_height =
            m.stack_height)).map fun m => m.with_line (lineOf B i)) = none
        from by rw [hfindnone]; rfl)
    have hcongr : List.findSome? (fun q : Nat × List Match =>
        (q.2.find? fun m =>
          decide ((lineOf B i ≠ q.1 ∨ m.col > mi.col) ∧
            ({ mi with stack_height := some dp } : Match).token = m.token ∧
            ({ mi with stack_height := some dp } : Match).stack_height =
              m.stack_height)).map fun m => m.with_line q.1)
        (List.enumFrom (lineOf B i + 1)
          ((recalculate_stack_heights ⟨B, states⟩).matches_by_line.drop
            (lineOf B i + 1))) =
        List.findSome? (fun q : Nat × List Match =>
          (q.2.find? fun m => decide (mi.token = m.token ∧
            (some dp : Option Nat) = m.stack_height)).map
            fun m => m.with_line q.1)
        (List.enumFrom (lineOf B i + 1)
          ((recalculate_stack_heights ⟨B, states⟩).matches_by_line.drop
            (lineOf B i + 1))) := by
      refine findSome?_congr _ fun q hq => ?_
      obtain ⟨qa, qb⟩ := q
      have hge : lineOf B i + 1 ≤ qa := List.le_fst_of_mem_enumFrom hq
      refine congrArg (Option.map _) (find?_congr qb fun m _ => ?_)
      refine decide_eq_decide.2 ?_
      constructor
      · rintro ⟨-, h2, h3⟩
        exact ⟨h2, h3⟩
      · rintro ⟨h2, h3⟩
        exact ⟨Or.inl (by omega), h2, h3⟩
    have hLflat : ∀ t, (((recalculate_stack_heights
        ⟨B, states⟩).matches_by_line.drop (lineOf B i + 1)).flatten.get? t) =
        (recalculate_stack_heights ⟨B, states⟩).matches_by_line.flatten.get?
          ((B.take (lineOf B i + 1)).flatten.length + t) := by
      intro t
      rw [flatten_drop, List.get?_drop, recalc_flatlen]
    have hr : (B.take (lineOf B i + 1)).flatten.length +
        (j - (B.take (lineOf B i + 1)).flatten.length) = j := by omega
    have hBfj : (recalculate_stack_heights
        ⟨B, states⟩).matches_by_line.flatten.get? j =
        some { mj with stack_height := some dp } := by
      have h0 := resolved_flat B states j mj hj
      rw [hmarkj] at h0
      simpa using h0
    have hsf := scan_fwd ((recalculate_stack_heights
        ⟨B, states⟩).matches_by_line.drop (lineOf B i + 1)) (lineOf B i + 1)
      (fun m => decide (mi.token = m.token ∧
        (some dp : Option Nat) = m.stack_height))
      (j - (B.take (lineOf B i + 1)).flatten.length)
      { mj with stack_height := some dp }
      (by rw [hLflat, hr]; exact hBfj)
      (decide_eq_true ⟨htok, rfl⟩)
      (by
        intro t mt ht hmt
        rw [hLflat t] at hmt
        have huj : (B.take (lineOf B i + 1)).flatten.length + t < j := by omega
        have hui : i < (B.take (lineOf B i + 1)).flatten.length + t := by omega
        have hulen : (B.take (lineOf B i + 1)).flatten.length + t <
            B.flatten.length := by omega
        obtain ⟨mraw, hmraw⟩ := get?_of_lt hulen
        have h0 := resolved_flat B states _ mraw hmraw
        have hmt1 : mt = { mraw with stack_height :=
            (((resolveGo [] B.flatten.enum fun _ => none)
              ((B.take (lineOf B i + 1)).flatten.length + t)).getD
              mraw.stack_height) } := Option.some.inj (hmt.symm.trans h0)
        subst hmt1
        refine decide_eq_false ?_
        rintro ⟨-, h3⟩
        exact hfailu _ mraw hui huj hmraw h3.symm)
    have hdr : ((recalculate_stack_heights ⟨B, states⟩).matches_by_line.drop
        (lineOf B i + 1)).map (List.map eraseH) =
        (B.drop (lineOf B i + 1)).map (List.map eraseH) := by
      rw [List.map_drop, List.map_drop,
        show (recalculate_stack_heights ⟨B, states⟩).matches_by_line.map
          (List.map eraseH) = B.map (List.map eraseH) from
          assignHeights_map_erase B 0 _]
    have hBlen : lineOf B i + 1 ≤ B.length := by
      have := get?_some_lt hBlj
      omega
    have hline : lineOf B i + 1 + lineOf ((recalculate_stack_heights
        ⟨B, states⟩).matches_by_line.drop (lineOf B i + 1))
        (j - (B.take (lineOf B i + 1)).flatten.length) = lineOf B j := by
      rw [lineOf_congr _ _ hdr]
      have h1 := lineOf_shift (lineOf B i + 1) B
        (j - (B.take (lineOf B i + 1)).flatten.length) hBlen
      rw [hr] at h1
      rw [← h1]
    have hfinal : List.findSome? (fun q : Nat × List Match =>
        (q.2.find? fun m => decide (mi.token = m.token ∧
          (some dp : Option Nat) = m.stack_height)).map
          fun m => m.with_line q.1)
        (List.enumFrom (lineOf B i + 1)
          ((recalculate_stack_heights ⟨B, states⟩).matches_by_line.drop
            (lineOf B i + 1))) =
        some (({ mj with stack_height := some dp } : Match).with_line
          (lineOf B j)) := by
      rw [hsf, hline]
    exact congrArg (Option.map fun cl =>
      (({ mi with stack_height := some dp } : Match).with_line (lineOf B i),
        cl)) (hstepn.trans (hcongr.trans hfinal))


/-- `take` one past a `get?` hit appends the hit. -/
theorem take_succ_of_get? {l : List (List Match)} {n : Nat}
    {a : List Match} (h : l.get? n = some a) :
    l.take (n + 1) = l.take n ++ [a] := by
  rw [List.take_succ, ← List.get?_eq_getElem?, h]
  rfl

/-- Enumerating a list with one line appended. -/
theorem enum_append_singleton (L : List (List Match)) (a : List Match) :
    (L ++ [a]).enum = L.enum ++ [(L.length, a)] := by
  show List.enumFrom 0 (L ++ [a]) = _
  rw [List.enumFrom_append, Nat.zero_add]
  rfl


/-- The closer-side query of a resolved balanced pair: `match_pair` at the
closing Match's first column returns the same pair as the opener's query. -/
theorem pair_bwd (B : List (List Match)) (states : List State)
    (hsort : BufSorted B)
    (i j : Nat) (mi mj : Match)
    (hi : B.flatten.get? i = some mi) (hj : B.flatten.get? j = some mj)
    (hij : i < j)
    (hkj : mj.kind = Kind.closing)
    (htok : mi.token = mj.token)
    (dp : Nat)
    (hmarks : ∀ u, u < B.flatten.length →
      resolveGo [] B.flatten.enum (fun _ => none) u =
        some (some ((sDepths B.flatten).getD u 0)))
    (hdpi : (sDepths B.flatten).getD i 0 = dp)
    (hdpj : (sDepths B.flatten).getD j 0 = dp)
    (hbet : ∀ t dt, i < t → t < j → (sDepths B.flatten).get? t = some dt →
      dp < dt) :
    match_pair (recalculate_stack_heights ⟨B, states⟩) (lineOf B j) mj.col =
      some (({ mi with stack_height := some dp }).with_line (lineOf B i),
        ({ mj with stack_height := some dp }).with_line (lineOf B j)) := by
  obtain ⟨bli, hBli, hblii, hfli, hlti⟩ := pos_decomp B i mi hi
  obtain ⟨blj, hBlj, hbljj, hflj, hltj⟩ := pos_decomp B j mj hj
  have hsli : LineSorted bli := hsort bli (List.get?_mem hBli)
  have hslj : LineSorted blj := hsort blj (List.get?_mem hBlj)
  have hjlen : j < B.flatten.length := get?_some_lt hj
  have hilen : i < B.flatten.length := by omega
  have hfailu : ∀ u mu, i < u → u < j → B.flatten.get? u = some mu →
      ¬((resolveGo [] B.flatten.enum fun _ => none) u).getD mu.stack_height =
        some dp := by
    intro u mu hiu huj hu
    have hulen : u < B.flatten.length := by omega
    have hdlen : u < (sDepths B.flatten).length := by
      show u < (sDepthsGo 0 B.flatten).length
      rw [sDepthsGo_length B.flatten 0]
      exact hulen
    obtain ⟨du, hdu⟩ := get?_of_lt hdlen
    have hlt := hbet u du hiu huj hdu
    rw [hmarks u hulen, getD_of_get? 0 hdu]
    simp only [Option.getD_some]
    intro heq
    exact absurd (Option.some.inj heq) (by omega)
  have hmarki : (resolveGo [] B.flatten.enum fun _ => none) i =
      some (some dp) := by rw [hmarks i hilen, hdpi]
  have hmarkj : (resolveGo [] B.flatten.enum fun _ => none) j =
      some (some dp) := by rw [hmarks j hjlen, hdpj]
  have hma : match_at (recalculate_stack_heights ⟨B, states⟩)
      (lineOf B j) mj.col = some { mj with stack_height := some dp } := by
    have h1 := match_at_entry B states (lineOf B j) blj (idxIn B j) mj
      hBlj hbljj hslj
    rw [hflj, hmarkj] at h1
    simpa using h1
  rw [match_pair_closing _ _ _ _ hma
    (fun hcon => Option.noConfusion hcon.2) hkj]
  obtain ⟨blj', hblj', hlenj, hentj⟩ := resolved_line_get B states
    (lineOf B j) blj hBlj
  have hljBlen' : lineOf B j <
      (recalculate_stack_heights ⟨B, states⟩).matches_by_line.length :=
    get?_some_lt hblj'
  rw [take_succ_of_get? hblj', enum_append_singleton,
    show ((recalculate_stack_heights ⟨B, states⟩).matches_by_line.take
      (lineOf B j)).length = lineOf B j from by
        rw [List.length_take]; omega,
    List.reverse_append]
  by_cases hsame : lineOf B i = lineOf B j
  · -- the opener sits on the closer's line
    rw [hsame]
    have hblij : bli = blj := by
      rw [hsame] at hBli
      exact Option.some.inj (hBli.symm.trans hBlj)
    subst hblij
    have hfltake : (B.take (lineOf B i)).flatten.length =
        (B.take (lineOf B j)).flatten.length := by rw [hsame]
    have htij : idxIn B i < idxIn B j := by omega
    have hcols : mi.col + mi.len ≤ mj.col :=
      lineSorted_le bli hslj (idxIn B j) mj hbljj (idxIn B i) mi htij hblii
    have hmilen : 1 ≤ mi.len := hslj.2 mi (List.get?_mem hblii)
    have hmjlen : 1 ≤ mj.len := hslj.2 mj (List.get?_mem hbljj)
    have hci : blj'.get? (idxIn B i) =
        some { mi with stack_height := some dp } := by
      have h1 := hentj (idxIn B i) mi hblii
      rw [show (B.take (lineOf B j)).flatten.length + idxIn B i = i from by
        omega, hmarki] at h1
      simpa using h1
    have hfind : (blj'.reverse.find? fun m =>
        decide ((lineOf B j ≠ lineOf B j ∨ m.col < mj.col) ∧
          ({ mj with stack_height := some dp } : Match).token = m.token ∧
          ({ mj with stack_height := some dp } : Match).stack_height =
            m.stack_height)) =
        some { mi with stack_height := some dp } := by
      refine find?_rev_last blj' _ (idxIn B i) _ hci
        (decide_eq_true ⟨Or.inr (show mi.col < mj.col from by omega),
          htok.symm, rfl⟩) ?_
      intro t' mt' ht' hmt'
      have ht'len : t' < bli.length := by
        have h0 := get?_some_lt hmt'
        omega
      obtain ⟨m1, hm1⟩ := get?_of_lt ht'len
      have hent1 := hentj t' m1 hm1
      have hmt1 : mt' = { m1 with stack_height :=
          (((resolveGo [] B.flatten.enum fun _ => none)
            ((B.take (lineOf B j)).flatten.length + t')).getD
            m1.stack_height) } := Option.some.inj (hmt'.symm.trans hent1)
      subst hmt1
      refine decide_eq_false ?_
      rintro ⟨h1, -, h3⟩
      rcases Nat.lt_trichotomy t' (idxIn B j) with hlt | heq | hgt
      · have hu1 : i < (B.take (lineOf B j)).flatten.length + t' := by omega
        have hu2 : (B.take (lineOf B j)).flatten.length + t' < j := by omega
        have hraw := flat_get_of_line B (lineOf B j) bli t' m1 hBlj hm1
        exact hfailu _ m1 hu1 hu2 hraw h3.symm
      · have hm1j : m1 = mj := by
          rw [heq] at hm1
          exact Option.some.inj (hm1.symm.trans hbljj)
        rcases h1 with h1 | h1
        · exact h1 rfl
        · have h1' : m1.col < mj.col := h1
          rw [hm1j] at h1'
          omega
      · have hc1 : mj.col + mj.len ≤ m1.col :=
          lineSorted_le bli hslj t' m1 hm1 (idxIn B j) mj hgt hbljj
        rcases h1 with h1 | h1
        · exact h1 rfl
        · have h1' : m1.col < mj.col := h1
          omega
    have hstep : List.findSome? (fun q : Nat × List Match =>
        (q.2.reverse.find? fun m =>
          decide ((lineOf B j ≠ q.1 ∨ m.col < mj.col) ∧
            ({ mj with stack_height := some dp } : Match).token = m.token ∧
            ({ mj with stack_height := some dp } : Match).stack_height =
              m.stack_height)).map fun m => m.with_line q.1)
        ((lineOf B j, blj') :: ((recalculate_stack_heights
          ⟨B, states⟩).matches_by_line.take (lineOf B j)).enum.reverse) =
        some (({ mi with stack_height := some dp } : Match).with_line
          (lineOf B j)) :=
      findSome?_cons_some (show ((blj'.reverse.find? fun m =>
        decide ((lineOf B j ≠ lineOf B j ∨ m.col < mj.col) ∧
          ({ mj with stack_height := some dp } : Match).token = m.token ∧
          ({ mj with stack_height := some dp } : Match).stack_height =
            m.stack_height)).map fun m => m.with_line (lineOf B j)) =
        some (({ mi with stack_height := some dp } : Match).with_line
          (lineOf B j)) from by rw [hfind]; rfl)
    exact congrArg (Option.map fun op =>
      (op, ({ mj with stack_height := some dp } : Match).with_line
        (lineOf B j))) hstep
  · -- the opener sits on a strictly earlier line
    have hlij : lineOf B i < lineOf B j := by
      rcases Nat.lt_or_ge (lineOf B i) (lineOf B j) with h | h
      · exact h
      · exfalso
        have h1 : lineOf B j + 1 ≤ lineOf B i ∨ lineOf B j = lineOf B i := by
          omega
        rcases h1 with h1 | h1
        · have h2 := flatlen_mono B (lineOf B j + 1) (lineOf B i) h1
          have h3 := flatlen_succ B (lineOf B j) blj hBlj
          omega
        · exact hsame (by omega)
    have hflj_lb : (B.take (lineOf B i + 1)).flatten.length ≤
        (B.take (lineOf B j)).flatten.length :=
      flatlen_mono B _ _ (by omega)
    have hfli_succ := flatlen_succ B (lineOf B i) bli hBli
    have hmjlen : 1 ≤ mj.len := hslj.2 mj (List.get?_mem hbljj)
    have hiflat : i < (B.take (lineOf B j)).flatten.length := by omega
    have hfindnone : (blj'.reverse.find? fun m =>
        decide ((lineOf B j ≠ lineOf B j ∨ m.col < mj.col) ∧
          ({ mj with stack_height := some dp } : Match).token = m.token ∧
          ({ mj with stack_height := some dp } : Match).stack_height =
            m.stack_height)) = none := by
      rw [List.find?_eq_none]
      intro x hx
      obtain ⟨t', hmt'⟩ := List.mem_iff_get?.1 (List.mem_reverse.1 hx)
      have ht'len : t' < blj.length := by
        have h0 := get?_some_lt hmt'
        omega
      obtain ⟨m1, hm1⟩ := get?_of_lt ht'len
      have hent1 := hentj t' m1 hm1
      have hmt1 : x = { m1 with stack_height :=
          (((resolveGo [] B.flatten.enum fun _ => none)
            ((B.take (lineOf B j)).flatten.length + t')).getD
            m1.stack_height) } := Option.some.inj (hmt'.symm.trans hent1)
      subst hmt1
      simp only [decide_eq_true_eq]
      rintro ⟨h1, -, h3⟩
      rcases Nat.lt_trichotomy t' (idxIn B j) with hlt | heq | hgt
      · have hu1 : i < (B.take (lineOf B j)).flatten.length + t' := by omega
        have hu2 : (B.take (lineOf B j)).flatten.length + t' < j := by omega
        have hraw := flat_get_of_line B (lineOf B j) blj t' m1 hBlj hm1
        exact hfailu _ m1 hu1 hu2 hraw h3.symm
      · have hm1j : m1 = mj := by
          rw [heq] at hm1
          exact Option.some.inj (hm1.symm.trans hbljj)
        rcases h1 with h1 | h1
        · exact h1 rfl
        · have h1' : m1.col < mj.col := h1
          rw [hm1j] at h1'
          omega
      · have hc1 : mj.col + mj.len ≤ m1.col :=
          lineSorted_le blj hslj t' m1 hm1 (idxIn B j) mj hgt hbljj
        rcases h1 with h1 | h1
        · exact h1 rfl
        · have h1' : m1.col < mj.col := h1
          omega
    have hstepn : List.findSome? (fun q : Nat × List Match =>
        (q.2.reverse.find? fun m =>
          decide ((lineOf B j ≠ q.1 ∨ m.col < mj.col) ∧
            ({ mj with stack_height := some dp } : Match).token = m.token ∧
            ({ mj with stack_height := some dp } : Match).stack_height =
              m.stack_height)).map fun m => m.with_line q.1)
        ((lineOf B j, blj') :: ((recalculate_stack_heights
          ⟨B, states⟩).matches_by_line.take (lineOf B j)).enum.reverse) =
        List.findSome? (fun q : Nat × List Match =>
        (q.2.reverse.find? fun m =>
          decide ((lineOf B j ≠ q.1 ∨ m.col < mj.col) ∧
            ({ mj with stack_height := some dp } : Match).token = m.token ∧
            ({ mj with stack_height := some dp } : Match).stack_height =
              m.stack_height)).map fun m => m.with_line q.1)
        (((recalculate_stack_heights
          ⟨B, states⟩).matches_by_line.take (lineOf B j)).enum.reverse) :=
      findSome?_cons_none (show ((blj'.reverse.find? fun m =>
        decide ((lineOf B j ≠ lineOf B j ∨ m.col < mj.col) ∧
          ({ mj with stack_height := some dp } : Match).token = m.token ∧
          ({ mj with stack_height := some dp } : Match).stack_height =
            m.stack_height)).map fun m => m.with_line (lineOf B j)) = none
        from by rw [hfindnone]; rfl)
    have hcongr : List.findSome? (fun q : Nat × List Match =>
        (q.2.reverse.find? fun m =>
          decide ((lineOf B j ≠ q.1 ∨ m.col < mj.col) ∧
            ({ mj with stack_height := some dp } : Match).token = m.token ∧
            ({ mj with stack_height := some dp } : Match).stack_height =
              m.stack_height)).map fun m => m.with_line q.1)
        (((recalculate_stack_heights
          ⟨B, states⟩).matches_by_line.take (lineOf B j)).enum.reverse) =
        List.findSome? (fun q : Nat × List Match =>
          (q.2.reverse.find? fun m => decide (mj.token = m.token ∧
            (some dp : Option Nat) = m.stack_height)).map
            fun m => m.with_line q.1)
        (((recalculate_stack_heights
          ⟨B, states⟩).matches_by_line.take (lineOf B j)).enum.reverse) := by
      refine findSome?_congr _ fun q hq => ?_
      obtain ⟨qa, qb⟩ := q
      have hub : qa < lineOf B j := by
        have h0 := List.fst_lt_add_of_mem_enumFrom
          (show ((qa, qb) : Nat × List Match) ∈ List.enumFrom 0
            ((recalculate_stack_heights ⟨B, states⟩).matches_by_line.take
              (lineOf B j)) from List.mem_reverse.1 hq)
        rw [List.length_take] at h0
        omega
      refine congrArg (Option.map _) (find?_congr qb.reverse fun m _ => ?_)
      refine decide_eq_decide.2 ?_
      constructor
      · rintro ⟨-, h2, h3⟩
        exact ⟨h2, h3⟩
      · rintro ⟨h2, h3⟩
        exact ⟨Or.inl (by omega), h2, h3⟩
    have hL1 : ((recalculate_stack_heights ⟨B, states⟩).matches_by_line.take
        (lineOf B j)).flatten.get? i =
        some { mi with stack_height := some dp } := by
      rw [take_flatten_get? _ (lineOf B j) i (by rw [recalc_flatlen]; exact hiflat)]
      have h0 := resolved_flat B states i mi hi
      rw [hmarki] at h0
      simpa using h0
    have hsb := scan_bwd ((recalculate_stack_heights
        ⟨B, states⟩).matches_by_line.take (lineOf B j)) 0
      (fun m => decide (mj.token = m.token ∧
        (some dp : Option Nat) = m.stack_height))
      i { mi with stack_height := some dp }
      hL1
      (decide_eq_true ⟨htok.symm, rfl⟩)
      (by
        intro t mt ht hmt
        have htlen : t < ((recalculate_stack_heights
            ⟨B, states⟩).matches_by_line.take (lineOf B j)).flatten.length :=
          get?_some_lt hmt
        rw [recalc_flatlen] at htlen
        rw [take_flatten_get? _ (lineOf B j) t
          (by rw [recalc_flatlen]; exact htlen)] at hmt
        have htj : t < j := by omega
        have htBlen : t < B.flatten.length := by omega
        obtain ⟨mraw, hmraw⟩ := get?_of_lt htBlen
        have h0 := resolved_flat B states t mraw hmraw
        have hmt1 : mt = { mraw with stack_height :=
            (((resolveGo [] B.flatten.enum fun _ => none) t).getD
              mraw.stack_height) } := Option.some.inj (hmt.symm.trans h0)
        subst hmt1
        refine decide_eq_false ?_
        rintro ⟨-, h3⟩
        exact hfailu t mraw ht htj hmraw h3.symm)
    have htk : ((recalculate_stack_heights ⟨B, states⟩).matches_by_line.take
        (lineOf B j)).map (List.map eraseH) =
        (B.take (lineOf B j)).map (List.map eraseH) := by
      rw [List.map_take, List.map_take,
        show (recalculate_stack_heights ⟨B, states⟩).matches_by_line.map
          (List.map eraseH) = B.map (List.map eraseH) from
          assignHeights_map_erase B 0 _]
    have hline : 0 + lineOf ((recalculate_stack_heights
        ⟨B, states⟩).matches_by_line.take (lineOf B j)) i = lineOf B i := by
      rw [Nat.zero_add, lineOf_congr _ _ htk, lineOf_take (lineOf B j) B i hiflat]
    have hfinal : List.findSome? (fun q : Nat × List Match =>
        (q.2.reverse.find? fun m => decide (mj.token = m.token ∧
          (some dp : Option Nat) = m.stack_height)).map
          fun m => m.with_line q.1)
        (((recalculate_stack_heights
          ⟨B, states⟩).matches_by_line.take (lineOf B j)).enum.reverse) =
        some (({ mi with stack_height := some dp } : Match).with_line
          (lineOf B i)) := by
      rw [← hline]
      exact hsb
    exact congrArg (Option.map fun op =>
      (op, ({ mj with stack_height := some dp } : Match).with_line
        (lineOf B j))) (hstepn.trans (hcongr.trans hfinal))


/-- Claim C1: on every buffer whose Matches form a well-formed (balanced,
properly nested) delimiter sequence in document order (lines sorted by
column), every opening Match belongs to a syntactic pair and every closing
Match closes one; and for every syntactic pair, `match_pair` queried at
the opener's position returns exactly (that opener, its syntactically
corresponding closer), `match_pair` at the closer's position returns the
same pair, and both Matches carry `stack_height` equal to their common
nesting depth `dp` (the depth list starts at 0 for the outermost level). -/
theorem claim_C1 (B : List (List Match)) (states : List State)
    (hsort : BufSorted B) (hbal : Balanced B.flatten) :
    (∀ p m, B.flatten.get? p = some m →
      (m.kind = Kind.opening → ∃ j, (p, j) ∈ sPairs B.flatten) ∧
      (m.kind = Kind.closing → ∃ i, (i, p) ∈ sPairs B.flatten)) ∧
    (∀ i j, (i, j) ∈ sPairs B.flatten →
      ∀ mi mj, B.flatten.get? i = some mi → B.flatten.get? j = some mj →
      ∃ dp, (sDepths B.flatten).get? i = some dp ∧
        (sDepths B.flatten).get? j = some dp ∧
        match_pair (recalculate_stack_heights ⟨B, states⟩)
          (lineOf B i) mi.col =
          some (({ mi with stack_height := some dp }).with_line (lineOf B i),
            ({ mj with stack_height := some dp }).with_line (lineOf B j)) ∧
        match_pair (recalculate_stack_heights ⟨B, states⟩)
          (lineOf B j) mj.col =
          some (({ mi with stack_height := some dp }).with_line (lineOf B i),
            ({ mj with stack_height := some dp }).with_line (lineOf B j))) := by
  refine ⟨?_, ?_⟩
  · intro p m hp
    have h := sPairs_balanced_total hbal 0 p m hp
    constructor
    · intro hk
      obtain ⟨j, hj⟩ := h.1 hk
      rw [Nat.zero_add] at hj
      exact ⟨j, hj⟩
    · intro hk
      obtain ⟨i, hi⟩ := h.2 hk
      rw [Nat.zero_add] at hi
      exact ⟨i, hi⟩
  · intro i j hmem mi mj hi hj
    obtain ⟨h0i, hij, hjlen, ⟨mi0, mj0, hgi, hgj, hki0, hkj0, htok0⟩,
      hdepth⟩ := sPairs_balanced_mem hbal 0 i j hmem
    have hmi0 : mi0 = mi := Option.some.inj (hgi.symm.trans hi)
    have hmj0 : mj0 = mj := Option.some.inj (hgj.symm.trans hj)
    obtain ⟨dp, hdpi, hdpj, hbet0⟩ := hdepth 0
    have hmarks := marks_balanced hbal
    have hgdi : (sDepths B.flatten).getD i 0 = dp := getD_of_get? 0 hdpi
    have hgdj : (sDepths B.flatten).getD j 0 = dp := getD_of_get? 0 hdpj
    have hbet' : ∀ t dt, i < t → t < j →
        (sDepths B.flatten).get? t = some dt → dp < dt := by
      intro t dt h1 h2 h3
      exact hbet0 t dt h1 h2 h3
    refine ⟨dp, hdpi, hdpj, ?_, ?_⟩
    · exact pair_fwd B states hsort i j mi mj hi hj hij
        (by rw [← hmi0]; exact hki0) (by rw [← hmi0, ← hmj0]; exact htok0)
        dp hmarks hgdi hgdj hbet'
    · exact pair_bwd B states hsort i j mi mj hi hj hij
        (by rw [← hmj0]; exact hkj0) (by rw [← hmi0, ← hmj0]; exact htok0)
        dp hmarks hgdi hgdj hbet'

/-- Witness for C1: on the two-line nested buffer `c1B` the outer pair
(flat indices 0 and 3) has depth 0 and both queries return it. -/
theorem claim_C1_witness :
    BufSorted c1B ∧ Balanced c1B.flatten ∧ (0, 3) ∈ sPairs c1B.flatten ∧
    (∃ dp, (sDepths c1B.flatten).get? 0 = some dp ∧
      (sDepths c1B.flatten).get? 3 = some dp ∧
      match_pair (recalculate_stack_heights
        ⟨c1B, [State.normal, State.normal]⟩) 0 0 =
        some ((⟨Kind.opening, Token.delimiter "(" ")", 0, 1,
            some dp⟩ : Match).with_line 0,
          (⟨Kind.closing, Token.delimiter "(" ")", 2, 1,
            some dp⟩ : Match).with_line 1) ∧
      match_pair (recalculate_stack_heights
        ⟨c1B, [State.normal, State.normal]⟩) 1 2 =
        some ((⟨Kind.opening, Token.delimiter "(" ")", 0, 1,
            some dp⟩ : Match).with_line 0,
          (⟨Kind.closing, Token.delimiter "(" ")", 2, 1,
            some dp⟩ : Match).with_line 1)) :=
  have hs : BufSorted c1B := by
    intro l hl
    simp only [c1B, List.mem_cons, List.not_mem_nil, or_false] at hl
    rcases hl with h | h <;> subst h <;>
      exact ⟨List.chain'_cons.2 ⟨by decide, List.chain'_singleton _⟩,
        by decide⟩
  have hb : Balanced c1B.flatten :=
    Balanced.wrap ⟨.opening, .delimiter "(" ")", 0, 1, none⟩
      ⟨.closing, .delimiter "(" ")", 2, 1, none⟩
      [⟨.opening, .delimiter "(" ")", 2, 1, none⟩,
       ⟨.closing, .delimiter "(" ")", 0, 1, none⟩]
      rfl rfl rfl rfl
      (Balanced.wrap ⟨.opening, .delimiter "(" ")", 2, 1, none⟩
        ⟨.closing, .delimiter "(" ")", 0, 1, none⟩ [] rfl rfl rfl rfl
        Balanced.nil)
  have hmem : (0, 3) ∈ sPairs c1B.flatten := by decide
  ⟨hs, hb, hmem,
    (claim_C1 c1B [State.normal, State.normal] hs hb).2 0 3 hmem
      ⟨.opening, .delimiter "(" ")", 0, 1, none⟩
      ⟨.closing, .delimiter "(" ")", 2, 1, none⟩ rfl rfl⟩

end BlinkPairs
